import Mathlib

/-!
# jlist: a fixed-capacity, array-backed doubly linked ring list

Shallow embedding of `src/list.go`.

Modelling conventions.

* Go `int` is `Int` (slot indices are bounded by the slice length, `size` moves by one per
  call, so 64-bit overflow is out of reach); `uint64` is `Nat` (only ever copied).
* The Go type `List[K, V]` is called `JList` here, `List` being taken.
* Go zero values of `K` and `V` are `default` of `Inhabited`.
* An index expression `l.data[i]` outside `0 ≤ i < len(l.data)` is a run-time panic.  Every
  operation returns an `Option`; `none` stands for the panic (there is no state afterwards).
* A Go result pair `(x, error)` is a pair whose last component is `Option String`:
  `none` is the nil error, `some msg` is `errors.New(msg)`.
* A `*Entry` result (`&l.data[idx]`) is returned as the content of that slot at return time;
  a nil pointer is `none`.
* `Remove` takes a pointer.  The body reads `e.next`, `e.prev`, `e.Value` before its first
  write and afterwards only `e.idx`, which it never writes, so a pointer into `l.data` and a
  pointer to a copy behave alike; the argument is modelled as `Option (Entry K V)`.
* `Iterate` is the only loop; it carries a fuel parameter that bounds the number of loop
  bodies executed.  A result `outOfFuel` for every fuel means that the Go loop does not end.
* A handle of a live entry is a current copy of the slot standing at some position `p` of the
  list order, that is of the slot reached from `head` by `p` steps along `next` (`IsHandleAt`).
-/

namespace Jlist

variable {K V : Type}

/-- The Go struct `Entry[K, V]`. -/
structure Entry (K V : Type) where
  HashId : Nat
  prev : Int
  next : Int
  idx : Int
  Key : K
  Value : V
deriving DecidableEq, Repr

/-- The method `Idx`. -/
def Entry.Idx (e : Entry K V) : Int := e.idx

/-- The zero value of `Entry[K, V]`, as produced by `make`. -/
def Entry.zero [Inhabited K] [Inhabited V] : Entry K V :=
  { HashId := 0, prev := 0, next := 0, idx := 0, Key := default, Value := default }

/-- The Go struct `List[K, V]`. -/
structure JList (K V : Type) where
  cap : Int
  data : List (Entry K V)
  freeIdx : List Int
  head : Int
  tail : Int
  size : Int
deriving DecidableEq, Repr

/-- The constructor `NewList(capacity)`; `make` panics on a negative length. -/
def NewList [Inhabited K] [Inhabited V] (capacity : Int) : Option (JList K V) :=
  if capacity < 0 then none
  else some
    { cap := capacity
      data := List.replicate capacity.toNat Entry.zero
      freeIdx := (List.range capacity.toNat).map Int.ofNat
      head := -1
      tail := -1
      size := 0 }

/-- The read `l.data[i]`; `none` is the index-out-of-range panic. -/
def readSlot (d : List (Entry K V)) (i : Int) : Option (Entry K V) :=
  if 0 ≤ i then d[i.toNat]? else none

/-- The write `l.data[i].field = ...`, given as the update `f` of the slot content. -/
def writeSlot (d : List (Entry K V)) (i : Int) (f : Entry K V → Entry K V) :
    Option (List (Entry K V)) :=
  if 0 ≤ i ∧ i < (d.length : Int) then some (List.modify f i.toNat d) else none

/-- The statement `l.data[i].next = v`. -/
def JList.setNext (l : JList K V) (i v : Int) : Option (JList K V) :=
  (writeSlot l.data i (fun e => { e with next := v })).map (fun d => { l with data := d })

/-- The statement `l.data[i].prev = v`. -/
def JList.setPrev (l : JList K V) (i v : Int) : Option (JList K V) :=
  (writeSlot l.data i (fun e => { e with prev := v })).map (fun d => { l with data := d })

/-- The statement `l.data[i].idx = v`. -/
def JList.setIdx (l : JList K V) (i v : Int) : Option (JList K V) :=
  (writeSlot l.data i (fun e => { e with idx := v })).map (fun d => { l with data := d })

/-- The statement `l.data[i].Key = k`. -/
def JList.setKey (l : JList K V) (i : Int) (k : K) : Option (JList K V) :=
  (writeSlot l.data i (fun e => { e with Key := k })).map (fun d => { l with data := d })

/-- The statement `l.data[i].Value = v`. -/
def JList.setValue (l : JList K V) (i : Int) (v : V) : Option (JList K V) :=
  (writeSlot l.data i (fun e => { e with Value := v })).map (fun d => { l with data := d })

/-- The statement `l.data[i].HashId = h`. -/
def JList.setHashId (l : JList K V) (i : Int) (h : Nat) : Option (JList K V) :=
  (writeSlot l.data i (fun e => { e with HashId := h })).map (fun d => { l with data := d })

/-- The method `getNodeIdx`: pops the last index of the free stack. -/
def getNodeIdx (l : JList K V) : JList K V × Int × Bool :=
  if l.freeIdx.length = 0 then (l, -1, false)
  else ({ l with freeIdx := l.freeIdx.dropLast }, l.freeIdx.getLastD (-1), true)

/-- The method `putNodeIdx`: appends to the free stack. -/
def putNodeIdx (l : JList K V) (idx : Int) : JList K V :=
  { l with freeIdx := l.freeIdx ++ [idx] }

/-- The method `Len`. -/
def Len (l : JList K V) : Int := l.size

/-- The method `Cap`. -/
def Cap (l : JList K V) : Int := l.cap

/-- The method `Front`: outer `none` is a panic, inner `none` the nil pointer. -/
def Front (l : JList K V) : Option (Option (Entry K V)) :=
  if l.size = 0 then some none
  else if l.head ≠ -1 then (readSlot l.data l.head).map some
  else some none

/-- The method `Back`: outer `none` is a panic, inner `none` the nil pointer. -/
def Back (l : JList K V) : Option (Option (Entry K V)) :=
  if l.size = 0 then some none
  else if l.tail ≠ -1 then (readSlot l.data l.tail).map some
  else some none

/-- The method `remove`; the argument `none` is the nil pointer. -/
def remove [Inhabited V] (l : JList K V) (e : Option (Entry K V)) :
    Option (JList K V × V × Option String) :=
  match e with
  | none => some (l, default, some "node null")
  | some e =>
    if e.next = -1 ∨ e.prev = -1 then some (l, e.Value, some "unknown node")
    else if l.cap ≤ e.idx ∨ e.idx < 0 then some (l, e.Value, some "invalid node")
    else do
      let node ← readSlot l.data e.idx
      if node.prev = -1 ∨ node.next = -1 then some (l, e.Value, some "invalid node")
      else if e.next ≠ node.next ∨ e.prev ≠ node.prev then
        some (l, e.Value, some "list changed")
      else do
        let value := e.Value
        let l ← l.setNext node.prev node.next
        let l ← l.setPrev node.next node.prev
        let l := if l.head = e.idx then { l with head := node.next } else l
        let l := if l.tail = e.idx then { l with tail := node.prev } else l
        let l ← l.setPrev e.idx (-1)
        let l ← l.setNext e.idx (-1)
        let l := putNodeIdx l e.idx
        let l := { l with size := l.size - 1 }
        let l := if l.size = 0 then { l with head := -1, tail := -1 } else l
        some (l, value, none)

/-- The method `Remove`. -/
def Remove [Inhabited V] (l : JList K V) (e : Option (Entry K V)) :
    Option (JList K V × V × Option String) :=
  remove l e

/-- The method `PushFront`. -/
def PushFront (l : JList K V) (key : K) (value : V) :
    Option (JList K V × Option (Entry K V) × Option String) :=
  match getNodeIdx l with
  | (l, _, false) => some (l, none, some "memory pool exhausted")
  | (l, idx, true) => do
    let l ← l.setKey idx key
    let l ← l.setValue idx value
    let l ← l.setIdx idx idx
    let l ←
      if l.head ≠ -1 ∧ l.tail ≠ -1 then do
        let l ← l.setPrev l.head idx
        let l ← l.setNext l.tail idx
        let l ← l.setNext idx l.head
        let l ← l.setPrev idx l.tail
        pure { l with head := idx }
      else do
        let l ← l.setNext idx idx
        let l ← l.setPrev idx idx
        pure { l with head := idx, tail := idx }
    let l := { l with size := l.size + 1 }
    let e ← readSlot l.data idx
    some (l, some e, none)

/-- The method `PushBack`. -/
def PushBack (l : JList K V) (key : K) (value : V) :
    Option (JList K V × Option (Entry K V) × Option String) :=
  match getNodeIdx l with
  | (l, _, false) => some (l, none, some "memory pool exhausted")
  | (l, idx, true) => do
    let l ← l.setKey idx key
    let l ← l.setValue idx value
    let l ← l.setIdx idx idx
    let l ←
      if l.head ≠ -1 ∧ l.tail ≠ -1 then do
        let l ← l.setNext l.tail idx
        let l ← l.setPrev l.head idx
        let l ← l.setPrev idx l.tail
        let l ← l.setNext idx l.head
        pure { l with tail := idx }
      else do
        let l ← l.setNext idx idx
        let l ← l.setPrev idx idx
        pure { l with head := idx, tail := idx }
    let l := { l with size := l.size + 1 }
    let e ← readSlot l.data idx
    some (l, some e, none)

/-- The method `insertBefore`. -/
def insertBefore (l : JList K V) (k : K) (v : V) (mark : Entry K V) :
    Option (JList K V × Option (Entry K V) × Option String) :=
  match getNodeIdx l with
  | (l, _, false) => some (l, none, some "memory pool exhausted")
  | (l, idx, true) =>
    if l.cap ≤ mark.idx ∨ mark.idx < 0 then some (l, none, some "invalid node")
    else do
      let markNode ← readSlot l.data mark.idx
      if markNode.prev = -1 ∨ markNode.next = -1 then some (l, none, some "invalid node")
      else do
        let l ← l.setKey idx k
        let l ← l.setValue idx v
        let l ← l.setIdx idx idx
        let l ← l.setNext idx markNode.idx
        let l ← l.setPrev idx markNode.prev
        let l ← l.setNext markNode.prev idx
        let l ← l.setPrev markNode.idx idx
        let l := if l.head = markNode.idx ∨ l.head = -1 then { l with head := idx } else l
        let l := { l with size := l.size + 1 }
        let e ← readSlot l.data idx
        some (l, some e, none)

/-- The method `InsertBefore`. -/
def InsertBefore (l : JList K V) (k : K) (v : V) (mark : Entry K V) :
    Option (JList K V × Option (Entry K V) × Option String) :=
  insertBefore l k v mark

/-- The method `insertAfter`. -/
def insertAfter (l : JList K V) (k : K) (v : V) (mark : Entry K V) :
    Option (JList K V × Option (Entry K V) × Option String) :=
  match getNodeIdx l with
  | (l, _, false) => some (l, none, some "memory pool exhausted")
  | (l, idx, true) =>
    if l.cap ≤ mark.idx ∨ mark.idx < 0 then some (l, none, some "invalid node")
    else do
      let markNode ← readSlot l.data mark.idx
      if markNode.prev = -1 ∨ markNode.next = -1 then some (l, none, some "invalid node")
      else do
        let l ← l.setKey idx k
        let l ← l.setValue idx v
        let l ← l.setIdx idx idx
        let l ← l.setPrev idx markNode.idx
        let l ← l.setNext idx markNode.next
        let l ← l.setPrev markNode.next idx
        let l ← l.setNext markNode.idx idx
        let l := if l.tail = markNode.idx ∨ l.tail = -1 then { l with tail := idx } else l
        let l := { l with size := l.size + 1 }
        let e ← readSlot l.data idx
        some (l, some e, none)

/-- The method `InsertAfter`. -/
def InsertAfter (l : JList K V) (k : K) (v : V) (mark : Entry K V) :
    Option (JList K V × Option (Entry K V) × Option String) :=
  insertAfter l k v mark

/-- The method `MoveToFront`; the entry is passed by value. -/
def MoveToFront (l : JList K V) (e : Entry K V) : Option (JList K V × Option String) :=
  if l.cap ≤ e.idx ∨ e.idx < 0 then some (l, some "invalid node")
  else do
    let markNode ← readSlot l.data e.idx
    if markNode.prev = -1 ∨ markNode.next = -1 then some (l, some "invalid node")
    else if e.idx = l.head then some (l, none)
    else do
      let l ← l.setNext e.prev e.next
      let l ← l.setPrev e.next e.prev
      let l ← l.setNext l.tail e.idx
      let l ← l.setPrev l.head e.idx
      let l ← l.setNext e.idx l.head
      let l ← l.setPrev e.idx l.tail
      some ({ l with head := e.idx }, none)

/-- The method `MoveToBack`; the entry is passed by value. -/
def MoveToBack (l : JList K V) (e : Entry K V) : Option (JList K V × Option String) :=
  if l.cap ≤ e.idx ∨ e.idx < 0 then some (l, some "invalid node")
  else do
    let markNode ← readSlot l.data e.idx
    if markNode.prev = -1 ∨ markNode.next = -1 then some (l, some "invalid node")
    else if e.idx = l.tail then some (l, none)
    else do
      let l ← l.setNext e.prev e.next
      let l ← l.setPrev e.next e.prev
      let l ← l.setNext l.tail e.idx
      let l ← l.setPrev l.head e.idx
      let l ← l.setNext e.idx l.head
      let l ← l.setPrev e.idx l.tail
      some ({ l with tail := e.idx }, none)

/-- What a run of `Iterate` with bounded fuel comes to. -/
inductive IterResult (V : Type) where
  | done (vs : List V)
  | panicked
  | outOfFuel
deriving DecidableEq, Repr

/-- The `for current != -1` loop of `Iterate`; one unit of fuel per loop body. -/
def iterateLoop (l : JList K V) : Nat → Int → List V → IterResult V
  | fuel, current, result =>
    if current = -1 then IterResult.done result
    else
      match fuel with
      | 0 => IterResult.outOfFuel
      | fuel + 1 =>
        match readSlot l.data current with
        | none => IterResult.panicked
        | some e =>
          if e.next = l.head then IterResult.done (result ++ [e.Value])
          else iterateLoop l fuel e.next (result ++ [e.Value])

/-- The method `Iterate`, run with the given fuel. -/
def Iterate (fuel : Nat) (l : JList K V) : IterResult V :=
  iterateLoop l fuel l.head []

/-- The method `Entry` (named `EntryAt`, `Entry` being the struct). -/
def EntryAt [Inhabited K] [Inhabited V] (l : JList K V) (idx : Int) :
    Option (Entry K V × Option String) :=
  if l.cap ≤ idx ∨ idx < 0 then some (Entry.zero, some "invalid node")
  else do
    let markNode ← readSlot l.data idx
    if markNode.prev = -1 ∨ markNode.next = -1 then some (Entry.zero, some "invalid node")
    else do
      let r ← readSlot l.data idx
      some (r, none)

/-- The method `UpdateEntry`. -/
def UpdateEntry (l : JList K V) (idx : Int) (e : Entry K V) : Option (JList K V × Option String) :=
  if l.cap ≤ idx ∨ idx < 0 then some (l, some "invalid node")
  else do
    let markNode ← readSlot l.data idx
    if markNode.prev = -1 ∨ markNode.next = -1 then some (l, some "invalid node")
    else do
      let l ← l.setKey idx e.Key
      let l ← l.setHashId idx e.HashId
      let l ← l.setValue idx e.Value
      some (l, none)

/-- The method `Clear`. -/
def Clear (l : JList K V) : JList K V :=
  { l with data := [], freeIdx := [], head := -1, tail := -1, size := 0 }


/-- Reads one field of slot `i`; `none` when `i` is out of bounds. -/
def fieldAt {α : Type} (g : Entry K V → α) (d : List (Entry K V)) (i : Int) : Option α :=
  (readSlot d i).map g

/-- The stored `next` link of slot `i`. -/
@[reducible]
def nextAt (d : List (Entry K V)) : Int → Option Int := fieldAt Entry.next d

/-- The stored `prev` link of slot `i`. -/
@[reducible]
def prevAt (d : List (Entry K V)) : Int → Option Int := fieldAt Entry.prev d

/-- The stored `idx` field of slot `i`. -/
@[reducible]
def idxAt (d : List (Entry K V)) : Int → Option Int := fieldAt Entry.idx d

/-- The stored `Value` of slot `i`. -/
@[reducible]
def valAt (d : List (Entry K V)) : Int → Option V := fieldAt Entry.Value d

/-- Forward links along `xs`: every slot of `xs` points with `next` to its successor in `xs`,
the last one to `q`. -/
def NextSeg (nx : Int → Option Int) : List Int → Int → Prop
  | [], _ => True
  | x :: r, q => nx x = some (r.headD q) ∧ NextSeg nx r q

/-- Backward links along `xs`: every slot of `xs` points with `prev` to its predecessor in
`xs`, the first one to `p`. -/
def PrevSeg (pv : Int → Option Int) : Int → List Int → Prop
  | _, [] => True
  | p, x :: r => pv x = some p ∧ PrevSeg pv x r

/-- The representation invariant: `xs` lists the slots of the live entries in list order. -/
structure Inv (l : JList K V) (xs : List Int) : Prop where
  capLen : (l.data.length : Int) = l.cap
  size : l.size = (xs.length : Int)
  head : l.head = xs.headD (-1)
  tail : l.tail = xs.getLastD (-1)
  nodup : xs.Nodup
  inRange : ∀ x ∈ xs, 0 ≤ x ∧ x < l.cap
  next : NextSeg (nextAt l.data) xs l.head
  prev : PrevSeg (prevAt l.data) l.tail xs
  idx : ∀ x ∈ xs, idxAt l.data x = some x
  freeNodup : l.freeIdx.Nodup
  freeRange : ∀ f ∈ l.freeIdx, 0 ≤ f ∧ f < l.cap
  disjoint : ∀ x ∈ xs, x ∉ l.freeIdx
  cover : ∀ i : Int, 0 ≤ i → i < l.cap → i ∈ xs ∨ i ∈ l.freeIdx
  count : (xs.length : Int) + (l.freeIdx.length : Int) = l.cap

/-- Follows the stored `next` link `p` times, starting from slot `c`. -/
def walk (l : JList K V) : Nat → Int → Option Int
  | 0, c => some c
  | p + 1, c => (nextAt l.data c).bind (walk l p)

/-- The slot of the entry at position `p` of the list order (position 0 is the head). -/
def slotAt (l : JList K V) (p : Nat) : Option Int := walk l p l.head

/-- The entry `e` is a current copy of the live entry at position `p`. -/
def IsHandleAt (l : JList K V) (p : Nat) (e : Entry K V) : Prop :=
  (p : Int) < l.size ∧ ∃ i, slotAt l p = some i ∧ readSlot l.data i = some e

/-- The entry `e` is a current copy of a live entry. -/
def IsHandle (l : JList K V) (e : Entry K V) : Prop := ∃ p, IsHandleAt l p e

/-- The well-formed lists: those built from `NewList` by successful insertions and removals
whose handle arguments are current copies of live entries. -/
inductive WellFormed [Inhabited K] [Inhabited V] : JList K V → Prop where
  | newList (capacity : Int) (l : JList K V) : NewList capacity = some l → WellFormed l
  | pushFront (l l2 : JList K V) (k : K) (v : V) (e : Entry K V) :
      WellFormed l → PushFront l k v = some (l2, some e, none) → WellFormed l2
  | pushBack (l l2 : JList K V) (k : K) (v : V) (e : Entry K V) :
      WellFormed l → PushBack l k v = some (l2, some e, none) → WellFormed l2
  | insertBefore (l l2 : JList K V) (k : K) (v : V) (mark e : Entry K V) :
      WellFormed l → IsHandle l mark → InsertBefore l k v mark = some (l2, some e, none) →
      WellFormed l2
  | insertAfter (l l2 : JList K V) (k : K) (v : V) (mark e : Entry K V) :
      WellFormed l → IsHandle l mark → InsertAfter l k v mark = some (l2, some e, none) →
      WellFormed l2
  | remove (l l2 : JList K V) (e : Entry K V) (v : V) :
      WellFormed l → IsHandle l e → Remove l (some e) = some (l2, v, none) → WellFormed l2

/-- The stored `Key` of slot `i`. -/
@[reducible]
def keyAt (d : List (Entry K V)) : Int → Option K := fieldAt Entry.Key d

/-- The stored `HashId` of slot `i`. -/
@[reducible]
def hashAt (d : List (Entry K V)) : Int → Option Nat := fieldAt Entry.HashId d

/-- The effect of an insertion on the slot array: slot `idx` receives key and value and is
linked between `P` and `S`; nothing else changes. -/
structure Spliced (l l2 : JList K V) (P S idx : Int) (k : K) (v : V) : Prop where
  cap_eq : l2.cap = l.cap
  len_eq : l2.data.length = l.data.length
  size_eq : l2.size = l.size + 1
  next_eq : nextAt l2.data = Function.update (Function.update (nextAt l.data) P (some idx)) idx (some S)
  prev_eq : prevAt l2.data = Function.update (Function.update (prevAt l.data) S (some idx)) idx (some P)
  idx_eq : idxAt l2.data = Function.update (idxAt l.data) idx (some idx)
  val_eq : valAt l2.data = Function.update (valAt l.data) idx (some v)
  key_eq : keyAt l2.data = Function.update (keyAt l.data) idx (some k)
  hash_eq : hashAt l2.data = hashAt l.data

/-- The list with slot `i` of the slot array rewritten by `f`. -/
def JList.modifySlot (l : JList K V) (i : Int) (f : Entry K V → Entry K V) : JList K V :=
  { l with data := List.modify f i.toNat l.data }

/-- The effect of a removal on the slot array: `P` and `S` are linked to each other, the links
of slot `m` are set to `-1` and `m` is pushed on the free stack; nothing else changes. -/
structure Unlinked (l l2 : JList K V) (P S m : Int) : Prop where
  cap_eq : l2.cap = l.cap
  len_eq : l2.data.length = l.data.length
  size_eq : l2.size = l.size - 1
  free_eq : l2.freeIdx = l.freeIdx ++ [m]
  next_eq : nextAt l2.data = Function.update (Function.update (nextAt l.data) P (some S)) m (some (-1))
  prev_eq : prevAt l2.data = Function.update (Function.update (prevAt l.data) S (some P)) m (some (-1))
  idx_eq : idxAt l2.data = idxAt l.data
  val_eq : valAt l2.data = valAt l.data
  key_eq : keyAt l2.data = keyAt l.data
  hash_eq : hashAt l2.data = hashAt l.data

/-- The stored values of the slots `xs`, in that order. -/
def valuesOf (l : JList K V) (xs : List Int) : List V := xs.filterMap (valAt l.data)

/-- Calls `PushBack` with the given key/value pairs in order; `none` as soon as one call does
not succeed. -/
def pushBackAll (l : JList K V) : List (K × V) → Option (JList K V)
  | [] => some l
  | (k, v) :: rest =>
    match PushBack l k v with
    | some (l2, some _, none) => pushBackAll l2 rest
    | _ => none

/-- Example: slot content with the given links, key and value and `HashId` 0. -/
def exEntry (prev next idx : Int) (key : String) (value : Int) : Entry String Int :=
  { HashId := 0, prev := prev, next := next, idx := idx, Key := key, Value := value }

/-- Example: `NewList[string, int](3)`. -/
def exNew3 : JList String Int :=
  { cap := 3, data := [Entry.zero, Entry.zero, Entry.zero], freeIdx := [0, 1, 2],
    head := -1, tail := -1, size := 0 }

/-- Example: `exNew3` after `PushBack("A", 1)`. -/
def exA : JList String Int :=
  { cap := 3, data := [Entry.zero, Entry.zero, exEntry 2 2 2 "A" 1], freeIdx := [0, 1],
    head := 2, tail := 2, size := 1 }

/-- Example: `exA` after `PushBack("B", 2)`. -/
def exAB : JList String Int :=
  { cap := 3, data := [Entry.zero, exEntry 2 2 1 "B" 2, exEntry 1 1 2 "A" 1], freeIdx := [0],
    head := 2, tail := 1, size := 2 }

/-- The list states reachable through the public operations: from `NewList`, by any call of a
mutating method with any arguments that returns (with or without an error).  `Front`, `Back`,
`Len`, `Cap`, `Iterate` and `Entry` do not change the list. -/
inductive Reachable [Inhabited K] [Inhabited V] : JList K V → Prop where
  | newList (capacity : Int) (l : JList K V) : NewList capacity = some l → Reachable l
  | pushFront (l l2 : JList K V) (k : K) (v : V) (r : Option (Entry K V))
      (err : Option String) :
      Reachable l → PushFront l k v = some (l2, r, err) → Reachable l2
  | pushBack (l l2 : JList K V) (k : K) (v : V) (r : Option (Entry K V))
      (err : Option String) :
      Reachable l → PushBack l k v = some (l2, r, err) → Reachable l2
  | insertBefore (l l2 : JList K V) (k : K) (v : V) (mark : Entry K V)
      (r : Option (Entry K V)) (err : Option String) :
      Reachable l → InsertBefore l k v mark = some (l2, r, err) → Reachable l2
  | insertAfter (l l2 : JList K V) (k : K) (v : V) (mark : Entry K V)
      (r : Option (Entry K V)) (err : Option String) :
      Reachable l → InsertAfter l k v mark = some (l2, r, err) → Reachable l2
  | remove (l l2 : JList K V) (e : Option (Entry K V)) (v : V) (err : Option String) :
      Reachable l → Remove l e = some (l2, v, err) → Reachable l2
  | moveToFront (l l2 : JList K V) (e : Entry K V) (err : Option String) :
      Reachable l → MoveToFront l e = some (l2, err) → Reachable l2
  | moveToBack (l l2 : JList K V) (e : Entry K V) (err : Option String) :
      Reachable l → MoveToBack l e = some (l2, err) → Reachable l2
  | updateEntry (l l2 : JList K V) (idx : Int) (e : Entry K V) (err : Option String) :
      Reachable l → UpdateEntry l idx e = some (l2, err) → Reachable l2
  | clear (l : JList K V) : Reachable l → Reachable (Clear l)

/-- Example: `NewList[string, int](2)`. -/
def exNew2 : JList String Int :=
  { cap := 2, data := [Entry.zero, Entry.zero], freeIdx := [0, 1], head := -1, tail := -1,
    size := 0 }

/-- Example: `exNew2` after `PushBack("A", 1)`. -/
def exA2 : JList String Int :=
  { cap := 2, data := [Entry.zero, exEntry 1 1 1 "A" 1], freeIdx := [0], head := 1, tail := 1,
    size := 1 }

/-- Example: `exA2` after `PushBack("B", 2)`; the list is full and iterates as `[1, 2]`. -/
def exAB2 : JList String Int :=
  { cap := 2, data := [exEntry 1 1 0 "B" 2, exEntry 0 0 1 "A" 1], freeIdx := [], head := 1,
    tail := 0, size := 2 }

/-- Example: `exAB2` after `MoveToFront` of a current copy of its tail entry `B`. -/
def exAB2Front : JList String Int :=
  { cap := 2, data := [exEntry 0 1 0 "B" 2, exEntry 0 1 1 "A" 1], freeIdx := [], head := 0,
    tail := 0, size := 2 }

/-- Example: `exAB2` after `MoveToBack` of a current copy of its head entry `A`. -/
def exAB2Back : JList String Int :=
  { cap := 2, data := [exEntry 0 1 0 "B" 2, exEntry 0 1 1 "A" 1], freeIdx := [], head := 1,
    tail := 1, size := 2 }

/-- Example: `exA` after `Remove` of its only entry. -/
def exRemoved : JList String Int :=
  { cap := 3, data := [Entry.zero, Entry.zero, exEntry (-1) (-1) 2 "A" 1], freeIdx := [0, 1, 2],
    head := -1, tail := -1, size := 0 }

/-- Example: `NewList[string, int](1)` after `PushFront("A", 1)`. -/
def exOne : JList String Int :=
  { cap := 1, data := [exEntry 0 0 0 "A" 1], freeIdx := [], head := 0, tail := 0, size := 1 }

/-- Example: `exOne` after `UpdateEntry(0, Entry{Key: "A", Value: 100})`. -/
def exOneUpdated : JList String Int :=
  { cap := 1, data := [exEntry 0 0 0 "A" 100], freeIdx := [], head := 0, tail := 0, size := 1 }

/-- Example: `exRemoved` with the top of its free stack popped. -/
def exLeaked : JList String Int :=
  { cap := 3, data := [Entry.zero, Entry.zero, exEntry (-1) (-1) 2 "A" 1], freeIdx := [0, 1],
    head := -1, tail := -1, size := 0 }

/-- Example: `exOneUpdated` after `Remove` of its only entry. -/
def exOneRemoved : JList String Int :=
  { cap := 1, data := [exEntry (-1) (-1) 0 "A" 100], freeIdx := [0], head := -1, tail := -1,
    size := 0 }

/-- Follows the stored `prev` link `p` times, starting from slot `c`. -/
def walkPrev (l : JList K V) : Nat → Int → Option Int
  | 0, c => some c
  | p + 1, c => (prevAt l.data c).bind (walkPrev l p)

/-- Example: `NewList[string, int](1)`. -/
def exNew1 : JList String Int :=
  { cap := 1, data := [Entry.zero], freeIdx := [0], head := -1, tail := -1, size := 0 }

/-- Example: `exAB` after `PushBack("C", 3)`; the list is full and iterates as `[1, 2, 3]`. -/
def exABC : JList String Int :=
  { cap := 3, data := [exEntry 1 2 0 "C" 3, exEntry 2 0 1 "B" 2, exEntry 0 1 2 "A" 1],
    freeIdx := [], head := 2, tail := 0, size := 3 }

/-- Example: the entry `B` as `PushBack("B", 2)` returned it, before `C` was pushed. -/
def exStaleB : Entry String Int := exEntry 2 2 1 "B" 2

/-- Example: `exABC` after `MoveToFront(exStaleB)`. -/
def exABCFront : JList String Int :=
  { cap := 3, data := [exEntry 1 1 0 "C" 3, exEntry 0 2 1 "B" 2, exEntry 1 2 2 "A" 1],
    freeIdx := [], head := 1, tail := 0, size := 3 }

/-- Example: `exABC` after `MoveToBack(exStaleB)`. -/
def exABCBack : JList String Int :=
  { cap := 3, data := [exEntry 1 1 0 "C" 3, exEntry 0 2 1 "B" 2, exEntry 1 2 2 "A" 1],
    freeIdx := [], head := 2, tail := 1, size := 3 }

/-- Example: an entry value with `HashId` 7, as a caller passes it to `UpdateEntry`. -/
def exTag : Entry String Int :=
  { HashId := 7, prev := 0, next := 0, idx := 0, Key := "A", Value := 1 }

/-- Example: `exOne` after `UpdateEntry(0, exTag)`. -/
def exOneTagged : JList String Int :=
  { cap := 1, data := [exTag], freeIdx := [], head := 0, tail := 0, size := 1 }

/-- Example: `exOneTagged` after `Remove` of its only entry. -/
def exOneTaggedRemoved : JList String Int :=
  { cap := 1,
    data := [{ HashId := 7, prev := -1, next := -1, idx := 0, Key := "A", Value := 1 }],
    freeIdx := [0], head := -1, tail := -1, size := 0 }

/-- Example: the entry that `PushFront("B", 2)` returns on `exOneTaggedRemoved`. -/
def exReusedEntry : Entry String Int :=
  { HashId := 7, prev := 0, next := 0, idx := 0, Key := "B", Value := 2 }

/-- Example: `exOneTaggedRemoved` after `PushFront("B", 2)`. -/
def exOneReused : JList String Int :=
  { cap := 1, data := [exReusedEntry], freeIdx := [], head := 0, tail := 0, size := 1 }

/-- The list states reachable from `l0` through the public operations: by any number of calls
of a mutating method with any arguments that return (with or without an error). -/
inductive ReachableFrom [Inhabited K] [Inhabited V] (l0 : JList K V) : JList K V → Prop where
  | start : ReachableFrom l0 l0
  | pushFront (l l2 : JList K V) (k : K) (v : V) (r : Option (Entry K V))
      (err : Option String) :
      ReachableFrom l0 l → PushFront l k v = some (l2, r, err) → ReachableFrom l0 l2
  | pushBack (l l2 : JList K V) (k : K) (v : V) (r : Option (Entry K V))
      (err : Option String) :
      ReachableFrom l0 l → PushBack l k v = some (l2, r, err) → ReachableFrom l0 l2
  | insertBefore (l l2 : JList K V) (k : K) (v : V) (mark : Entry K V)
      (r : Option (Entry K V)) (err : Option String) :
      ReachableFrom l0 l → InsertBefore l k v mark = some (l2, r, err) → ReachableFrom l0 l2
  | insertAfter (l l2 : JList K V) (k : K) (v : V) (mark : Entry K V)
      (r : Option (Entry K V)) (err : Option String) :
      ReachableFrom l0 l → InsertAfter l k v mark = some (l2, r, err) → ReachableFrom l0 l2
  | remove (l l2 : JList K V) (e : Option (Entry K V)) (v : V) (err : Option String) :
      ReachableFrom l0 l → Remove l e = some (l2, v, err) → ReachableFrom l0 l2
  | moveToFront (l l2 : JList K V) (e : Entry K V) (err : Option String) :
      ReachableFrom l0 l → MoveToFront l e = some (l2, err) → ReachableFrom l0 l2
  | moveToBack (l l2 : JList K V) (e : Entry K V) (err : Option String) :
      ReachableFrom l0 l → MoveToBack l e = some (l2, err) → ReachableFrom l0 l2
  | updateEntry (l l2 : JList K V) (idx : Int) (e : Entry K V) (err : Option String) :
      ReachableFrom l0 l → UpdateEntry l idx e = some (l2, err) → ReachableFrom l0 l2
  | clear (l : JList K V) : ReachableFrom l0 l → ReachableFrom l0 (Clear l)

/-- The list states reached from `NewList` through the public operations other than `Clear`,
with any arguments and successful or failing, where no `InsertBefore` or `InsertAfter` call
has returned the error "invalid node". -/
inductive ReachableConserving [Inhabited K] [Inhabited V] : JList K V → Prop where
  | newList (capacity : Int) (l : JList K V) : NewList capacity = some l → ReachableConserving l
  | pushFront (l l2 : JList K V) (k : K) (v : V) (r : Option (Entry K V))
      (err : Option String) :
      ReachableConserving l → PushFront l k v = some (l2, r, err) → ReachableConserving l2
  | pushBack (l l2 : JList K V) (k : K) (v : V) (r : Option (Entry K V))
      (err : Option String) :
      ReachableConserving l → PushBack l k v = some (l2, r, err) → ReachableConserving l2
  | insertBefore (l l2 : JList K V) (k : K) (v : V) (mark : Entry K V)
      (r : Option (Entry K V)) (err : Option String) :
      ReachableConserving l → InsertBefore l k v mark = some (l2, r, err) →
      err ≠ some "invalid node" → ReachableConserving l2
  | insertAfter (l l2 : JList K V) (k : K) (v : V) (mark : Entry K V)
      (r : Option (Entry K V)) (err : Option String) :
      ReachableConserving l → InsertAfter l k v mark = some (l2, r, err) →
      err ≠ some "invalid node" → ReachableConserving l2
  | remove (l l2 : JList K V) (e : Option (Entry K V)) (v : V) (err : Option String) :
      ReachableConserving l → Remove l e = some (l2, v, err) → ReachableConserving l2
  | moveToFront (l l2 : JList K V) (e : Entry K V) (err : Option String) :
      ReachableConserving l → MoveToFront l e = some (l2, err) → ReachableConserving l2
  | moveToBack (l l2 : JList K V) (e : Entry K V) (err : Option String) :
      ReachableConserving l → MoveToBack l e = some (l2, err) → ReachableConserving l2
  | updateEntry (l l2 : JList K V) (idx : Int) (e : Entry K V) (err : Option String) :
      ReachableConserving l → UpdateEntry l idx e = some (l2, err) → ReachableConserving l2

/-- The forward ring invariant: `ys` lists `Len()` distinct slots, the first one is `head`
(`head` is -1 when there is none), every slot of `ys` points with `next` to the following one
and the last one back to `head`. -/
structure RingIntact (l : JList K V) (ys : List Int) : Prop where
  size : l.size = (ys.length : Int)
  head : l.head = ys.headD (-1)
  nodup : ys.Nodup
  next : NextSeg (nextAt l.data) ys l.head

/-- Example: `exLeaked` after `PushBack("Z", 9)`. -/
def exLeakedPush : JList String Int :=
  { cap := 3, data := [Entry.zero, exEntry 1 1 1 "Z" 9, exEntry (-1) (-1) 2 "A" 1],
    freeIdx := [0], head := 1, tail := 1, size := 1 }

/-- Example: `exLeakedPush` after `PushBack("Y", 8)`; it iterates as `[9, 8]`, its capacity
is 3 and its free stack is empty. -/
def exLeakedPush2 : JList String Int :=
  { cap := 3, data := [exEntry 1 1 0 "Y" 8, exEntry 0 0 1 "Z" 9, exEntry (-1) (-1) 2 "A" 1],
    freeIdx := [], head := 1, tail := 0, size := 2 }

theorem readSlot_modify (f : Entry K V → Entry K V) (d : List (Entry K V)) (i j : Int)
    (hi : 0 ≤ i) :
    readSlot (List.modify f i.toNat d) j = if j = i then (readSlot d i).map f else readSlot d j := by
  unfold readSlot
  by_cases hj : 0 ≤ j
  · simp only [hj, hi, if_true, List.getElem?_modify]
    by_cases hji : j = i
    · subst hji
      simp
    · have : i.toNat ≠ j.toNat := by omega
      simp [hji, this]
  · have hji : j ≠ i := by omega
    simp [hj, hji]

theorem readSlot_isSome (d : List (Entry K V)) (i : Int) (h0 : 0 ≤ i) (h1 : i < (d.length : Int)) :
    ∃ e, readSlot d i = some e := by
  unfold readSlot
  have : i.toNat < d.length := by omega
  simp [h0, List.getElem?_eq_getElem this]

theorem readSlot_bounds (d : List (Entry K V)) (i : Int) (e : Entry K V)
    (h : readSlot d i = some e) : 0 ≤ i ∧ i < (d.length : Int) := by
  unfold readSlot at h
  by_cases h0 : 0 ≤ i
  · simp only [h0, if_true] at h
    have := (List.getElem?_eq_some_iff.mp h).1
    omega
  · simp [h0] at h

theorem fieldAt_modify_frame {α : Type} (g : Entry K V → α) (f : Entry K V → Entry K V)
    (hf : ∀ e, g (f e) = g e) (d : List (Entry K V)) (n : Nat) :
    fieldAt g (List.modify f n d) = fieldAt g d := by
  funext j
  unfold fieldAt readSlot
  by_cases hj : 0 ≤ j
  · simp only [hj, if_true, List.getElem?_modify]
    cases h : d[j.toNat]? with
    | none => simp
    | some e => by_cases hn : n = j.toNat <;> simp [hn, hf]
  · simp [hj]

theorem fieldAt_modify_hit {α : Type} (g : Entry K V → α) (f : Entry K V → Entry K V) (c : α)
    (hf : ∀ e, g (f e) = c) (d : List (Entry K V)) (i : Int) (hi : 0 ≤ i)
    (h1 : i < (d.length : Int)) :
    fieldAt g (List.modify f i.toNat d) = Function.update (fieldAt g d) i (some c) := by
  funext j
  unfold fieldAt
  rw [readSlot_modify f d i j hi]
  by_cases hji : j = i
  · subst hji
    obtain ⟨e, he⟩ := readSlot_isSome d j hi h1
    simp [he, hf]
  · simp [hji]

theorem fieldAt_of_readSlot {α : Type} (g : Entry K V → α) (d : List (Entry K V)) (i : Int)
    (e : Entry K V) (h : readSlot d i = some e) : fieldAt g d i = some (g e) := by
  simp [fieldAt, h]

theorem modifySlot_cap (l : JList K V) (i : Int) (f : Entry K V → Entry K V) :
    (l.modifySlot i f).cap = l.cap := rfl

theorem modifySlot_freeIdx (l : JList K V) (i : Int) (f : Entry K V → Entry K V) :
    (l.modifySlot i f).freeIdx = l.freeIdx := rfl

theorem modifySlot_head (l : JList K V) (i : Int) (f : Entry K V → Entry K V) :
    (l.modifySlot i f).head = l.head := rfl

theorem modifySlot_tail (l : JList K V) (i : Int) (f : Entry K V → Entry K V) :
    (l.modifySlot i f).tail = l.tail := rfl

theorem modifySlot_size (l : JList K V) (i : Int) (f : Entry K V → Entry K V) :
    (l.modifySlot i f).size = l.size := rfl

theorem modifySlot_length (l : JList K V) (i : Int) (f : Entry K V → Entry K V) :
    (l.modifySlot i f).data.length = l.data.length := by
  simp [JList.modifySlot]

theorem modifySlot_frame {α : Type} (g : Entry K V → α) (l : JList K V) (i : Int)
    (f : Entry K V → Entry K V) (hf : ∀ e, g (f e) = g e) :
    fieldAt g (l.modifySlot i f).data = fieldAt g l.data :=
  fieldAt_modify_frame g f hf l.data i.toNat

theorem modifySlot_hit {α : Type} (g : Entry K V → α) (l : JList K V) (i : Int)
    (f : Entry K V → Entry K V) (c : α) (hf : ∀ e, g (f e) = c) (h0 : 0 ≤ i)
    (h1 : i < (l.data.length : Int)) :
    fieldAt g (l.modifySlot i f).data = Function.update (fieldAt g l.data) i (some c) :=
  fieldAt_modify_hit g f c hf l.data i h0 h1

theorem nextAt_write (l : JList K V) (i v : Int) (h0 : 0 ≤ i) (h1 : i < (l.data.length : Int)) :
    fieldAt Entry.next (l.modifySlot i (fun e => { e with next := v })).data =
      Function.update (fieldAt Entry.next l.data) i (some v) :=
  modifySlot_hit _ l i _ v (fun _ => rfl) h0 h1

theorem prevAt_write (l : JList K V) (i v : Int) (h0 : 0 ≤ i) (h1 : i < (l.data.length : Int)) :
    fieldAt Entry.prev (l.modifySlot i (fun e => { e with prev := v })).data =
      Function.update (fieldAt Entry.prev l.data) i (some v) :=
  modifySlot_hit _ l i _ v (fun _ => rfl) h0 h1

theorem idxAt_write (l : JList K V) (i v : Int) (h0 : 0 ≤ i) (h1 : i < (l.data.length : Int)) :
    fieldAt Entry.idx (l.modifySlot i (fun e => { e with idx := v })).data =
      Function.update (fieldAt Entry.idx l.data) i (some v) :=
  modifySlot_hit _ l i _ v (fun _ => rfl) h0 h1

theorem valAt_write (l : JList K V) (i : Int) (v : V) (h0 : 0 ≤ i)
    (h1 : i < (l.data.length : Int)) :
    fieldAt Entry.Value (l.modifySlot i (fun e => { e with Value := v })).data =
      Function.update (fieldAt Entry.Value l.data) i (some v) :=
  modifySlot_hit _ l i _ v (fun _ => rfl) h0 h1

theorem keyAt_write (l : JList K V) (i : Int) (k : K) (h0 : 0 ≤ i)
    (h1 : i < (l.data.length : Int)) :
    fieldAt Entry.Key (l.modifySlot i (fun e => { e with Key := k })).data =
      Function.update (fieldAt Entry.Key l.data) i (some k) :=
  modifySlot_hit _ l i _ k (fun _ => rfl) h0 h1

theorem hashAt_write (l : JList K V) (i : Int) (h : Nat) (h0 : 0 ≤ i)
    (h1 : i < (l.data.length : Int)) :
    fieldAt Entry.HashId (l.modifySlot i (fun e => { e with HashId := h })).data =
      Function.update (fieldAt Entry.HashId l.data) i (some h) :=
  modifySlot_hit _ l i _ h (fun _ => rfl) h0 h1

theorem next_modify (d : List (Entry K V)) (i v : Int) (h0 : 0 ≤ i) (h1 : i < (d.length : Int)) :
    fieldAt Entry.next (List.modify (fun e => { e with next := v }) i.toNat d) =
      Function.update (fieldAt Entry.next d) i (some v) :=
  fieldAt_modify_hit _ _ v (fun _ => rfl) d i h0 h1

theorem prev_modify (d : List (Entry K V)) (i v : Int) (h0 : 0 ≤ i) (h1 : i < (d.length : Int)) :
    fieldAt Entry.prev (List.modify (fun e => { e with prev := v }) i.toNat d) =
      Function.update (fieldAt Entry.prev d) i (some v) :=
  fieldAt_modify_hit _ _ v (fun _ => rfl) d i h0 h1

theorem setNext_some (l : JList K V) (i v : Int) (h0 : 0 ≤ i) (h1 : i < (l.data.length : Int)) :
    l.setNext i v = some (l.modifySlot i (fun e => { e with next := v })) := by
  simp [JList.setNext, JList.modifySlot, writeSlot, h0, h1]

theorem setPrev_some (l : JList K V) (i v : Int) (h0 : 0 ≤ i) (h1 : i < (l.data.length : Int)) :
    l.setPrev i v = some (l.modifySlot i (fun e => { e with prev := v })) := by
  simp [JList.setPrev, JList.modifySlot, writeSlot, h0, h1]

theorem setIdx_some (l : JList K V) (i v : Int) (h0 : 0 ≤ i) (h1 : i < (l.data.length : Int)) :
    l.setIdx i v = some (l.modifySlot i (fun e => { e with idx := v })) := by
  simp [JList.setIdx, JList.modifySlot, writeSlot, h0, h1]

theorem setKey_some (l : JList K V) (i : Int) (k : K) (h0 : 0 ≤ i)
    (h1 : i < (l.data.length : Int)) :
    l.setKey i k = some (l.modifySlot i (fun e => { e with Key := k })) := by
  simp [JList.setKey, JList.modifySlot, writeSlot, h0, h1]

theorem setValue_some (l : JList K V) (i : Int) (v : V) (h0 : 0 ≤ i)
    (h1 : i < (l.data.length : Int)) :
    l.setValue i v = some (l.modifySlot i (fun e => { e with Value := v })) := by
  simp [JList.setValue, JList.modifySlot, writeSlot, h0, h1]

theorem setHashId_some (l : JList K V) (i : Int) (h : Nat) (h0 : 0 ≤ i)
    (h1 : i < (l.data.length : Int)) :
    l.setHashId i h = some (l.modifySlot i (fun e => { e with HashId := h })) := by
  simp [JList.setHashId, JList.modifySlot, writeSlot, h0, h1]

theorem getNodeIdx_concat (l : JList K V) (fs : List Int) (idx : Int)
    (h : l.freeIdx = fs ++ [idx]) :
    getNodeIdx l = ({ l with freeIdx := fs }, idx, true) := by
  simp [getNodeIdx, h]

theorem ret_entry (d : List (Entry K V)) (idx : Int) (L : JList K V)
    (R : JList K V → Entry K V → Prop) (h0 : 0 ≤ idx) (h1 : idx < (d.length : Int))
    (h : ∀ e, readSlot d idx = some e → R L e) :
    ∃ l2 e, ((readSlot d idx).bind fun e => some (L, some e, (none : Option String))) =
      some (l2, some e, none) ∧ R l2 e := by
  obtain ⟨e, he⟩ := readSlot_isSome d idx h0 h1
  exact ⟨L, e, by simp [he], h e he⟩

theorem NextSeg_congr (nx nx2 : Int → Option Int) (xs : List Int) (q : Int)
    (h : ∀ x ∈ xs, nx2 x = nx x) : NextSeg nx2 xs q ↔ NextSeg nx xs q := by
  induction xs with
  | nil => simp [NextSeg]
  | cons x r ih =>
    simp only [NextSeg]
    rw [h x (List.mem_cons_self x r), ih (fun y hy => h y (List.mem_cons_of_mem x hy))]

theorem PrevSeg_congr (pv pv2 : Int → Option Int) (xs : List Int) (p : Int)
    (h : ∀ x ∈ xs, pv2 x = pv x) : PrevSeg pv2 p xs ↔ PrevSeg pv p xs := by
  induction xs generalizing p with
  | nil => simp [PrevSeg]
  | cons x r ih =>
    simp only [PrevSeg]
    rw [h x (List.mem_cons_self x r), ih x (fun y hy => h y (List.mem_cons_of_mem x hy))]

theorem NextSeg_append (nx : Int → Option Int) (xs ys : List Int) (q : Int) :
    NextSeg nx (xs ++ ys) q ↔ NextSeg nx xs (ys.headD q) ∧ NextSeg nx ys q := by
  induction xs with
  | nil => simp [NextSeg]
  | cons x r ih =>
    have hd : (r ++ ys).headD q = r.headD (ys.headD q) := by cases r <;> rfl
    show (nx x = some ((r ++ ys).headD q) ∧ NextSeg nx (r ++ ys) q) ↔
      (nx x = some (r.headD (ys.headD q)) ∧ NextSeg nx r (ys.headD q)) ∧ NextSeg nx ys q
    rw [ih, hd, and_assoc]

theorem PrevSeg_append (pv : Int → Option Int) (xs ys : List Int) (p : Int) :
    PrevSeg pv p (xs ++ ys) ↔ PrevSeg pv p xs ∧ PrevSeg pv (xs.getLastD p) ys := by
  induction xs generalizing p with
  | nil => simp [PrevSeg]
  | cons x r ih =>
    have hl : (x :: r).getLastD p = r.getLastD x := by cases r <;> rfl
    show (pv x = some p ∧ PrevSeg pv x (r ++ ys)) ↔
      (pv x = some p ∧ PrevSeg pv x r) ∧ PrevSeg pv ((x :: r).getLastD p) ys
    rw [ih, hl, and_assoc]

theorem PushFront_eval_nonempty (l : JList K V) (fs : List Int) (idx : Int) (k : K) (v : V)
    (hfree : l.freeIdx = fs ++ [idx])
    (hi0 : 0 ≤ idx) (hi1 : idx < (l.data.length : Int))
    (hh0 : 0 ≤ l.head) (hh1 : l.head < (l.data.length : Int))
    (ht0 : 0 ≤ l.tail) (ht1 : l.tail < (l.data.length : Int)) :
    ∃ l2 e, PushFront l k v = some (l2, some e, none) ∧ Spliced l l2 l.tail l.head idx k v ∧
      l2.freeIdx = fs ∧ l2.head = idx ∧ l2.tail = l.tail ∧ readSlot l2.data idx = some e := by
  have hh : l.head ≠ -1 := by omega
  have ht : l.tail ≠ -1 := by omega
  simp only [PushFront, getNodeIdx_concat l fs idx hfree]
  simp only [setKey_some, setValue_some, setIdx_some, setNext_some, setPrev_some,
    modifySlot_length, modifySlot_head, modifySlot_tail,
    hi0, hi1, hh0, hh1, ht0, ht1, hh, ht, Option.bind_eq_bind, Option.some_bind, ne_eq,
    not_false_eq_true, and_self, if_true, Option.pure_def]
  refine ret_entry _ idx _ _ hi0 (by simp only [modifySlot_length]; exact hi1) ?_
  intro e he
  refine ⟨?_, rfl, rfl, rfl, he⟩
  constructor
  · rfl
  · simp only [modifySlot_length]
  · rfl
  · simp [modifySlot_frame, nextAt_write, modifySlot_length, hi0, hi1, hh0, hh1, ht0, ht1]
  · simp [modifySlot_frame, prevAt_write, modifySlot_length, hi0, hi1, hh0, hh1, ht0, ht1]
  · simp [modifySlot_frame, idxAt_write, modifySlot_length, hi0, hi1, hh0, hh1, ht0, ht1]
  · simp [modifySlot_frame, valAt_write, modifySlot_length, hi0, hi1, hh0, hh1, ht0, ht1]
  · simp [modifySlot_frame, keyAt_write, modifySlot_length, hi0, hi1, hh0, hh1, ht0, ht1]
  · simp [modifySlot_frame]
theorem getLastD_append_cons (a b : List Int) (c d : Int) :
    (a ++ c :: b).getLastD d = b.getLastD c := by
  induction a generalizing d with
  | nil => cases b <;> rfl
  | cons x r ih =>
    have : (x :: r ++ c :: b).getLastD d = (r ++ c :: b).getLastD x := by
      cases r <;> rfl
    rw [this, ih]

theorem headD_append_cons (a b : List Int) (c d : Int) :
    (a ++ c :: b).headD d = a.headD c := by
  cases a <;> rfl

theorem getLastD_concat_int (r : List Int) (p z : Int) : (r ++ [p]).getLastD z = p := by
  rw [getLastD_append_cons]; rfl

theorem NextSeg_relink (nx : Int → Option Int) (r : List Int) (p q c idx : Int)
    (w : Option Int) (h : NextSeg nx (r ++ [p]) q) (hp : p ∉ r) (hi : idx ∉ r ++ [p]) :
    NextSeg (Function.update (Function.update nx p (some c)) idx w) (r ++ [p]) c := by
  rw [NextSeg_append] at h ⊢
  have hip : p ≠ idx := by
    intro e; apply hi; simp [e]
  refine ⟨?_, ?_, trivial⟩
  · refine (NextSeg_congr nx _ r _ ?_).mpr h.1
    intro x hx
    have h1 : x ≠ idx := by
      intro e; apply hi; simp [← e, hx]
    have h2 : x ≠ p := by
      intro e; apply hp; simpa [e] using hx
    simp [Function.update, h1, h2]
  · simp [Function.update, hip]

theorem PrevSeg_relink (pv : Int → Option Int) (r : List Int) (y p c idx : Int)
    (w : Option Int) (h : PrevSeg pv p (y :: r)) (hy : y ∉ r) (hi : idx ∉ y :: r) :
    PrevSeg (Function.update (Function.update pv y (some c)) idx w) c (y :: r) := by
  have hiy : y ≠ idx := by
    intro e; apply hi; simp [e]
  refine ⟨by simp [Function.update, hiy], ?_⟩
  refine (PrevSeg_congr pv _ r _ ?_).mpr h.2
  intro x hx
  have h1 : x ≠ idx := by
    intro e; apply hi; simp [← e, hx]
  have h2 : x ≠ y := by
    intro e; apply hy; simpa [e] using hx
  simp [Function.update, h1, h2]

theorem NextSeg_frame2 (nx : Int → Option Int) (xs : List Int) (q a b : Int)
    (va vb : Option Int) (h : NextSeg nx xs q) (ha : a ∉ xs) (hb : b ∉ xs) :
    NextSeg (Function.update (Function.update nx a va) b vb) xs q := by
  refine (NextSeg_congr nx _ xs _ ?_).mpr h
  intro x hx
  have h1 : x ≠ b := fun e => hb (e ▸ hx)
  have h2 : x ≠ a := fun e => ha (e ▸ hx)
  simp [Function.update, h1, h2]

theorem PrevSeg_frame2 (pv : Int → Option Int) (xs : List Int) (p a b : Int)
    (va vb : Option Int) (h : PrevSeg pv p xs) (ha : a ∉ xs) (hb : b ∉ xs) :
    PrevSeg (Function.update (Function.update pv a va) b vb) p xs := by
  refine (PrevSeg_congr pv _ xs _ ?_).mpr h
  intro x hx
  have h1 : x ≠ b := fun e => hb (e ▸ hx)
  have h2 : x ≠ a := fun e => ha (e ▸ hx)
  simp [Function.update, h1, h2]

theorem eq_nil_or_snoc (l : List Int) : l = [] ∨ ∃ r p, l = r ++ [p] := by
  rcases List.eq_nil_or_concat l with h | ⟨r, p, h⟩
  · exact Or.inl h
  · exact Or.inr ⟨r, p, by simpa using h⟩

theorem NextSeg_splice (nx : Int → Option Int) (a b : List Int) (idx : Int)
    (hn : (a ++ b).Nodup) (hi : idx ∉ a ++ b)
    (h : NextSeg nx (a ++ b) ((a ++ b).headD (-1))) :
    NextSeg (Function.update (Function.update nx (a.getLastD (b.getLastD idx)) (some idx)) idx
      (some (b.headD (a.headD idx)))) (a ++ idx :: b) (a.headD idx) := by
  rw [NextSeg_append]
  simp only [List.headD_cons]
  rcases eq_nil_or_snoc a with ha | ⟨r, p, ha⟩
  · subst ha
    cases b with
    | nil => simp [NextSeg, Function.update]
    | cons y s =>
      refine ⟨trivial, by simp [Function.update], ?_⟩
      rcases eq_nil_or_snoc (y :: s) with hb | ⟨r2, p2, hb⟩
      · simp at hb
      · simp only [List.nil_append, List.headD_nil] at *
        rw [hb] at h hn hi ⊢
        rw [getLastD_concat_int]
        exact NextSeg_relink nx r2 p2 _ idx idx _ h
          (fun hm => by
            have := List.nodup_append.mp hn
            exact this.2.2 hm (List.mem_singleton_self p2)) hi
  · subst ha
    have hpr : p ∉ r := by
      have h1 := (List.nodup_append.mp hn).1
      have h2 := List.nodup_append.mp h1
      exact fun hm => h2.2.2 hm (List.mem_singleton_self p)
    have hia : idx ∉ r ++ [p] := fun hm => hi (List.mem_append_left _ hm)
    have hib : idx ∉ b := fun hm => hi (List.mem_append_right _ hm)
    have hpb : p ∉ b := fun hm =>
      (List.nodup_append.mp hn).2.2 (List.mem_append_right _ (List.mem_singleton_self p)) hm
    rw [NextSeg_append] at h
    rw [getLastD_concat_int]
    refine ⟨NextSeg_relink nx r p _ idx idx _ h.1 hpr hia, ?_⟩
    show Function.update (Function.update nx p (some idx)) idx
        (some (b.headD ((r ++ [p]).headD idx))) idx = some (b.headD ((r ++ [p]).headD idx)) ∧ _
    refine ⟨by simp [Function.update], ?_⟩
    have hh : ((r ++ [p]) ++ b).headD (-1) = (r ++ [p]).headD idx := by
      cases r <;> rfl
    rw [hh] at h
    exact NextSeg_frame2 nx b _ p idx _ _ h.2 hpb hib

theorem PrevSeg_splice (pv : Int → Option Int) (a b : List Int) (idx : Int)
    (hn : (a ++ b).Nodup) (hi : idx ∉ a ++ b)
    (h : PrevSeg pv ((a ++ b).getLastD (-1)) (a ++ b)) :
    PrevSeg (Function.update (Function.update pv (b.headD (a.headD idx)) (some idx)) idx
      (some (a.getLastD (b.getLastD idx)))) (b.getLastD idx) (a ++ idx :: b) := by
  rw [PrevSeg_append]
  have hia : idx ∉ a := fun hm => hi (List.mem_append_left _ hm)
  have hib : idx ∉ b := fun hm => hi (List.mem_append_right _ hm)
  cases b with
  | nil =>
    simp only [List.append_nil, List.headD_nil, List.getLastD_nil] at *
    cases a with
    | nil => simp [PrevSeg, Function.update]
    | cons y s =>
      have hys : y ∉ s := (List.nodup_cons.mp hn).1
      refine ⟨PrevSeg_relink pv s y _ idx idx _ h hys hia, ?_, trivial⟩
      simp only [List.headD_cons]
      have : (y :: s).getLastD idx = (y :: s).getLastD (-1) := by
        cases s <;> rfl
      simp [Function.update, this]
  | cons y s =>
    have hys : y ∉ s := (List.nodup_cons.mp (List.nodup_append.mp hn).2.1).1
    have hya : y ∉ a := fun hm =>
      (List.nodup_append.mp hn).2.2 hm (List.mem_cons_self y s)
    rw [PrevSeg_append] at h
    simp only [List.headD_cons]
    have hl : (a ++ y :: s).getLastD (-1) = (y :: s).getLastD idx := by
      rw [getLastD_append_cons]; cases s <;> rfl
    rw [hl] at h
    refine ⟨PrevSeg_frame2 pv a _ y idx _ _ h.1 hya hia, ?_⟩
    show Function.update (Function.update pv y (some idx)) idx
        (some (a.getLastD ((y :: s).getLastD idx))) idx =
          some (a.getLastD ((y :: s).getLastD idx)) ∧ _
    refine ⟨by simp [Function.update], ?_⟩
    exact PrevSeg_relink pv s y _ idx idx _ h.2 hys hib
theorem Inv_splice (l l2 : JList K V) (a b fs : List Int) (idx : Int) (k : K) (v : V)
    (hinv : Inv l (a ++ b)) (hfree : l.freeIdx = fs ++ [idx])
    (hs : Spliced l l2 (a.getLastD (b.getLastD idx)) (b.headD (a.headD idx)) idx k v)
    (hf : l2.freeIdx = fs) (hh : l2.head = a.headD idx) (ht : l2.tail = b.getLastD idx) :
    Inv l2 (a ++ idx :: b) := by
  have hidxFree : idx ∈ l.freeIdx := by rw [hfree]; simp
  have hi : idx ∉ a ++ b := fun hm => hinv.disjoint idx hm hidxFree
  have hfn : (fs ++ [idx]).Nodup := hfree ▸ hinv.freeNodup
  have hifs : idx ∉ fs := fun hm =>
    (List.nodup_append.mp hfn).2.2 hm (List.mem_singleton_self idx)
  have hne : ∀ x ∈ a ++ b, x ≠ idx := fun x hx e => hi (e ▸ hx)
  refine
    { capLen := by rw [hs.len_eq, hs.cap_eq]; exact hinv.capLen
      size := by
        rw [hs.size_eq, hinv.size]
        simp only [List.length_append, List.length_cons]
        push_cast
        omega
      head := by rw [hh, headD_append_cons]
      tail := by rw [ht, getLastD_append_cons]
      nodup := List.nodup_middle.mpr (List.nodup_cons.mpr ⟨hi, hinv.nodup⟩)
      inRange := ?_
      next := by
        rw [hs.next_eq, hh]
        exact NextSeg_splice _ a b idx hinv.nodup hi (hinv.head ▸ hinv.next)
      prev := by
        rw [hs.prev_eq, ht]
        exact PrevSeg_splice _ a b idx hinv.nodup hi (hinv.tail ▸ hinv.prev)
      idx := ?_
      freeNodup := by rw [hf]; exact (List.nodup_append.mp hfn).1
      freeRange := ?_
      disjoint := ?_
      cover := ?_
      count := ?_ }
  · intro x hx
    rw [hs.cap_eq]
    rcases List.mem_append.mp hx with h1 | h1
    · exact hinv.inRange x (List.mem_append_left _ h1)
    · rcases List.mem_cons.mp h1 with h2 | h2
      · subst h2; exact hinv.freeRange x hidxFree
      · exact hinv.inRange x (List.mem_append_right _ h2)
  · intro x hx
    rw [hs.idx_eq]
    by_cases hxi : x = idx
    · subst hxi; simp
    · have hx2 : x ∈ a ++ b := by
        rcases List.mem_append.mp hx with h1 | h1
        · exact List.mem_append_left _ h1
        · rcases List.mem_cons.mp h1 with h2 | h2
          · exact absurd h2 hxi
          · exact List.mem_append_right _ h2
      simp [Function.update, hxi, hinv.idx x hx2]
  · intro f hfm
    rw [hs.cap_eq]
    exact hinv.freeRange f (by rw [hfree]; exact List.mem_append_left _ (hf ▸ hfm))
  · intro x hx hxf
    rw [hf] at hxf
    rcases List.mem_append.mp hx with h1 | h1
    · exact hinv.disjoint x (List.mem_append_left _ h1) (by rw [hfree]; exact List.mem_append_left _ hxf)
    · rcases List.mem_cons.mp h1 with h2 | h2
      · subst h2; exact hifs hxf
      · exact hinv.disjoint x (List.mem_append_right _ h2)
          (by rw [hfree]; exact List.mem_append_left _ hxf)
  · intro i h0 h1
    rw [hs.cap_eq] at h1
    rcases hinv.cover i h0 h1 with h2 | h2
    · left
      rcases List.mem_append.mp h2 with h3 | h3
      · exact List.mem_append_left _ h3
      · exact List.mem_append_right _ (List.mem_cons_of_mem _ h3)
    · rw [hfree] at h2
      rcases List.mem_append.mp h2 with h3 | h3
      · right; rw [hf]; exact h3
      · left
        have : i = idx := by simpa using h3
        subst this
        exact List.mem_append_right _ (List.mem_cons_self _ _)
  · have := hinv.count
    rw [hfree] at this
    rw [hf, hs.cap_eq]
    simp only [List.length_append, List.length_cons, List.length_nil] at this ⊢
    push_cast at this ⊢
    omega
theorem PushFront_eval_empty (l : JList K V) (fs : List Int) (idx : Int) (k : K) (v : V)
    (hfree : l.freeIdx = fs ++ [idx])
    (hi0 : 0 ≤ idx) (hi1 : idx < (l.data.length : Int))
    (hh : l.head = -1) :
    ∃ l2 e, PushFront l k v = some (l2, some e, none) ∧ Spliced l l2 idx idx idx k v ∧
      l2.freeIdx = fs ∧ l2.head = idx ∧ l2.tail = idx ∧ readSlot l2.data idx = some e := by
  simp only [PushFront, getNodeIdx_concat l fs idx hfree]
  simp only [setKey_some, setValue_some, setIdx_some, setNext_some, setPrev_some,
    modifySlot_length, modifySlot_head, modifySlot_tail,
    hi0, hi1, hh, Option.bind_eq_bind, Option.some_bind, ne_eq,
    not_true_eq_false, false_and, if_false, Option.pure_def]
  refine ret_entry _ idx _ _ hi0 (by simp only [modifySlot_length]; exact hi1) ?_
  intro e he
  refine ⟨?_, rfl, rfl, rfl, he⟩
  constructor
  · rfl
  · simp only [modifySlot_length]
  · rfl
  · simp [modifySlot_frame, nextAt_write, modifySlot_length, hi0, hi1]
  · simp [modifySlot_frame, prevAt_write, modifySlot_length, hi0, hi1]
  · simp [modifySlot_frame, idxAt_write, modifySlot_length, hi0, hi1]
  · simp [modifySlot_frame, valAt_write, modifySlot_length, hi0, hi1]
  · simp [modifySlot_frame, keyAt_write, modifySlot_length, hi0, hi1]
  · simp [modifySlot_frame]

theorem PushBack_eval_nonempty (l : JList K V) (fs : List Int) (idx : Int) (k : K) (v : V)
    (hfree : l.freeIdx = fs ++ [idx])
    (hi0 : 0 ≤ idx) (hi1 : idx < (l.data.length : Int))
    (hh0 : 0 ≤ l.head) (hh1 : l.head < (l.data.length : Int))
    (ht0 : 0 ≤ l.tail) (ht1 : l.tail < (l.data.length : Int)) :
    ∃ l2 e, PushBack l k v = some (l2, some e, none) ∧ Spliced l l2 l.tail l.head idx k v ∧
      l2.freeIdx = fs ∧ l2.head = l.head ∧ l2.tail = idx ∧ readSlot l2.data idx = some e := by
  have hh : l.head ≠ -1 := by omega
  have ht : l.tail ≠ -1 := by omega
  simp only [PushBack, getNodeIdx_concat l fs idx hfree]
  simp only [setKey_some, setValue_some, setIdx_some, setNext_some, setPrev_some,
    modifySlot_length, modifySlot_head, modifySlot_tail,
    hi0, hi1, hh0, hh1, ht0, ht1, hh, ht, Option.bind_eq_bind, Option.some_bind, ne_eq,
    not_false_eq_true, and_self, if_true, Option.pure_def]
  refine ret_entry _ idx _ _ hi0 (by simp only [modifySlot_length]; exact hi1) ?_
  intro e he
  refine ⟨?_, rfl, rfl, rfl, he⟩
  constructor
  · rfl
  · simp only [modifySlot_length]
  · rfl
  · simp [modifySlot_frame, nextAt_write, modifySlot_length, hi0, hi1, hh0, hh1, ht0, ht1]
  · simp [modifySlot_frame, prevAt_write, modifySlot_length, hi0, hi1, hh0, hh1, ht0, ht1]
  · simp [modifySlot_frame, idxAt_write, modifySlot_length, hi0, hi1, hh0, hh1, ht0, ht1]
  · simp [modifySlot_frame, valAt_write, modifySlot_length, hi0, hi1, hh0, hh1, ht0, ht1]
  · simp [modifySlot_frame, keyAt_write, modifySlot_length, hi0, hi1, hh0, hh1, ht0, ht1]
  · simp [modifySlot_frame]

theorem PushBack_eval_empty (l : JList K V) (fs : List Int) (idx : Int) (k : K) (v : V)
    (hfree : l.freeIdx = fs ++ [idx])
    (hi0 : 0 ≤ idx) (hi1 : idx < (l.data.length : Int))
    (hh : l.head = -1) :
    ∃ l2 e, PushBack l k v = some (l2, some e, none) ∧ Spliced l l2 idx idx idx k v ∧
      l2.freeIdx = fs ∧ l2.head = idx ∧ l2.tail = idx ∧ readSlot l2.data idx = some e := by
  simp only [PushBack, getNodeIdx_concat l fs idx hfree]
  simp only [setKey_some, setValue_some, setIdx_some, setNext_some, setPrev_some,
    modifySlot_length, modifySlot_head, modifySlot_tail,
    hi0, hi1, hh, Option.bind_eq_bind, Option.some_bind, ne_eq,
    not_true_eq_false, false_and, if_false, Option.pure_def]
  refine ret_entry _ idx _ _ hi0 (by simp only [modifySlot_length]; exact hi1) ?_
  intro e he
  refine ⟨?_, rfl, rfl, rfl, he⟩
  constructor
  · rfl
  · simp only [modifySlot_length]
  · rfl
  · simp [modifySlot_frame, nextAt_write, modifySlot_length, hi0, hi1]
  · simp [modifySlot_frame, prevAt_write, modifySlot_length, hi0, hi1]
  · simp [modifySlot_frame, idxAt_write, modifySlot_length, hi0, hi1]
  · simp [modifySlot_frame, valAt_write, modifySlot_length, hi0, hi1]
  · simp [modifySlot_frame, keyAt_write, modifySlot_length, hi0, hi1]
  · simp [modifySlot_frame]
theorem insertBefore_eval (l : JList K V) (fs : List Int) (idx : Int) (k : K) (v : V)
    (mark mn : Entry K V)
    (hfree : l.freeIdx = fs ++ [idx])
    (hi0 : 0 ≤ idx) (hi1 : idx < (l.data.length : Int))
    (hm0 : 0 ≤ mark.idx) (hm1 : mark.idx < l.cap)
    (hread : readSlot l.data mark.idx = some mn)
    (hp : mn.prev ≠ -1) (hn : mn.next ≠ -1)
    (hp0 : 0 ≤ mn.prev) (hp1 : mn.prev < (l.data.length : Int))
    (hx0 : 0 ≤ mn.idx) (hx1 : mn.idx < (l.data.length : Int))
    (hpi : idx ≠ mn.prev) (hxi : idx ≠ mn.idx) :
    ∃ l2 e, insertBefore l k v mark = some (l2, some e, none) ∧
      Spliced l l2 mn.prev mn.idx idx k v ∧
      l2.freeIdx = fs ∧ l2.head = (if l.head = mn.idx ∨ l.head = -1 then idx else l.head) ∧
      l2.tail = l.tail ∧ readSlot l2.data idx = some e := by
  have c1 : ¬ (l.cap ≤ mark.idx ∨ mark.idx < 0) := by omega
  simp only [insertBefore, getNodeIdx_concat l fs idx hfree]
  simp only [c1, hread, hp, hn, or_self, if_false, Option.bind_eq_bind, Option.some_bind]
  simp only [setKey_some, setValue_some, setIdx_some, setNext_some, setPrev_some,
    modifySlot_length, modifySlot_head, modifySlot_tail,
    hi0, hi1, hp0, hp1, hx0, hx1, Option.bind_eq_bind, Option.some_bind]
  by_cases hc : l.head = mn.idx ∨ l.head = -1
  · simp only [hc, if_true]
    refine ret_entry _ idx _ _ hi0 (by simp only [modifySlot_length]; exact hi1) ?_
    intro e he
    refine ⟨?_, rfl, rfl, rfl, he⟩
    constructor
    · rfl
    · simp only [modifySlot_length]
    · rfl
    · simp [modifySlot_frame, nextAt_write, modifySlot_length, hi0, hi1, hp0, hp1, hx0, hx1]
      exact Function.update_comm hpi _ _ _
    · simp [modifySlot_frame, prevAt_write, modifySlot_length, hi0, hi1, hp0, hp1, hx0, hx1]
      exact Function.update_comm hxi _ _ _
    · simp [modifySlot_frame, idxAt_write, modifySlot_length, hi0, hi1]
    · simp [modifySlot_frame, valAt_write, modifySlot_length, hi0, hi1]
    · simp [modifySlot_frame, keyAt_write, modifySlot_length, hi0, hi1]
    · simp [modifySlot_frame]
  · simp only [hc, if_false]
    refine ret_entry _ idx _ _ hi0 (by simp only [modifySlot_length]; exact hi1) ?_
    intro e he
    refine ⟨?_, rfl, rfl, rfl, he⟩
    constructor
    · rfl
    · simp only [modifySlot_length]
    · rfl
    · simp [modifySlot_frame, nextAt_write, modifySlot_length, hi0, hi1, hp0, hp1, hx0, hx1]
      exact Function.update_comm hpi _ _ _
    · simp [modifySlot_frame, prevAt_write, modifySlot_length, hi0, hi1, hp0, hp1, hx0, hx1]
      exact Function.update_comm hxi _ _ _
    · simp [modifySlot_frame, idxAt_write, modifySlot_length, hi0, hi1]
    · simp [modifySlot_frame, valAt_write, modifySlot_length, hi0, hi1]
    · simp [modifySlot_frame, keyAt_write, modifySlot_length, hi0, hi1]
    · simp [modifySlot_frame]
theorem insertAfter_eval (l : JList K V) (fs : List Int) (idx : Int) (k : K) (v : V)
    (mark mn : Entry K V)
    (hfree : l.freeIdx = fs ++ [idx])
    (hi0 : 0 ≤ idx) (hi1 : idx < (l.data.length : Int))
    (hm0 : 0 ≤ mark.idx) (hm1 : mark.idx < l.cap)
    (hread : readSlot l.data mark.idx = some mn)
    (hp : mn.prev ≠ -1) (hn : mn.next ≠ -1)
    (hp0 : 0 ≤ mn.next) (hp1 : mn.next < (l.data.length : Int))
    (hx0 : 0 ≤ mn.idx) (hx1 : mn.idx < (l.data.length : Int))
    (hpi : idx ≠ mn.next) (hxi : idx ≠ mn.idx) :
    ∃ l2 e, insertAfter l k v mark = some (l2, some e, none) ∧
      Spliced l l2 mn.idx mn.next idx k v ∧
      l2.freeIdx = fs ∧ l2.head = l.head ∧
      l2.tail = (if l.tail = mn.idx ∨ l.tail = -1 then idx else l.tail) ∧ readSlot l2.data idx = some e := by
  have c1 : ¬ (l.cap ≤ mark.idx ∨ mark.idx < 0) := by omega
  simp only [insertAfter, getNodeIdx_concat l fs idx hfree]
  simp only [c1, hread, hp, hn, or_self, if_false, Option.bind_eq_bind, Option.some_bind]
  simp only [setKey_some, setValue_some, setIdx_some, setNext_some, setPrev_some,
    modifySlot_length, modifySlot_head, modifySlot_tail,
    hi0, hi1, hp0, hp1, hx0, hx1, Option.bind_eq_bind, Option.some_bind]
  by_cases hc : l.tail = mn.idx ∨ l.tail = -1
  · simp only [hc, if_true]
    refine ret_entry _ idx _ _ hi0 (by simp only [modifySlot_length]; exact hi1) ?_
    intro e he
    refine ⟨?_, rfl, rfl, rfl, he⟩
    constructor
    · rfl
    · simp only [modifySlot_length]
    · rfl
    · simp [modifySlot_frame, nextAt_write, modifySlot_length, hi0, hi1, hp0, hp1, hx0, hx1]
      exact Function.update_comm hxi _ _ _
    · simp [modifySlot_frame, prevAt_write, modifySlot_length, hi0, hi1, hp0, hp1, hx0, hx1]
      exact Function.update_comm hpi _ _ _
    · simp [modifySlot_frame, idxAt_write, modifySlot_length, hi0, hi1]
    · simp [modifySlot_frame, valAt_write, modifySlot_length, hi0, hi1]
    · simp [modifySlot_frame, keyAt_write, modifySlot_length, hi0, hi1]
    · simp [modifySlot_frame]
  · simp only [hc, if_false]
    refine ret_entry _ idx _ _ hi0 (by simp only [modifySlot_length]; exact hi1) ?_
    intro e he
    refine ⟨?_, rfl, rfl, rfl, he⟩
    constructor
    · rfl
    · simp only [modifySlot_length]
    · rfl
    · simp [modifySlot_frame, nextAt_write, modifySlot_length, hi0, hi1, hp0, hp1, hx0, hx1]
      exact Function.update_comm hxi _ _ _
    · simp [modifySlot_frame, prevAt_write, modifySlot_length, hi0, hi1, hp0, hp1, hx0, hx1]
      exact Function.update_comm hpi _ _ _
    · simp [modifySlot_frame, idxAt_write, modifySlot_length, hi0, hi1]
    · simp [modifySlot_frame, valAt_write, modifySlot_length, hi0, hi1]
    · simp [modifySlot_frame, keyAt_write, modifySlot_length, hi0, hi1]
    · simp [modifySlot_frame]
theorem remove_eval [Inhabited V] (l : JList K V) (e node : Entry K V)
    (he1 : e.next ≠ -1) (he2 : e.prev ≠ -1)
    (hm0 : 0 ≤ e.idx) (hm1 : e.idx < l.cap) (hm2 : e.idx < (l.data.length : Int))
    (hread : readSlot l.data e.idx = some node)
    (hen : e.next = node.next) (hep : e.prev = node.prev)
    (hp0 : 0 ≤ node.prev) (hp1 : node.prev < (l.data.length : Int))
    (hn0 : 0 ≤ node.next) (hn1 : node.next < (l.data.length : Int)) :
    ∃ l2, remove l (some e) = some (l2, e.Value, none) ∧
      Unlinked l l2 node.prev node.next e.idx ∧
      l2.head = (if l.size - 1 = 0 then -1 else if l.head = e.idx then node.next else l.head) ∧
      l2.tail = (if l.size - 1 = 0 then -1 else if l.tail = e.idx then node.prev else l.tail) := by
  have c1 : ¬ (l.cap ≤ e.idx ∨ e.idx < 0) := by omega
  have c2 : ¬ (e.next = -1 ∨ e.prev = -1) := by
    intro h; rcases h with h | h
    · exact he1 h
    · exact he2 h
  have c3 : ¬ (node.prev = -1 ∨ node.next = -1) := by
    rw [← hen, ← hep]; intro h; rcases h with h | h
    · exact he2 h
    · exact he1 h
  have c4 : ¬ (e.next ≠ node.next ∨ e.prev ≠ node.prev) := by
    intro h; rcases h with h | h
    · exact h hen
    · exact h hep
  simp only [remove, c1, c2, c3, c4, hread, if_false, Option.bind_eq_bind, Option.some_bind]
  simp only [setNext_some, setPrev_some, modifySlot_length, modifySlot_head, modifySlot_tail,
    hm0, hm2, hp0, hp1, hn0, hn1, Option.bind_eq_bind, Option.some_bind, putNodeIdx]
  by_cases h1 : l.head = e.idx <;> by_cases h2 : l.tail = e.idx <;>
    by_cases h3 : l.size - 1 = 0 <;>
    simp only [h1, h2, h3, if_true, if_false, modifySlot_length, modifySlot_head, modifySlot_tail,
      modifySlot_size, hm0, hm2, setNext_some, setPrev_some, Option.bind_eq_bind,
      Option.some_bind] <;>
    refine ⟨_, rfl, ?_, ?_, ?_⟩ <;>
    first
    | rfl
    | (constructor
       · rfl
       · simp [JList.modifySlot]
       · first | rfl | exact h3.symm
       · rfl
       · simp [JList.modifySlot, fieldAt_modify_frame, next_modify, hm0, hm2, hp0, hp1, hn0, hn1]
       · simp [JList.modifySlot, fieldAt_modify_frame, prev_modify, hm0, hm2, hp0, hp1, hn0, hn1]
       · simp [JList.modifySlot, fieldAt_modify_frame]
       · simp [JList.modifySlot, fieldAt_modify_frame]
       · simp [JList.modifySlot, fieldAt_modify_frame]
       · simp [JList.modifySlot, fieldAt_modify_frame])
theorem getLastD_cons_int (y : Int) (s : List Int) (z : Int) :
    (y :: s).getLastD z = s.getLastD y := by
  cases s <;> rfl

theorem NextSeg_unlink (nx : Int → Option Int) (a b : List Int) (m : Int)
    (hn : (a ++ m :: b).Nodup)
    (h : NextSeg nx (a ++ m :: b) (a.headD m)) :
    NextSeg (Function.update (Function.update nx (a.getLastD (b.getLastD m))
      (some (b.headD (a.headD m)))) m (some (-1))) (a ++ b) ((a ++ b).headD (-1)) := by
  have hn2 : (m :: (a ++ b)).Nodup := List.nodup_middle.mp hn
  have hm : m ∉ a ++ b := (List.nodup_cons.mp hn2).1
  have hab : (a ++ b).Nodup := (List.nodup_cons.mp hn2).2
  rw [NextSeg_append] at h
  simp only [List.headD_cons] at h
  rcases eq_nil_or_snoc a with ha | ⟨r, p, ha⟩
  · subst ha
    rcases eq_nil_or_snoc b with hb | ⟨r2, p2, hb⟩
    · subst hb; trivial
    · subst hb
      simp only [List.nil_append, List.headD_nil, List.getLastD_nil] at *
      rw [getLastD_concat_int]
      have hh : (r2 ++ [p2]).headD (-1) = (r2 ++ [p2]).headD m := by cases r2 <;> rfl
      rw [hh]
      have hp2 : p2 ∉ r2 := fun hx =>
        (List.nodup_append.mp hab).2.2 hx (List.mem_singleton_self p2)
      exact NextSeg_relink nx r2 p2 _ _ m _ h.2.2 hp2 hm
  · subst ha
    have hpr : p ∉ r := fun hx =>
      (List.nodup_append.mp (List.nodup_append.mp hab).1).2.2 hx (List.mem_singleton_self p)
    have hma : m ∉ r ++ [p] := fun hx => hm (List.mem_append_left _ hx)
    have hmb : m ∉ b := fun hx => hm (List.mem_append_right _ hx)
    have hpb : p ∉ b := fun hx =>
      (List.nodup_append.mp hab).2.2 (List.mem_append_right _ (List.mem_singleton_self p)) hx
    rw [getLastD_concat_int, NextSeg_append]
    have hh : (r ++ [p] ++ b).headD (-1) = (r ++ [p]).headD m := by cases r <;> rfl
    rw [hh]
    refine ⟨NextSeg_relink nx r p _ _ m _ h.1 hpr hma, ?_⟩
    exact NextSeg_frame2 nx b _ p m _ _ h.2.2 hpb hmb

theorem PrevSeg_unlink (pv : Int → Option Int) (a b : List Int) (m : Int)
    (hn : (a ++ m :: b).Nodup)
    (h : PrevSeg pv (b.getLastD m) (a ++ m :: b)) :
    PrevSeg (Function.update (Function.update pv (b.headD (a.headD m))
      (some (a.getLastD (b.getLastD m)))) m (some (-1))) ((a ++ b).getLastD (-1)) (a ++ b) := by
  have hn2 : (m :: (a ++ b)).Nodup := List.nodup_middle.mp hn
  have hm : m ∉ a ++ b := (List.nodup_cons.mp hn2).1
  have hab : (a ++ b).Nodup := (List.nodup_cons.mp hn2).2
  have hma : m ∉ a := fun hx => hm (List.mem_append_left _ hx)
  have hmb : m ∉ b := fun hx => hm (List.mem_append_right _ hx)
  rw [PrevSeg_append] at h
  cases b with
  | nil =>
    simp only [List.append_nil, List.headD_nil, List.getLastD_nil] at *
    cases a with
    | nil => trivial
    | cons y s =>
      have hys : y ∉ s := (List.nodup_cons.mp hab).1
      simp only [List.headD_cons]
      rw [getLastD_cons_int y s (-1), getLastD_cons_int y s m]
      exact PrevSeg_relink pv s y _ _ m _ h.1 hys hma
  | cons y s =>
    have hys : y ∉ s := (List.nodup_cons.mp (List.nodup_append.mp hab).2.1).1
    have hya : y ∉ a := fun hx =>
      (List.nodup_append.mp hab).2.2 hx (List.mem_cons_self y s)
    simp only [List.headD_cons]
    rw [PrevSeg_append, getLastD_append_cons, getLastD_cons_int y s m]
    rw [getLastD_cons_int y s m] at h
    have h3 : PrevSeg pv m (y :: s) := h.2.2
    exact ⟨PrevSeg_frame2 pv a _ y m _ _ h.1 hya hma,
      PrevSeg_relink pv s y _ _ m _ h3 hys hmb⟩
theorem Inv_unlink (l l2 : JList K V) (a b : List Int) (m : Int)
    (hinv : Inv l (a ++ m :: b))
    (hu : Unlinked l l2 (a.getLastD (b.getLastD m)) (b.headD (a.headD m)) m)
    (hh : l2.head = (a ++ b).headD (-1)) (ht : l2.tail = (a ++ b).getLastD (-1)) :
    Inv l2 (a ++ b) := by
  have hn2 : (m :: (a ++ b)).Nodup := List.nodup_middle.mp hinv.nodup
  have hm : m ∉ a ++ b := (List.nodup_cons.mp hn2).1
  have hab : (a ++ b).Nodup := (List.nodup_cons.mp hn2).2
  have hsub : ∀ x ∈ a ++ b, x ∈ a ++ m :: b := by
    intro x hx
    rcases List.mem_append.mp hx with h1 | h1
    · exact List.mem_append_left _ h1
    · exact List.mem_append_right _ (List.mem_cons_of_mem _ h1)
  have hmem : m ∈ a ++ m :: b := List.mem_append_right _ (List.mem_cons_self _ _)
  have hmf : m ∉ l.freeIdx := hinv.disjoint m hmem
  refine
    { capLen := by rw [hu.len_eq, hu.cap_eq]; exact hinv.capLen
      size := by
        rw [hu.size_eq, hinv.size]
        simp only [List.length_append, List.length_cons]
        push_cast
        omega
      head := hh
      tail := ht
      nodup := hab
      inRange := fun x hx => by rw [hu.cap_eq]; exact hinv.inRange x (hsub x hx)
      next := by
        rw [hu.next_eq, hh]
        refine NextSeg_unlink _ a b m hinv.nodup ?_
        have := hinv.next
        rw [hinv.head, headD_append_cons] at this
        exact this
      prev := by
        rw [hu.prev_eq, ht]
        refine PrevSeg_unlink _ a b m hinv.nodup ?_
        have := hinv.prev
        rw [hinv.tail, getLastD_append_cons] at this
        exact this
      idx := fun x hx => by rw [hu.idx_eq]; exact hinv.idx x (hsub x hx)
      freeNodup := by
        rw [hu.free_eq]
        refine List.nodup_append.mpr ⟨hinv.freeNodup, List.nodup_singleton m, ?_⟩
        intro x hx hx2
        have : x = m := by simpa using hx2
        exact hmf (this ▸ hx)
      freeRange := ?_
      disjoint := ?_
      cover := ?_
      count := ?_ }
  · intro f hf
    rw [hu.free_eq] at hf
    rw [hu.cap_eq]
    rcases List.mem_append.mp hf with h1 | h1
    · exact hinv.freeRange f h1
    · have : f = m := by simpa using h1
      subst this
      exact hinv.inRange f hmem
  · intro x hx hxf
    rw [hu.free_eq] at hxf
    rcases List.mem_append.mp hxf with h1 | h1
    · exact hinv.disjoint x (hsub x hx) h1
    · have : x = m := by simpa using h1
      exact hm (this ▸ hx)
  · intro i h0 h1
    rw [hu.cap_eq] at h1
    rw [hu.free_eq]
    rcases hinv.cover i h0 h1 with h2 | h2
    · rcases List.mem_append.mp h2 with h3 | h3
      · exact Or.inl (List.mem_append_left _ h3)
      · rcases List.mem_cons.mp h3 with h4 | h4
        · right; rw [h4]; simp
        · exact Or.inl (List.mem_append_right _ h4)
    · exact Or.inr (List.mem_append_left _ h2)
  · have := hinv.count
    rw [hu.free_eq, hu.cap_eq]
    simp only [List.length_append, List.length_cons, List.length_nil] at this ⊢
    push_cast at this ⊢
    omega
theorem Inv.len_eq {l : JList K V} {xs : List Int} (h : Inv l xs) (x : Int) (hx : x ∈ xs) :
    0 ≤ x ∧ x < (l.data.length : Int) ∧ x ≠ -1 := by
  have := h.inRange x hx
  have := h.capLen
  omega

theorem pred_mem (a b : List Int) (m : Int) : a.getLastD (b.getLastD m) ∈ a ++ m :: b := by
  rcases eq_nil_or_snoc a with ha | ⟨r, p, ha⟩
  · subst ha
    rcases eq_nil_or_snoc b with hb | ⟨r2, p2, hb⟩
    · subst hb; simp
    · subst hb; rw [List.getLastD_nil, getLastD_concat_int]; simp
  · subst ha; rw [getLastD_concat_int]; simp

theorem succ_mem (a b : List Int) (m : Int) : b.headD (a.headD m) ∈ a ++ m :: b := by
  cases b with
  | nil => cases a <;> simp
  | cons y s => simp

theorem Inv.next_at {l : JList K V} {a b : List Int} {m : Int} (h : Inv l (a ++ m :: b)) :
    nextAt l.data m = some (b.headD (a.headD m)) := by
  have h1 := h.next
  rw [h.head, headD_append_cons, NextSeg_append] at h1
  exact h1.2.1

theorem Inv.prev_at {l : JList K V} {a b : List Int} {m : Int} (h : Inv l (a ++ m :: b)) :
    prevAt l.data m = some (a.getLastD (b.getLastD m)) := by
  have h1 := h.prev
  rw [h.tail, getLastD_append_cons, PrevSeg_append] at h1
  exact h1.2.1

theorem Inv.entry_at {l : JList K V} {a b : List Int} {m : Int} (h : Inv l (a ++ m :: b))
    (e : Entry K V) (he : readSlot l.data m = some e) :
    e.next = b.headD (a.headD m) ∧ e.prev = a.getLastD (b.getLastD m) ∧ e.idx = m := by
  have h1 := h.next_at
  have h2 := h.prev_at
  have h3 := h.idx m (List.mem_append_right _ (List.mem_cons_self _ _))
  have g1 : nextAt l.data m = some e.next := fieldAt_of_readSlot _ _ _ e he
  have g2 : prevAt l.data m = some e.prev := fieldAt_of_readSlot _ _ _ e he
  have g3 : idxAt l.data m = some e.idx := fieldAt_of_readSlot _ _ _ e he
  rw [g1] at h1
  rw [g2] at h2
  rw [g3] at h3
  exact ⟨Option.some.inj h1, Option.some.inj h2, Option.some.inj h3⟩

theorem walk_of_NextSeg (l : JList K V) (xs : List Int) (q z : Int)
    (h : NextSeg (nextAt l.data) xs q) (p : Nat) (hp : p < xs.length) :
    walk l p (xs.headD z) = xs[p]? := by
  induction xs generalizing p z with
  | nil => simp at hp
  | cons x r ih =>
    cases p with
    | zero => simp [walk]
    | succ p2 =>
      have hp2 : p2 < r.length := by simpa using hp
      have hx : nextAt l.data x = some (r.headD q) := h.1
      simp only [walk, List.headD_cons, hx, Option.some_bind, List.getElem?_cons_succ]
      exact ih q h.2 p2 hp2

theorem Inv.slotAt_eq {l : JList K V} {xs : List Int} (h : Inv l xs) (p : Nat)
    (hp : p < xs.length) : slotAt l p = xs[p]? := by
  unfold slotAt
  rw [h.head]
  exact walk_of_NextSeg l xs l.head (-1) h.next p hp

theorem split_at (xs : List Int) (p : Nat) (i : Int) (h : xs[p]? = some i) :
    xs = xs.take p ++ i :: xs.drop (p + 1) := by
  have hp : p < xs.length := (List.getElem?_eq_some_iff.mp h).1
  have hi : xs[p] = i := (List.getElem?_eq_some_iff.mp h).2
  rw [← hi]
  simp
theorem iterateLoop_mono (l : JList K V) (f : Nat) (c : Int) (acc vs : List V)
    (h : iterateLoop l f c acc = IterResult.done vs) (f2 : Nat) (hf : f ≤ f2) :
    iterateLoop l f2 c acc = IterResult.done vs := by
  induction f generalizing c acc f2 with
  | zero =>
    unfold iterateLoop at h ⊢
    by_cases hc : c = -1
    · simp only [hc, if_true] at h ⊢; exact h
    · simp [hc] at h
  | succ n ih =>
    obtain ⟨g, rfl⟩ : ∃ g, f2 = g + 1 := ⟨f2 - 1, by omega⟩
    unfold iterateLoop at h ⊢
    by_cases hc : c = -1
    · simp only [hc, if_true] at h ⊢; exact h
    · simp only [hc, if_false] at h ⊢
      cases hr : readSlot l.data c with
      | none => simp [hr] at h
      | some e =>
        simp only [hr] at h ⊢
        by_cases hn : e.next = l.head
        · simp only [hn, if_true] at h ⊢; exact h
        · simp only [hn, if_false] at h ⊢
          exact ih _ _ h g (by omega)

theorem iterateLoop_seg (l : JList K V) (x : Int) (r : List Int) (fuel : Nat) (acc : List V)
    (h : NextSeg (nextAt l.data) (x :: r) l.head)
    (hne : ∀ y ∈ x :: r, y ≠ -1) (hh : l.head ∉ r) (hf : r.length < fuel) :
    iterateLoop l fuel x acc = IterResult.done (acc ++ valuesOf l (x :: r)) := by
  induction r generalizing x fuel acc with
  | nil =>
    obtain ⟨g, rfl⟩ : ∃ g, fuel = g + 1 := ⟨fuel - 1, by simp at hf; omega⟩
    have hx : x ≠ -1 := hne x (List.mem_cons_self _ _)
    have h1 : nextAt l.data x = some l.head := h.1
    unfold iterateLoop
    cases hr : readSlot l.data x with
    | none => simp [fieldAt, hr] at h1
    | some e =>
      have h2 : e.next = l.head := by simpa [fieldAt, hr] using h1
      simp [hx, h2, valuesOf, fieldAt, hr]
  | cons y s ih =>
    obtain ⟨g, rfl⟩ : ∃ g, fuel = g + 1 := ⟨fuel - 1, by simp at hf; omega⟩
    have hx : x ≠ -1 := hne x (List.mem_cons_self _ _)
    have h1 : nextAt l.data x = some y := h.1
    unfold iterateLoop
    cases hr : readSlot l.data x with
    | none => simp [fieldAt, hr] at h1
    | some e =>
      have h2 : e.next = y := by simpa [fieldAt, hr] using h1
      have hy : y ≠ l.head := fun e2 => hh (e2 ▸ List.mem_cons_self _ _)
      simp only [hx, if_false, h2, hy]
      rw [ih y g (acc ++ [e.Value]) h.2 (fun z hz => hne z (List.mem_cons_of_mem _ hz))
        (fun hm => hh (List.mem_cons_of_mem _ hm)) (by simpa using hf)]
      simp [valuesOf, fieldAt, hr]

theorem Inv.iterate {l : JList K V} {xs : List Int} (h : Inv l xs) (fuel : Nat)
    (hf : xs.length ≤ fuel) : Iterate fuel l = IterResult.done (valuesOf l xs) := by
  unfold Iterate
  cases xs with
  | nil =>
    have : l.head = -1 := h.head
    unfold iterateLoop
    simp [this, valuesOf]
  | cons x r =>
    have hx : l.head = x := h.head
    have := iterateLoop_seg l x r fuel [] h.next (fun y hy => (h.len_eq y hy).2.2)
      (by rw [hx]; exact (List.nodup_cons.mp h.nodup).1) (by simpa using hf)
    rw [hx]
    simpa using this

theorem Inv.iterate_unique {l : JList K V} {xs : List Int} (h : Inv l xs) (fuel : Nat)
    (vs : List V) (hi : Iterate fuel l = IterResult.done vs) : vs = valuesOf l xs := by
  have h1 := iterateLoop_mono l fuel l.head [] vs hi (max fuel xs.length) (le_max_left _ _)
  have h2 := h.iterate (max fuel xs.length) (le_max_right _ _)
  unfold Iterate at h2
  rw [h1] at h2
  exact IterResult.done.inj h2

theorem valuesOf_append (l : JList K V) (a b : List Int) :
    valuesOf l (a ++ b) = valuesOf l a ++ valuesOf l b := by
  simp [valuesOf]

theorem valuesOf_congr (l l2 : JList K V) (xs : List Int)
    (h : ∀ x ∈ xs, valAt l2.data x = valAt l.data x) : valuesOf l2 xs = valuesOf l xs := by
  induction xs with
  | nil => rfl
  | cons x r ih =>
    simp only [valuesOf, List.filterMap_cons]
    rw [h x (List.mem_cons_self _ _)]
    have := ih (fun y hy => h y (List.mem_cons_of_mem _ hy))
    simp only [valuesOf] at this
    rw [this]

theorem valuesOf_length {l : JList K V} {xs : List Int} (h : Inv l xs) :
    (valuesOf l xs).length = xs.length := by
  have key : ∀ ys : List Int, (∀ y ∈ ys, ∃ v, valAt l.data y = some v) →
      (valuesOf l ys).length = ys.length := by
    intro ys
    induction ys with
    | nil => intro _; rfl
    | cons y r ih =>
      intro hy
      obtain ⟨v, hv⟩ := hy y (List.mem_cons_self _ _)
      simp only [valuesOf, List.filterMap_cons, hv, List.length_cons]
      have := ih (fun z hz => hy z (List.mem_cons_of_mem _ hz))
      simp only [valuesOf] at this
      rw [this]
  apply key
  intro y hy
  have hb := h.len_eq y hy
  obtain ⟨e, he⟩ := readSlot_isSome l.data y hb.1 hb.2.1
  exact ⟨e.Value, fieldAt_of_readSlot _ _ _ e he⟩
theorem Inv.free_snoc {l : JList K V} {xs : List Int} (h : Inv l xs) (hlt : l.size < l.cap) :
    ∃ fs idx, l.freeIdx = fs ++ [idx] := by
  rcases eq_nil_or_snoc l.freeIdx with h0 | h1
  · have := h.count
    rw [h0] at this
    have := h.size
    simp at *
    omega
  · exact h1

theorem Inv.free_bounds {l : JList K V} {xs fs : List Int} {idx : Int} (h : Inv l xs)
    (hfree : l.freeIdx = fs ++ [idx]) :
    0 ≤ idx ∧ idx < (l.data.length : Int) ∧ idx ∉ xs := by
  have hm : idx ∈ l.freeIdx := by rw [hfree]; simp
  have := h.freeRange idx hm
  have := h.capLen
  exact ⟨by omega, by omega, fun hx => h.disjoint idx hx hm⟩

theorem splice_post (l l2 : JList K V) (a b fs : List Int) (idx : Int) (k : K) (v : V)
    (e : Entry K V)
    (hinv : Inv l (a ++ b)) (hfree : l.freeIdx = fs ++ [idx])
    (hs : Spliced l l2 (a.getLastD (b.getLastD idx)) (b.headD (a.headD idx)) idx k v)
    (hf : l2.freeIdx = fs) (hh : l2.head = a.headD idx) (ht : l2.tail = b.getLastD idx)
    (he : readSlot l2.data idx = some e) :
    Inv l2 (a ++ idx :: b) ∧
      valuesOf l2 (a ++ idx :: b) = valuesOf l a ++ v :: valuesOf l b ∧
      e.Key = k ∧ e.Value = v ∧ e.idx = idx ∧ e.prev = a.getLastD (b.getLastD idx) ∧
      e.next = b.headD (a.headD idx) ∧ l2.size = l.size + 1 := by
  have hb := hinv.free_bounds hfree
  have hia : idx ∉ a := fun hx => hb.2.2 (List.mem_append_left _ hx)
  have hib : idx ∉ b := fun hx => hb.2.2 (List.mem_append_right _ hx)
  have hval : ∀ ys : List Int, idx ∉ ys → valuesOf l2 ys = valuesOf l ys := by
    intro ys hys
    apply valuesOf_congr
    intro x hx
    have : x ≠ idx := fun e2 => hys (e2 ▸ hx)
    rw [hs.val_eq]
    simp [Function.update, this]
  have g1 : keyAt l2.data idx = some e.Key := fieldAt_of_readSlot _ _ _ e he
  have g2 : valAt l2.data idx = some e.Value := fieldAt_of_readSlot _ _ _ e he
  have g3 : idxAt l2.data idx = some e.idx := fieldAt_of_readSlot _ _ _ e he
  have g4 : prevAt l2.data idx = some e.prev := fieldAt_of_readSlot _ _ _ e he
  have g5 : nextAt l2.data idx = some e.next := fieldAt_of_readSlot _ _ _ e he
  rw [hs.key_eq] at g1
  rw [hs.val_eq] at g2
  rw [hs.idx_eq] at g3
  rw [hs.prev_eq] at g4
  rw [hs.next_eq] at g5
  simp only [Function.update_same, Option.some.injEq] at g1 g2 g3 g4 g5
  refine ⟨Inv_splice l l2 a b fs idx k v hinv hfree hs hf hh ht, ?_, g1.symm, g2.symm, g3.symm,
    g4.symm, g5.symm, hs.size_eq⟩
  rw [valuesOf_append, hval a hia]
  have : valuesOf l2 (idx :: b) = v :: valuesOf l2 b := by
    simp only [valuesOf, List.filterMap_cons]
    rw [hs.val_eq]
    simp
  rw [this, hval b hib]

theorem PushFront_inv (l : JList K V) (xs : List Int) (k : K) (v : V)
    (hinv : Inv l xs) (hlt : l.size < l.cap) :
    ∃ l2 e idx, PushFront l k v = some (l2, some e, none) ∧ Inv l2 (idx :: xs) ∧
      valuesOf l2 (idx :: xs) = v :: valuesOf l xs ∧ readSlot l2.data idx = some e ∧
      e.Key = k ∧ e.Value = v ∧ e.idx = idx ∧ e.prev = xs.getLastD idx ∧
      e.next = xs.headD idx ∧ l2.size = l.size + 1 ∧ l2.head = idx ∧
      l2.tail = xs.getLastD idx ∧ l2.cap = l.cap := by
  obtain ⟨fs, idx, hfree⟩ := hinv.free_snoc hlt
  have hb := hinv.free_bounds hfree
  cases xs with
  | nil =>
    obtain ⟨l2, e, h1, hs, hf, hh, ht, he⟩ :=
      PushFront_eval_empty l fs idx k v hfree hb.1 hb.2.1 hinv.head
    have := splice_post l l2 [] [] fs idx k v e hinv hfree hs hf hh ht he
    exact ⟨l2, e, idx, h1, this.1, by simpa [valuesOf] using this.2.1, he, this.2.2.1,
      this.2.2.2.1, this.2.2.2.2.1, this.2.2.2.2.2.1, this.2.2.2.2.2.2.1,
      this.2.2.2.2.2.2.2, hh, ht, hs.cap_eq⟩
  | cons x r =>
    have hhd : l.head = x := hinv.head
    have htl : l.tail = (x :: r).getLastD idx := by
      rw [hinv.tail, getLastD_cons_int, getLastD_cons_int]
    have hxm := hinv.len_eq x (List.mem_cons_self _ _)
    have htm := hinv.len_eq _ (pred_mem [] r x)
    have htl2 : l.tail = r.getLastD x := by rw [htl, getLastD_cons_int]
    simp only [List.getLastD_nil] at htm
    obtain ⟨l2, e, h1, hs, hf, hh, ht, he⟩ :=
      PushFront_eval_nonempty l fs idx k v hfree hb.1 hb.2.1 (hhd ▸ hxm.1) (hhd ▸ hxm.2.1)
        (htl2 ▸ htm.1) (htl2 ▸ htm.2.1)
    rw [htl, hhd] at hs
    have := splice_post l l2 [] (x :: r) fs idx k v e hinv hfree hs hf hh (ht.trans htl) he
    exact ⟨l2, e, idx, h1, this.1, by simpa [valuesOf] using this.2.1, he, this.2.2.1,
      this.2.2.2.1, this.2.2.2.2.1, this.2.2.2.2.2.1, this.2.2.2.2.2.2.1,
      this.2.2.2.2.2.2.2, hh, ht.trans htl, hs.cap_eq⟩
theorem PushBack_inv (l : JList K V) (xs : List Int) (k : K) (v : V)
    (hinv : Inv l xs) (hlt : l.size < l.cap) :
    ∃ l2 e idx, PushBack l k v = some (l2, some e, none) ∧ Inv l2 (xs ++ [idx]) ∧
      valuesOf l2 (xs ++ [idx]) = valuesOf l xs ++ [v] ∧ readSlot l2.data idx = some e ∧
      e.Key = k ∧ e.Value = v ∧ e.idx = idx ∧ e.prev = xs.getLastD idx ∧
      e.next = xs.headD idx ∧ l2.size = l.size + 1 ∧ l2.head = xs.headD idx ∧
      l2.tail = idx ∧ l2.cap = l.cap := by
  obtain ⟨fs, idx, hfree⟩ := hinv.free_snoc hlt
  have hb := hinv.free_bounds hfree
  have hinv2 : Inv l (xs ++ []) := by rw [List.append_nil]; exact hinv
  cases xs with
  | nil =>
    obtain ⟨l2, e, h1, hs, hf, hh, ht, he⟩ :=
      PushBack_eval_empty l fs idx k v hfree hb.1 hb.2.1 hinv.head
    have := splice_post l l2 [] [] fs idx k v e hinv hfree hs hf hh ht he
    exact ⟨l2, e, idx, h1, this.1, by simpa [valuesOf] using this.2.1, he, this.2.2.1,
      this.2.2.2.1, this.2.2.2.2.1, this.2.2.2.2.2.1, this.2.2.2.2.2.2.1,
      this.2.2.2.2.2.2.2, hh, ht, hs.cap_eq⟩
  | cons x r =>
    have hhd : l.head = x := hinv.head
    have htl : l.tail = (x :: r).getLastD idx := by
      rw [hinv.tail, getLastD_cons_int, getLastD_cons_int]
    have hxm := hinv.len_eq x (List.mem_cons_self _ _)
    have htm := hinv.len_eq _ (pred_mem [] r x)
    have htl2 : l.tail = r.getLastD x := by rw [htl, getLastD_cons_int]
    simp only [List.getLastD_nil] at htm
    obtain ⟨l2, e, h1, hs, hf, hh, ht, he⟩ :=
      PushBack_eval_nonempty l fs idx k v hfree hb.1 hb.2.1 (hhd ▸ hxm.1) (hhd ▸ hxm.2.1)
        (htl2 ▸ htm.1) (htl2 ▸ htm.2.1)
    rw [htl, hhd] at hs
    have := splice_post l l2 (x :: r) [] fs idx k v e hinv2 hfree hs hf (hh.trans hhd) ht he
    exact ⟨l2, e, idx, h1, this.1, by simpa [valuesOf] using this.2.1, he, this.2.2.1,
      this.2.2.2.1, this.2.2.2.2.1, this.2.2.2.2.2.1, this.2.2.2.2.2.2.1,
      this.2.2.2.2.2.2.2, hh.trans hhd, ht, hs.cap_eq⟩

theorem insertBefore_inv (l : JList K V) (a b : List Int) (m : Int) (k : K) (v : V)
    (mark : Entry K V) (hinv : Inv l (a ++ m :: b)) (hmark : readSlot l.data m = some mark)
    (hlt : l.size < l.cap) :
    ∃ l2 e idx, insertBefore l k v mark = some (l2, some e, none) ∧
      Inv l2 (a ++ idx :: m :: b) ∧
      valuesOf l2 (a ++ idx :: m :: b) = valuesOf l a ++ v :: valuesOf l (m :: b) ∧
      readSlot l2.data idx = some e ∧ e.Key = k ∧ e.Value = v ∧ e.idx = idx ∧
      l2.size = l.size + 1 ∧ l2.head = a.headD idx ∧ l2.cap = l.cap := by
  obtain ⟨fs, idx, hfree⟩ := hinv.free_snoc hlt
  have hb := hinv.free_bounds hfree
  obtain ⟨hnx, hpv, hix⟩ := hinv.entry_at mark hmark
  have hmm : m ∈ a ++ m :: b := List.mem_append_right _ (List.mem_cons_self _ _)
  have hmb := hinv.len_eq m hmm
  have hP := hinv.len_eq _ (pred_mem a b m)
  have hS := hinv.len_eq _ (succ_mem a b m)
  have hPi : idx ≠ a.getLastD (b.getLastD m) := fun e2 => hb.2.2 (e2 ▸ pred_mem a b m)
  have hmi : idx ≠ m := fun e2 => hb.2.2 (e2 ▸ hmm)
  have hcap := hinv.capLen
  have hread : readSlot l.data mark.idx = some mark := by rw [hix]; exact hmark
  obtain ⟨l2, e, h1, hs, hf, hh, ht, he⟩ :=
    insertBefore_eval l fs idx k v mark mark hfree hb.1 hb.2.1 (by rw [hix]; exact hmb.1)
      (by rw [hix]; omega) hread (by rw [hpv]; exact hP.2.2) (by rw [hnx]; exact hS.2.2)
      (by rw [hpv]; exact hP.1) (by rw [hpv]; exact hP.2.1) (by rw [hix]; exact hmb.1)
      (by rw [hix]; exact hmb.2.1) (by rw [hpv]; exact hPi) (by rw [hix]; exact hmi)
  rw [hpv, hix] at hs
  have hs2 : Spliced l l2 (a.getLastD ((m :: b).getLastD idx)) ((m :: b).headD (a.headD idx))
      idx k v := by
    rw [getLastD_cons_int]; exact hs
  have hh2 : l2.head = a.headD idx := by
    rw [hh, hix, hinv.head, headD_append_cons]
    cases a with
    | nil => simp
    | cons y s =>
      have hy : y ≠ m := by
        intro e2
        have := hinv.nodup
        rw [e2] at this
        exact (List.nodup_cons.mp this).1 (List.mem_append_right _ (List.mem_cons_self _ _))
      have hy2 := (hinv.len_eq y (List.mem_cons_self _ _)).2.2
      simp [hy, hy2]
  have ht2 : l2.tail = (m :: b).getLastD idx := by
    rw [ht, hinv.tail, getLastD_append_cons, getLastD_cons_int]
  have := splice_post l l2 a (m :: b) fs idx k v e hinv hfree hs2 hf hh2 ht2 he
  exact ⟨l2, e, idx, h1, this.1, this.2.1, he, this.2.2.1, this.2.2.2.1, this.2.2.2.2.1,
    this.2.2.2.2.2.2.2, hh2, hs.cap_eq⟩
theorem insertAfter_inv (l : JList K V) (a b : List Int) (m : Int) (k : K) (v : V)
    (mark : Entry K V) (hinv : Inv l (a ++ m :: b)) (hmark : readSlot l.data m = some mark)
    (hlt : l.size < l.cap) :
    ∃ l2 e idx, insertAfter l k v mark = some (l2, some e, none) ∧
      Inv l2 (a ++ m :: idx :: b) ∧
      valuesOf l2 (a ++ m :: idx :: b) = valuesOf l (a ++ [m]) ++ v :: valuesOf l b ∧
      readSlot l2.data idx = some e ∧ e.Key = k ∧ e.Value = v ∧ e.idx = idx ∧
      l2.size = l.size + 1 ∧ l2.tail = b.getLastD idx ∧ l2.cap = l.cap := by
  obtain ⟨fs, idx, hfree⟩ := hinv.free_snoc hlt
  have hb := hinv.free_bounds hfree
  obtain ⟨hnx, hpv, hix⟩ := hinv.entry_at mark hmark
  have hmm : m ∈ a ++ m :: b := List.mem_append_right _ (List.mem_cons_self _ _)
  have hmb := hinv.len_eq m hmm
  have hP := hinv.len_eq _ (pred_mem a b m)
  have hS := hinv.len_eq _ (succ_mem a b m)
  have hSi : idx ≠ b.headD (a.headD m) := fun e2 => hb.2.2 (e2 ▸ succ_mem a b m)
  have hmi : idx ≠ m := fun e2 => hb.2.2 (e2 ▸ hmm)
  have hcap := hinv.capLen
  have hread : readSlot l.data mark.idx = some mark := by rw [hix]; exact hmark
  obtain ⟨l2, e, h1, hs, hf, hh, ht, he⟩ :=
    insertAfter_eval l fs idx k v mark mark hfree hb.1 hb.2.1 (by rw [hix]; exact hmb.1)
      (by rw [hix]; omega) hread (by rw [hpv]; exact hP.2.2) (by rw [hnx]; exact hS.2.2)
      (by rw [hnx]; exact hS.1) (by rw [hnx]; exact hS.2.1) (by rw [hix]; exact hmb.1)
      (by rw [hix]; exact hmb.2.1) (by rw [hnx]; exact hSi) (by rw [hix]; exact hmi)
  rw [hnx, hix] at hs
  have hinv2 : Inv l ((a ++ [m]) ++ b) := by
    rw [List.append_assoc]; exact hinv
  have hs2 : Spliced l l2 ((a ++ [m]).getLastD (b.getLastD idx))
      (b.headD ((a ++ [m]).headD idx)) idx k v := by
    rw [getLastD_concat_int, headD_append_cons]; exact hs
  have hh2 : l2.head = (a ++ [m]).headD idx := by
    rw [hh, hinv.head, headD_append_cons, headD_append_cons]
  have ht2 : l2.tail = b.getLastD idx := by
    rw [ht, hix, hinv.tail, getLastD_append_cons]
    cases b with
    | nil => simp
    | cons y s =>
      have hmem : (y :: s).getLastD m ∈ a ++ m :: y :: s := by
        have := pred_mem [] (y :: s) m
        simp only [List.getLastD_nil, List.nil_append] at this
        exact List.mem_append_right _ this
      have hne : (y :: s).getLastD m ≠ m := by
        intro e2
        have hin : (y :: s).getLastD m ∈ y :: s := by
          rw [getLastD_cons_int]
          rcases eq_nil_or_snoc s with h0 | ⟨r, p, h0⟩
          · subst h0; simp
          · subst h0; rw [getLastD_concat_int]; simp
        rw [e2] at hin
        have := List.nodup_middle.mp hinv.nodup
        exact (List.nodup_cons.mp this).1 (List.mem_append_right _ hin)
      have hne2 := (hinv.len_eq _ hmem).2.2
      rw [getLastD_cons_int y s idx, ← getLastD_cons_int y s m]
      rw [if_neg (not_or.mpr ⟨hne, hne2⟩)]
  have := splice_post l l2 (a ++ [m]) b fs idx k v e hinv2 hfree hs2 hf hh2 ht2 he
  simp only [List.append_assoc, List.singleton_append] at this
  exact ⟨l2, e, idx, h1, this.1, by simpa using this.2.1, he, this.2.2.1, this.2.2.2.1,
    this.2.2.2.2.1, this.2.2.2.2.2.2.2, ht2, hs.cap_eq⟩

theorem remove_inv [Inhabited V] (l : JList K V) (a b : List Int) (m : Int) (e : Entry K V)
    (hinv : Inv l (a ++ m :: b)) (he : readSlot l.data m = some e) :
    ∃ l2, remove l (some e) = some (l2, e.Value, none) ∧ Inv l2 (a ++ b) ∧
      valuesOf l2 (a ++ b) = valuesOf l a ++ valuesOf l b ∧ l2.size = l.size - 1 ∧
      l2.cap = l.cap ∧ l2.freeIdx = l.freeIdx ++ [m] ∧
      nextAt l2.data m = some (-1) ∧ prevAt l2.data m = some (-1) := by
  obtain ⟨hnx, hpv, hix⟩ := hinv.entry_at e he
  have hmm : m ∈ a ++ m :: b := List.mem_append_right _ (List.mem_cons_self _ _)
  have hmb := hinv.len_eq m hmm
  have hP := hinv.len_eq _ (pred_mem a b m)
  have hS := hinv.len_eq _ (succ_mem a b m)
  have hcap := hinv.capLen
  have hread : readSlot l.data e.idx = some e := by rw [hix]; exact he
  obtain ⟨l2, h1, hu, hh, ht⟩ :=
    remove_eval l e e (by rw [hnx]; exact hS.2.2) (by rw [hpv]; exact hP.2.2)
      (by rw [hix]; exact hmb.1) (by rw [hix]; omega) (by rw [hix]; exact hmb.2.1) hread rfl rfl
      (by rw [hpv]; exact hP.1) (by rw [hpv]; exact hP.2.1) (by rw [hnx]; exact hS.1)
      (by rw [hnx]; exact hS.2.1)
  rw [hpv, hnx, hix] at hu
  have hn2 : (m :: (a ++ b)).Nodup := List.nodup_middle.mp hinv.nodup
  have hmab : m ∉ a ++ b := (List.nodup_cons.mp hn2).1
  have hsz : l.size - 1 = ((a ++ b).length : Int) := by
    rw [hinv.size]
    simp only [List.length_append, List.length_cons]
    push_cast
    omega
  have hh2 : l2.head = (a ++ b).headD (-1) := by
    rw [hh, hsz, hnx, hix, hinv.head, headD_append_cons]
    cases a with
    | nil =>
      cases b with
      | nil => simp
      | cons y s =>
        have hlen : ¬ ((([] ++ y :: s : List Int).length : Nat) : Int) = 0 := by
          simp only [List.nil_append, List.length_cons]; push_cast; omega
        rw [if_neg hlen]
        simp
    | cons y s =>
      have hy : y ≠ m := fun e2 => hmab (e2 ▸ List.mem_append_left _ (List.mem_cons_self _ _))
      have hlen : ¬ (((y :: s ++ b : List Int).length : Nat) : Int) = 0 := by
        simp only [List.cons_append, List.length_cons]; push_cast; omega
      rw [if_neg hlen]
      simp [hy]
  have ht2 : l2.tail = (a ++ b).getLastD (-1) := by
    rw [ht, hsz, hpv, hix, hinv.tail, getLastD_append_cons]
    cases b with
    | nil =>
      rcases eq_nil_or_snoc a with h0 | ⟨r, p, h0⟩
      · subst h0; simp
      · subst h0
        have hlen : ¬ (((r ++ [p] ++ [] : List Int).length : Nat) : Int) = 0 := by
          simp only [List.append_nil, List.length_append, List.length_cons, List.length_nil]
          push_cast; omega
        rw [if_neg hlen]
        simp only [List.getLastD_nil, List.append_nil, getLastD_concat_int, if_true]
    | cons y s =>
      have hin : (y :: s).getLastD m ∈ y :: s := by
        rw [getLastD_cons_int]
        rcases eq_nil_or_snoc s with h0 | ⟨r, p, h0⟩
        · subst h0; simp
        · subst h0; rw [getLastD_concat_int]; simp
      have hne : (y :: s).getLastD m ≠ m := fun e2 => hmab (e2 ▸ List.mem_append_right _ hin)
      have hlen : ¬ (((a ++ y :: s : List Int).length : Nat) : Int) = 0 := by
        simp only [List.length_append, List.length_cons]; push_cast; omega
      rw [if_neg hlen, if_neg hne, getLastD_append_cons, getLastD_cons_int y s m]
  have hval : valuesOf l2 (a ++ b) = valuesOf l (a ++ b) := by
    apply valuesOf_congr
    intro x _
    rw [hu.val_eq]
  refine ⟨l2, h1, Inv_unlink l l2 a b m hinv hu hh2 ht2, ?_, hu.size_eq, hu.cap_eq, hu.free_eq,
    ?_, ?_⟩
  · rw [hval, valuesOf_append]
  · rw [hu.next_eq]; simp
  · rw [hu.prev_eq]; simp
theorem NewList_inv [Inhabited K] [Inhabited V] (capacity : Int) (l : JList K V)
    (h : NewList capacity = some l) : Inv l [] := by
  unfold NewList at h
  by_cases hc : capacity < 0
  · simp [hc] at h
  · simp only [hc, if_false, Option.some.injEq] at h
    subst h
    have hc0 : 0 ≤ capacity := by omega
    refine
      { capLen := by simp [Int.toNat_of_nonneg hc0]
        size := rfl
        head := rfl
        tail := rfl
        nodup := List.nodup_nil
        inRange := fun x hx => by simp at hx
        next := trivial
        prev := trivial
        idx := fun x hx => by simp at hx
        freeNodup := by
          refine List.Nodup.map ?_ (List.nodup_range _)
          intro a b hab
          exact Int.ofNat.inj hab
        freeRange := ?_
        disjoint := fun x hx => by simp at hx
        cover := ?_
        count := by simp [Int.toNat_of_nonneg hc0] }
    · intro f hf
      simp only [List.mem_map, List.mem_range] at hf
      obtain ⟨n, hn, rfl⟩ := hf
      show (0 : Int) ≤ Int.ofNat n ∧ Int.ofNat n < capacity
      simp only [Int.ofNat_eq_coe]
      omega
    · intro i h0 h1
      replace h1 : i < capacity := h1
      right
      simp only [List.mem_map, List.mem_range]
      exact ⟨i.toNat, by omega, by simp [Int.toNat_of_nonneg h0]⟩

theorem IsHandleAt.split {l : JList K V} {xs : List Int} {p : Nat} {e : Entry K V}
    (hinv : Inv l xs) (h : IsHandleAt l p e) :
    ∃ m, p < xs.length ∧ xs[p]? = some m ∧ xs = xs.take p ++ m :: xs.drop (p + 1) ∧
      readSlot l.data m = some e := by
  obtain ⟨hp, i, hs, hr⟩ := h
  have hp2 : p < xs.length := by
    have := hinv.size
    omega
  rw [hinv.slotAt_eq p hp2] at hs
  exact ⟨i, hp2, hs, split_at xs p i hs, hr⟩

theorem getNodeIdx_nil (l : JList K V) (h : l.freeIdx = []) :
    getNodeIdx l = (l, -1, false) := by
  simp [getNodeIdx, h]

theorem PushFront_exhausted (l : JList K V) (k : K) (v : V) (h : l.freeIdx = []) :
    PushFront l k v = some (l, none, some "memory pool exhausted") := by
  simp only [PushFront, getNodeIdx_nil l h]

theorem PushBack_exhausted (l : JList K V) (k : K) (v : V) (h : l.freeIdx = []) :
    PushBack l k v = some (l, none, some "memory pool exhausted") := by
  simp only [PushBack, getNodeIdx_nil l h]

theorem insertBefore_exhausted (l : JList K V) (k : K) (v : V) (mark : Entry K V)
    (h : l.freeIdx = []) :
    insertBefore l k v mark = some (l, none, some "memory pool exhausted") := by
  simp only [insertBefore, getNodeIdx_nil l h]

theorem insertAfter_exhausted (l : JList K V) (k : K) (v : V) (mark : Entry K V)
    (h : l.freeIdx = []) :
    insertAfter l k v mark = some (l, none, some "memory pool exhausted") := by
  simp only [insertAfter, getNodeIdx_nil l h]

theorem Inv.lt_of_free {l : JList K V} {xs : List Int} (h : Inv l xs) (hf : l.freeIdx ≠ []) :
    l.size < l.cap := by
  have h1 := h.count
  have h2 := h.size
  have : 0 < l.freeIdx.length := List.length_pos.mpr hf
  omega

theorem WellFormed.inv [Inhabited K] [Inhabited V] {l : JList K V} (h : WellFormed l) :
    ∃ xs, Inv l xs := by
  induction h with
  | newList capacity l h => exact ⟨[], NewList_inv capacity l h⟩
  | pushFront l l2 k v e _ hop ih =>
    obtain ⟨xs, hinv⟩ := ih
    by_cases hf : l.freeIdx = []
    · rw [PushFront_exhausted l k v hf] at hop
      simp at hop
    · obtain ⟨l3, e3, idx, h1, h2, _⟩ := PushFront_inv l xs k v hinv (hinv.lt_of_free hf)
      rw [h1] at hop
      simp only [Option.some.injEq, Prod.mk.injEq] at hop
      exact ⟨_, hop.1 ▸ h2⟩
  | pushBack l l2 k v e _ hop ih =>
    obtain ⟨xs, hinv⟩ := ih
    by_cases hf : l.freeIdx = []
    · rw [PushBack_exhausted l k v hf] at hop
      simp at hop
    · obtain ⟨l3, e3, idx, h1, h2, _⟩ := PushBack_inv l xs k v hinv (hinv.lt_of_free hf)
      rw [h1] at hop
      simp only [Option.some.injEq, Prod.mk.injEq] at hop
      exact ⟨_, hop.1 ▸ h2⟩
  | insertBefore l l2 k v mark e _ hm hop ih =>
    obtain ⟨xs, hinv⟩ := ih
    obtain ⟨p, hm⟩ := hm
    obtain ⟨m, _, _, hsplit, hr⟩ := hm.split hinv
    by_cases hf : l.freeIdx = []
    · rw [InsertBefore, insertBefore_exhausted l k v mark hf] at hop
      simp at hop
    · rw [hsplit] at hinv
      obtain ⟨l3, e3, idx, h1, h2, _⟩ :=
        insertBefore_inv l _ _ m k v mark hinv hr (hinv.lt_of_free hf)
      rw [InsertBefore, h1] at hop
      simp only [Option.some.injEq, Prod.mk.injEq] at hop
      exact ⟨_, hop.1 ▸ h2⟩
  | insertAfter l l2 k v mark e _ hm hop ih =>
    obtain ⟨xs, hinv⟩ := ih
    obtain ⟨p, hm⟩ := hm
    obtain ⟨m, _, _, hsplit, hr⟩ := hm.split hinv
    by_cases hf : l.freeIdx = []
    · rw [InsertAfter, insertAfter_exhausted l k v mark hf] at hop
      simp at hop
    · rw [hsplit] at hinv
      obtain ⟨l3, e3, idx, h1, h2, _⟩ :=
        insertAfter_inv l _ _ m k v mark hinv hr (hinv.lt_of_free hf)
      rw [InsertAfter, h1] at hop
      simp only [Option.some.injEq, Prod.mk.injEq] at hop
      exact ⟨_, hop.1 ▸ h2⟩
  | remove l l2 e v _ hm hop ih =>
    obtain ⟨xs, hinv⟩ := ih
    obtain ⟨p, hm⟩ := hm
    obtain ⟨m, _, _, hsplit, hr⟩ := hm.split hinv
    rw [hsplit] at hinv
    obtain ⟨l3, h1, h2, _⟩ := remove_inv l _ _ m e hinv hr
    rw [Remove, h1] at hop
    simp only [Option.some.injEq, Prod.mk.injEq] at hop
    exact ⟨_, hop.1 ▸ h2⟩
theorem Inv.values_length_sub {l : JList K V} {xs : List Int} (h : Inv l xs) (ys : List Int)
    (hsub : ∀ y ∈ ys, y ∈ xs) : (valuesOf l ys).length = ys.length := by
  induction ys with
  | nil => rfl
  | cons y r ih =>
    have hb := h.len_eq y (hsub y (List.mem_cons_self _ _))
    obtain ⟨e, he⟩ := readSlot_isSome l.data y hb.1 hb.2.1
    have hv : valAt l.data y = some e.Value := fieldAt_of_readSlot _ _ _ e he
    simp only [valuesOf, List.filterMap_cons, hv, List.length_cons]
    have := ih (fun z hz => hsub z (List.mem_cons_of_mem _ hz))
    simp only [valuesOf] at this
    rw [this]

theorem Inv.toNat_size {l : JList K V} {xs : List Int} (h : Inv l xs) :
    l.size.toNat = xs.length := by
  have := h.size
  omega

theorem pushBackAll_inv (l : JList K V) (xs : List Int) (kvs : List (K × V))
    (hinv : Inv l xs) (hroom : l.size + (kvs.length : Int) ≤ l.cap) :
    ∃ l2 ys, pushBackAll l kvs = some l2 ∧ Inv l2 ys ∧
      valuesOf l2 ys = valuesOf l xs ++ kvs.map Prod.snd ∧
      l2.size = l.size + (kvs.length : Int) := by
  induction kvs generalizing l xs with
  | nil => exact ⟨l, xs, rfl, hinv, by simp, by simp⟩
  | cons kv rest ih =>
    obtain ⟨k, v⟩ := kv
    have hlt : l.size < l.cap := by
      simp only [List.length_cons] at hroom
      push_cast at hroom
      omega
    obtain ⟨l1, e, idx, h1, h2, h3, _, _, _, _, _, _, h4, _, _, h5⟩ :=
      PushBack_inv l xs k v hinv hlt
    have hroom2 : l1.size + (rest.length : Int) ≤ l1.cap := by
      simp only [List.length_cons] at hroom
      push_cast at hroom
      omega
    obtain ⟨l2, ys, g1, g2, g3, g4⟩ := ih l1 (xs ++ [idx]) h2 hroom2
    refine ⟨l2, ys, ?_, g2, ?_, ?_⟩
    · simp only [pushBackAll, h1]
      exact g1
    · rw [g3, h3]; simp
    · rw [g4, h4]
      simp only [List.length_cons]
      push_cast
      omega

/-- C3: on a well-formed list with a free slot whose `Iterate()` is `xs`, `PushBack(k, v)`
succeeds, `Iterate()` then is `xs` followed by `v`, and `Len()` has grown by one; and pushing
`v1..vn` to the back of `NewList(n)` makes `Iterate()` return `[v1, ..., vn]`. -/
theorem C3_PushBack_appends [Inhabited K] [Inhabited V] (l : JList K V) (key : K) (value : V)
    (xs : List V) (fuel : Nat) (hwf : WellFormed l) (hfree : l.freeIdx ≠ [])
    (hit : Iterate fuel l = IterResult.done xs) :
    (∃ l2 e, PushBack l key value = some (l2, some e, none) ∧ Len l2 = Len l + 1 ∧
      ∀ fuel2, (Len l2).toNat ≤ fuel2 → Iterate fuel2 l2 = IterResult.done (xs ++ [value])) ∧
    (∀ kvs : List (K × V), kvs ≠ [] →
      ∃ l0 ln, NewList (kvs.length : Int) = some l0 ∧ pushBackAll l0 kvs = some ln ∧
        ∀ fuel2, kvs.length ≤ fuel2 →
          Iterate fuel2 ln = IterResult.done (kvs.map Prod.snd)) := by
  obtain ⟨ys, hinv⟩ := hwf.inv
  have hxs := hinv.iterate_unique fuel xs hit
  obtain ⟨l2, e, idx, h1, h2, h3, _, _, _, _, _, _, h4, _⟩ :=
    PushBack_inv l ys key value hinv (hinv.lt_of_free hfree)
  refine ⟨⟨l2, e, h1, h4, ?_⟩, ?_⟩
  · intro fuel2 hf
    rw [h2.iterate fuel2 (by rw [← h2.toNat_size]; exact hf), h3, hxs]
  · intro kvs _
    have hn : ¬ ((kvs.length : Int) < 0) := by omega
    have h0 : NewList (kvs.length : Int) = some
        ({ cap := (kvs.length : Int)
           data := List.replicate (kvs.length : Int).toNat Entry.zero
           freeIdx := (List.range (kvs.length : Int).toNat).map Int.ofNat
           head := -1, tail := -1, size := 0 } : JList K V) := by
      simp [NewList]
    have hinv0 := NewList_inv _ _ h0
    obtain ⟨ln, zs, g1, g2, g3, g4⟩ := pushBackAll_inv _ [] kvs hinv0 (by simp)
    refine ⟨_, ln, h0, g1, ?_⟩
    intro fuel2 hf
    have hlen : zs.length = kvs.length := by
      have := g2.size
      rw [g4] at this
      simp at this
      omega
    rw [g2.iterate fuel2 (by omega), g3]
    simp [valuesOf]
theorem exNew3_wf : WellFormed exNew3 := WellFormed.newList 3 exNew3 (by decide)

theorem exA_wf : WellFormed exA :=
  WellFormed.pushBack exNew3 exA "A" 1 (exEntry 2 2 2 "A" 1) exNew3_wf (by decide)

theorem exAB_wf : WellFormed exAB :=
  WellFormed.pushBack exA exAB "B" 2 (exEntry 2 2 1 "B" 2) exA_wf (by decide)

theorem C3_PushBack_appends_witness :
    (∃ l2 e, PushBack exAB "C" 3 = some (l2, some e, none) ∧ Len l2 = Len exAB + 1 ∧
      ∀ fuel2, (Len l2).toNat ≤ fuel2 → Iterate fuel2 l2 = IterResult.done ([1, 2] ++ [3])) ∧
    (∀ kvs : List (String × Int), kvs ≠ [] →
      ∃ l0 ln, NewList (kvs.length : Int) = some l0 ∧ pushBackAll l0 kvs = some ln ∧
        ∀ fuel2, kvs.length ≤ fuel2 →
          Iterate fuel2 ln = IterResult.done (kvs.map Prod.snd)) :=
  C3_PushBack_appends exAB "C" 3 [1, 2] 2 exAB_wf (by decide) (by decide)
theorem Front_of_head (l : JList K V) (e : Entry K V) (hs : l.size ≠ 0) (hh : l.head ≠ -1)
    (hr : readSlot l.data l.head = some e) : Front l = some (some e) := by
  simp [Front, hs, hh, hr]

theorem Back_of_tail (l : JList K V) (e : Entry K V) (hs : l.size ≠ 0) (ht : l.tail ≠ -1)
    (hr : readSlot l.data l.tail = some e) : Back l = some (some e) := by
  simp [Back, hs, ht, hr]

/-- C4: on a well-formed list with a free slot whose `Iterate()` is `xs`, `PushFront(k, v)`
returns a nil error and an entry with key `k` and value `v`, `Len()` grows by one and
`Iterate()` becomes `v` followed by `xs`; on an empty list the new entry is its own `prev` and
`next` and is both head and tail. -/
theorem C4_PushFront_prepends [Inhabited K] [Inhabited V] (l : JList K V) (key : K) (value : V)
    (xs : List V) (fuel : Nat) (hwf : WellFormed l) (hfree : l.freeIdx ≠ [])
    (hit : Iterate fuel l = IterResult.done xs) :
    ∃ l2 e, PushFront l key value = some (l2, some e, none) ∧ e.Key = key ∧ e.Value = value ∧
      Len l2 = Len l + 1 ∧
      (∀ fuel2, (Len l2).toNat ≤ fuel2 → Iterate fuel2 l2 = IterResult.done (value :: xs)) ∧
      (Len l = 0 → e.prev = e.idx ∧ e.next = e.idx ∧ l2.head = e.idx ∧ l2.tail = e.idx ∧
        Front l2 = some (some e) ∧ Back l2 = some (some e)) := by
  obtain ⟨ys, hinv⟩ := hwf.inv
  have hxs := hinv.iterate_unique fuel xs hit
  obtain ⟨l2, e, idx, h1, h2, h3, he, hk, hv, hi, hp, hn, h4, hh, ht, _⟩ :=
    PushFront_inv l ys key value hinv (hinv.lt_of_free hfree)
  refine ⟨l2, e, h1, hk, hv, h4, ?_, ?_⟩
  · intro fuel2 hf
    rw [h2.iterate fuel2 (by rw [← h2.toNat_size]; exact hf), h3, hxs]
  · intro hlen
    have hys : ys = [] := by
      have := hinv.size
      have h0 : l.size = 0 := hlen
      rw [h0] at this
      exact List.length_eq_zero.mp (by exact_mod_cast this.symm)
    subst hys
    have hb := h2.len_eq idx (List.mem_cons_self _ _)
    have hsz : l2.size ≠ 0 := by
      rw [h4]; have h0 : l.size = 0 := hlen; omega
    simp only [List.getLastD_nil, List.headD_nil] at hp hn ht
    refine ⟨by rw [hp, hi], by rw [hn, hi], by rw [hh, hi], by rw [ht, hi], ?_, ?_⟩
    · exact Front_of_head l2 e hsz (by rw [hh]; exact hb.2.2) (by rw [hh]; exact he)
    · exact Back_of_tail l2 e hsz (by rw [ht]; exact hb.2.2) (by rw [ht]; exact he)

theorem C4_PushFront_prepends_witness :
    ∃ l2 e, PushFront exNew3 "C" 3 = some (l2, some e, none) ∧ e.Key = "C" ∧ e.Value = 3 ∧
      Len l2 = Len exNew3 + 1 ∧
      (∀ fuel2, (Len l2).toNat ≤ fuel2 → Iterate fuel2 l2 = IterResult.done (3 :: [])) ∧
      (Len exNew3 = 0 → e.prev = e.idx ∧ e.next = e.idx ∧ l2.head = e.idx ∧ l2.tail = e.idx ∧
        Front l2 = some (some e) ∧ Back l2 = some (some e)) :=
  C4_PushFront_prepends exNew3 "C" 3 [] 0 exNew3_wf (by decide) (by decide)
theorem eraseIdx_append_cons {α : Type} (A B : List α) (x : α) :
    (A ++ x :: B).eraseIdx A.length = A ++ B := by
  induction A with
  | nil => rfl
  | cons a r ih => simp [List.eraseIdx, ih]

theorem take_append_cons {α : Type} (A B : List α) (x : α) :
    (A ++ x :: B).take A.length = A := by
  simp

theorem drop_append_cons {α : Type} (A B : List α) (x : α) :
    (A ++ x :: B).drop A.length = x :: B := by
  simp

theorem Inv.values_split {l : JList K V} {xs : List Int} (hinv : Inv l xs) (p : Nat) (m : Int)
    (hp : p < xs.length) (hsplit : xs = xs.take p ++ m :: xs.drop (p + 1)) :
    ∃ vm, valuesOf l xs = valuesOf l (xs.take p) ++ vm :: valuesOf l (xs.drop (p + 1)) ∧
      valuesOf l [m] = [vm] ∧ (valuesOf l (xs.take p)).length = p := by
  have hm : m ∈ xs := by rw [hsplit]; simp
  have hb := hinv.len_eq m hm
  obtain ⟨e, he⟩ := readSlot_isSome l.data m hb.1 hb.2.1
  have hv : valAt l.data m = some e.Value := fieldAt_of_readSlot _ _ _ e he
  have hlen := hinv.values_length_sub (xs.take p) (fun y hy => List.mem_of_mem_take hy)
  refine ⟨e.Value, ?_, ?_, ?_⟩
  · conv_lhs => rw [hsplit]
    rw [valuesOf_append]
    simp [valuesOf, hv]
  · simp [valuesOf, hv]
  · rw [hlen, List.length_take]; omega

/-- C5: on a well-formed list whose `Iterate()` is `xs`, for a handle `e` that is a current
copy of the live entry at position `p`, `Remove(e)` returns a nil error, `Len()` decreases by
one and `Iterate()` afterwards is `xs` without its element at position `p`; when `e` was the
only entry, `Iterate()` is empty and `Front()` and `Back()` return nil. -/
theorem C5_Remove_deletes [Inhabited K] [Inhabited V] (l : JList K V) (e : Entry K V) (p : Nat)
    (xs : List V) (fuel : Nat) (hwf : WellFormed l)
    (hit : Iterate fuel l = IterResult.done xs) (he : IsHandleAt l p e) :
    ∃ l2 v, Remove l (some e) = some (l2, v, none) ∧ Len l2 = Len l - 1 ∧
      (∀ fuel2, (Len l2).toNat ≤ fuel2 → Iterate fuel2 l2 = IterResult.done (xs.eraseIdx p)) ∧
      (Len l = 1 → (∀ fuel2, Iterate fuel2 l2 = IterResult.done []) ∧
        Front l2 = some none ∧ Back l2 = some none) := by
  obtain ⟨ys, hinv⟩ := hwf.inv
  have hxs := hinv.iterate_unique fuel xs hit
  obtain ⟨m, hp, _, hsplit, hr⟩ := he.split hinv
  obtain ⟨vm, hv1, _, hv3⟩ := hinv.values_split p m hp hsplit
  have hinv2 := hinv
  rw [hsplit] at hinv2
  obtain ⟨l2, h1, h2, h3, h4, _⟩ := remove_inv l _ _ m e hinv2 hr
  have hv4 : valuesOf l2 (ys.take p ++ ys.drop (p + 1)) = xs.eraseIdx p := by
    have key := eraseIdx_append_cons (valuesOf l (ys.take p)) (valuesOf l (ys.drop (p + 1))) vm
    rw [hv3] at key
    rw [h3, hxs, hv1, key]
  refine ⟨l2, e.Value, h1, h4, ?_, ?_⟩
  · intro fuel2 hf
    rw [h2.iterate fuel2 (by rw [← h2.toNat_size]; exact hf), hv4]
  · intro hlen
    have hsz : l2.size = 0 := by
      rw [h4]; have h0 : l.size = 1 := hlen; omega
    have hnil : ys.take p ++ ys.drop (p + 1) = [] := by
      have := h2.size
      rw [hsz] at this
      exact List.length_eq_zero.mp (by exact_mod_cast this.symm)
    refine ⟨?_, by simp [Front, hsz], by simp [Back, hsz]⟩
    intro fuel2
    rw [hnil] at h2
    rw [h2.iterate fuel2 (by simp)]
    rfl

theorem C5_Remove_deletes_witness :
    ∃ l2 v, Remove exAB (some (exEntry 2 2 1 "B" 2)) = some (l2, v, none) ∧
      Len l2 = Len exAB - 1 ∧
      (∀ fuel2, (Len l2).toNat ≤ fuel2 →
        Iterate fuel2 l2 = IterResult.done ([1, 2].eraseIdx 1)) ∧
      (Len exAB = 1 → (∀ fuel2, Iterate fuel2 l2 = IterResult.done []) ∧
        Front l2 = some none ∧ Back l2 = some none) :=
  C5_Remove_deletes exAB (exEntry 2 2 1 "B" 2) 1 [1, 2] 2 exAB_wf (by decide)
    ⟨by decide, 1, by decide, by decide⟩
/-- C7: on a well-formed list with a free slot whose `Iterate()` is `xs`, for a mark that is a
current copy of the live entry at position `p`, `InsertBefore` succeeds and puts the value
immediately before position `p` (the new entry is `Front()` when the mark was the head), and
`InsertAfter` succeeds and puts it immediately after position `p` (the new entry is `Back()`
when the mark was the tail); `Len()` grows by one in both cases. -/
theorem C7_Insert_relative [Inhabited K] [Inhabited V] (l : JList K V) (key : K) (value : V)
    (mark : Entry K V) (p : Nat) (xs : List V) (fuel : Nat) (hwf : WellFormed l)
    (hfree : l.freeIdx ≠ []) (hit : Iterate fuel l = IterResult.done xs)
    (hm : IsHandleAt l p mark) :
    (∃ l2 e, InsertBefore l key value mark = some (l2, some e, none) ∧ Len l2 = Len l + 1 ∧
      (∀ fuel2, (Len l2).toNat ≤ fuel2 →
        Iterate fuel2 l2 = IterResult.done (xs.take p ++ value :: xs.drop p)) ∧
      (p = 0 → Front l2 = some (some e))) ∧
    (∃ l2 e, InsertAfter l key value mark = some (l2, some e, none) ∧ Len l2 = Len l + 1 ∧
      (∀ fuel2, (Len l2).toNat ≤ fuel2 →
        Iterate fuel2 l2 = IterResult.done (xs.take (p + 1) ++ value :: xs.drop (p + 1))) ∧
      ((p : Int) + 1 = Len l → Back l2 = some (some e))) := by
  obtain ⟨ys, hinv⟩ := hwf.inv
  have hxs := hinv.iterate_unique fuel xs hit
  obtain ⟨m, hp, _, hsplit, hr⟩ := hm.split hinv
  obtain ⟨vm, hv1, hv2, hv3⟩ := hinv.values_split p m hp hsplit
  have hinv2 := hinv
  rw [hsplit] at hinv2
  have hlt := hinv.lt_of_free hfree
  have hA := take_append_cons (valuesOf l (ys.take p)) (valuesOf l (ys.drop (p + 1))) vm
  have hB := drop_append_cons (valuesOf l (ys.take p)) (valuesOf l (ys.drop (p + 1))) vm
  rw [hv3, ← hv1, ← hxs] at hA hB
  constructor
  · obtain ⟨l2, e, idx, h1, h2, h3, he, _, _, _, h4, hh, _⟩ :=
      insertBefore_inv l _ _ m key value mark hinv2 hr hlt
    refine ⟨l2, e, h1, h4, ?_, ?_⟩
    · intro fuel2 hf
      rw [h2.iterate fuel2 (by rw [← h2.toNat_size]; exact hf), h3, hA, hB]
      have : valuesOf l (m :: ys.drop (p + 1)) = vm :: valuesOf l (ys.drop (p + 1)) := by
        have := valuesOf_append l [m] (ys.drop (p + 1))
        rw [hv2] at this
        exact this
      rw [this]
    · intro hp0
      subst hp0
      simp only [List.take_zero, List.headD_nil] at hh
      have hb := h2.len_eq idx (by simp)
      have hsz : l2.size ≠ 0 := by
        have h5 : l2.size = l.size + 1 := h4
        have := hinv.size
        omega
      exact Front_of_head l2 e hsz (by rw [hh]; exact hb.2.2) (by rw [hh]; exact he)
  · obtain ⟨l2, e, idx, h1, h2, h3, he, _, _, _, h4, ht, _⟩ :=
      insertAfter_inv l _ _ m key value mark hinv2 hr hlt
    refine ⟨l2, e, h1, h4, ?_, ?_⟩
    · intro fuel2 hf
      rw [h2.iterate fuel2 (by rw [← h2.toNat_size]; exact hf), h3]
      have h5 : xs.take (p + 1) = valuesOf l (ys.take p ++ [m]) := by
        rw [valuesOf_append, hv2, hxs, hv1]
        have := @List.take_append_eq_append_take _ (valuesOf l (ys.take p))
          (vm :: valuesOf l (ys.drop (p + 1))) (p + 1)
        rw [this, hv3]
        simp [List.take_of_length_le, hv3]
      have h6 : xs.drop (p + 1) = valuesOf l (ys.drop (p + 1)) := by
        rw [hxs, hv1]
        have := @List.drop_append_eq_append_drop _ (valuesOf l (ys.take p))
          (vm :: valuesOf l (ys.drop (p + 1))) (p + 1)
        rw [this, hv3]
        simp [List.drop_of_length_le, hv3]
      rw [h5, h6]
    · intro hp1
      have hlast : ys.drop (p + 1) = [] := by
        have h7 : (p : Int) + 1 = l.size := hp1
        have := hinv.size
        exact List.drop_eq_nil_of_le (by omega)
      rw [hlast] at ht h2
      simp only [List.getLastD_nil] at ht
      have hb := h2.len_eq idx (by simp)
      have hsz : l2.size ≠ 0 := by
        have h5 : l2.size = l.size + 1 := h4
        have := hinv.size
        omega
      exact Back_of_tail l2 e hsz (by rw [ht]; exact hb.2.2) (by rw [ht]; exact he)

theorem C7_Insert_relative_witness :
    (∃ l2 e, InsertBefore exAB "C" 0 (exEntry 1 1 2 "A" 1) = some (l2, some e, none) ∧
      Len l2 = Len exAB + 1 ∧
      (∀ fuel2, (Len l2).toNat ≤ fuel2 →
        Iterate fuel2 l2 = IterResult.done ([1, 2].take 0 ++ 0 :: [1, 2].drop 0)) ∧
      (0 = 0 → Front l2 = some (some e))) ∧
    (∃ l2 e, InsertAfter exAB "C" 0 (exEntry 1 1 2 "A" 1) = some (l2, some e, none) ∧
      Len l2 = Len exAB + 1 ∧
      (∀ fuel2, (Len l2).toNat ≤ fuel2 →
        Iterate fuel2 l2 = IterResult.done ([1, 2].take (0 + 1) ++ 0 :: [1, 2].drop (0 + 1))) ∧
      (((0 : Nat) : Int) + 1 = Len exAB → Back l2 = some (some e))) :=
  C7_Insert_relative exAB "C" 0 (exEntry 1 1 2 "A" 1) 0 [1, 2] 2 exAB_wf (by decide) (by decide)
    ⟨by decide, 2, by decide, by decide⟩
theorem remove_fail_unchanged [Inhabited V] (l3 l4 : JList K V) (h : Option (Entry K V))
    (v3 : V) (msg : String) (hr : remove l3 h = some (l4, v3, some msg)) : l4 = l3 := by
  cases h with
  | none =>
    simp only [remove, Option.some.injEq, Prod.mk.injEq] at hr
    exact hr.1.symm
  | some e =>
    unfold remove at hr
    by_cases c1 : e.next = -1 ∨ e.prev = -1
    · simp only [c1, if_true, Option.some.injEq, Prod.mk.injEq] at hr
      exact hr.1.symm
    · by_cases c2 : l3.cap ≤ e.idx ∨ e.idx < 0
      · simp only [c1, c2, if_true, if_false, Option.some.injEq, Prod.mk.injEq] at hr
        exact hr.1.symm
      · cases hread : readSlot l3.data e.idx with
        | none => simp [c1, c2, hread] at hr
        | some node =>
          by_cases c3 : node.prev = -1 ∨ node.next = -1
          · simp only [c1, c2, c3, hread, if_true, if_false, Option.bind_eq_bind,
              Option.some_bind, Option.some.injEq, Prod.mk.injEq] at hr
            exact hr.1.symm
          · by_cases c4 : e.next ≠ node.next ∨ e.prev ≠ node.prev
            · simp only [c1, c2, c3, c4, hread, if_true, if_false, Option.bind_eq_bind,
                Option.some_bind, Option.some.injEq, Prod.mk.injEq] at hr
              exact hr.1.symm
            · exfalso
              simp only [c1, c2, c3, c4, hread, if_false, Option.bind_eq_bind,
                Option.some_bind, Option.bind_eq_some, Option.some.injEq, Prod.mk.injEq] at hr
              obtain ⟨_, _, _, _, _, _, _, _, _, _, h9⟩ := hr
              simp at h9

/-- C9: on a well-formed list, after a successful `Remove(e)` of a live entry a second
`Remove(e)` with the same handle returns an error and leaves the list unchanged (whether the
handle is the copy taken before or the now cleared slot content), and every failing `Remove`
leaves the list unchanged. -/
theorem C9_Remove_twice_fails [Inhabited K] [Inhabited V] (l : JList K V) (e : Entry K V)
    (p : Nat) (hwf : WellFormed l) (he : IsHandleAt l p e) :
    ∃ l2 v, Remove l (some e) = some (l2, v, none) ∧
      (∃ v2 msg, Remove l2 (some e) = some (l2, v2, some msg)) ∧
      (∀ cur, readSlot l2.data e.idx = some cur →
        ∃ v2 msg, Remove l2 (some cur) = some (l2, v2, some msg)) ∧
      (∀ (l3 l4 : JList K V) (h : Option (Entry K V)) (v3 : V) (msg : String),
        Remove l3 h = some (l4, v3, some msg) → l4 = l3) := by
  obtain ⟨ys, hinv⟩ := hwf.inv
  obtain ⟨m, hp, _, hsplit, hr⟩ := he.split hinv
  have hinv2 := hinv
  rw [hsplit] at hinv2
  obtain ⟨hnx, hpv, hix⟩ := hinv2.entry_at e hr
  have hmb := hinv2.len_eq m (List.mem_append_right _ (List.mem_cons_self _ _))
  have hP := hinv2.len_eq _ (pred_mem _ _ m)
  have hS := hinv2.len_eq _ (succ_mem _ _ m)
  obtain ⟨l2, h1, h2, _, _, hcap, _, hn2, hp2⟩ := remove_inv l _ _ m e hinv2 hr
  have c1 : ¬ (e.next = -1 ∨ e.prev = -1) := by
    rw [hnx, hpv]; exact not_or.mpr ⟨hS.2.2, hP.2.2⟩
  have c2 : ¬ (l2.cap ≤ e.idx ∨ e.idx < 0) := by
    have := hinv.capLen
    rw [hcap, hix]; omega
  have hnode : ∃ node, readSlot l2.data e.idx = some node ∧ node.prev = -1 := by
    rw [hix]
    cases hrd : readSlot l2.data m with
    | none => simp [fieldAt, hrd] at hp2
    | some node =>
      refine ⟨node, rfl, ?_⟩
      simpa [fieldAt, hrd] using hp2
  refine ⟨l2, e.Value, h1, ?_, ?_, ?_⟩
  · obtain ⟨node, hrd, hnp⟩ := hnode
    refine ⟨e.Value, "invalid node", ?_⟩
    simp [Remove, remove, c1, c2, hrd, hnp]
  · intro cur hcur
    obtain ⟨node, hrd, hnp⟩ := hnode
    rw [hrd] at hcur
    have : cur = node := (Option.some.inj hcur).symm
    subst this
    refine ⟨cur.Value, "unknown node", ?_⟩
    simp [Remove, remove, hnp]
  · intro l3 l4 h v3 msg hrm
    exact remove_fail_unchanged l3 l4 h v3 msg hrm

theorem C9_Remove_twice_fails_witness :
    ∃ l2 v, Remove exAB (some (exEntry 2 2 1 "B" 2)) = some (l2, v, none) ∧
      (∃ v2 msg, Remove l2 (some (exEntry 2 2 1 "B" 2)) = some (l2, v2, some msg)) ∧
      (∀ cur, readSlot l2.data (exEntry 2 2 1 "B" 2).idx = some cur →
        ∃ v2 msg, Remove l2 (some cur) = some (l2, v2, some msg)) ∧
      (∀ (l3 l4 : JList String Int) (h : Option (Entry String Int)) (v3 : Int) (msg : String),
        Remove l3 h = some (l4, v3, some msg) → l4 = l3) :=
  C9_Remove_twice_fails exAB (exEntry 2 2 1 "B" 2) 1 exAB_wf
    ⟨by decide, 1, by decide, by decide⟩
theorem writeSlot_eq_some_iff (d d2 : List (Entry K V)) (i : Int) (f : Entry K V → Entry K V) :
    writeSlot d i f = some d2 ↔ (0 ≤ i ∧ i < (d.length : Int)) ∧ d2 = List.modify f i.toNat d := by
  unfold writeSlot
  by_cases h : 0 ≤ i ∧ i < (d.length : Int)
  · simp [h, eq_comm]
  · simp [h]

theorem setNext_iff (l l2 : JList K V) (i v : Int) :
    l.setNext i v = some l2 ↔ l2 = l.modifySlot i (fun e => { e with next := v }) ∧
      0 ≤ i ∧ i < (l.data.length : Int) := by
  simp only [JList.setNext, JList.modifySlot, Option.map_eq_some', writeSlot_eq_some_iff]
  constructor
  · rintro ⟨d, ⟨hb, rfl⟩, rfl⟩; exact ⟨rfl, hb⟩
  · rintro ⟨rfl, hb⟩; exact ⟨_, ⟨hb, rfl⟩, rfl⟩

theorem setNext_bind {β : Type} (l : JList K V) (i v : Int) (f : JList K V → Option β) (b : β)
    (h : (l.setNext i v).bind f = some b) :
    f (l.modifySlot i (fun e => { e with next := v })) = some b := by
  obtain ⟨l1, h1, h2⟩ := Option.bind_eq_some.mp h
  rw [((setNext_iff l l1 i v).mp h1).1] at h2
  exact h2

theorem setPrev_iff (l l2 : JList K V) (i v : Int) :
    l.setPrev i v = some l2 ↔ l2 = l.modifySlot i (fun e => { e with prev := v }) ∧
      0 ≤ i ∧ i < (l.data.length : Int) := by
  simp only [JList.setPrev, JList.modifySlot, Option.map_eq_some', writeSlot_eq_some_iff]
  constructor
  · rintro ⟨d, ⟨hb, rfl⟩, rfl⟩; exact ⟨rfl, hb⟩
  · rintro ⟨rfl, hb⟩; exact ⟨_, ⟨hb, rfl⟩, rfl⟩

theorem setPrev_bind {β : Type} (l : JList K V) (i v : Int) (f : JList K V → Option β) (b : β)
    (h : (l.setPrev i v).bind f = some b) :
    f (l.modifySlot i (fun e => { e with prev := v })) = some b := by
  obtain ⟨l1, h1, h2⟩ := Option.bind_eq_some.mp h
  rw [((setPrev_iff l l1 i v).mp h1).1] at h2
  exact h2

theorem setIdx_iff (l l2 : JList K V) (i v : Int) :
    l.setIdx i v = some l2 ↔ l2 = l.modifySlot i (fun e => { e with idx := v }) ∧
      0 ≤ i ∧ i < (l.data.length : Int) := by
  simp only [JList.setIdx, JList.modifySlot, Option.map_eq_some', writeSlot_eq_some_iff]
  constructor
  · rintro ⟨d, ⟨hb, rfl⟩, rfl⟩; exact ⟨rfl, hb⟩
  · rintro ⟨rfl, hb⟩; exact ⟨_, ⟨hb, rfl⟩, rfl⟩

theorem setIdx_bind {β : Type} (l : JList K V) (i v : Int) (f : JList K V → Option β) (b : β)
    (h : (l.setIdx i v).bind f = some b) :
    f (l.modifySlot i (fun e => { e with idx := v })) = some b := by
  obtain ⟨l1, h1, h2⟩ := Option.bind_eq_some.mp h
  rw [((setIdx_iff l l1 i v).mp h1).1] at h2
  exact h2

theorem setKey_iff (l l2 : JList K V) (i : Int) (k : K) :
    l.setKey i k = some l2 ↔ l2 = l.modifySlot i (fun e => { e with Key := k }) ∧
      0 ≤ i ∧ i < (l.data.length : Int) := by
  simp only [JList.setKey, JList.modifySlot, Option.map_eq_some', writeSlot_eq_some_iff]
  constructor
  · rintro ⟨d, ⟨hb, rfl⟩, rfl⟩; exact ⟨rfl, hb⟩
  · rintro ⟨rfl, hb⟩; exact ⟨_, ⟨hb, rfl⟩, rfl⟩

theorem setKey_bind {β : Type} (l : JList K V) (i : Int) (k : K) (f : JList K V → Option β) (b : β)
    (h : (l.setKey i k).bind f = some b) :
    f (l.modifySlot i (fun e => { e with Key := k })) = some b := by
  obtain ⟨l1, h1, h2⟩ := Option.bind_eq_some.mp h
  rw [((setKey_iff l l1 i k).mp h1).1] at h2
  exact h2

theorem setValue_iff (l l2 : JList K V) (i : Int) (v : V) :
    l.setValue i v = some l2 ↔ l2 = l.modifySlot i (fun e => { e with Value := v }) ∧
      0 ≤ i ∧ i < (l.data.length : Int) := by
  simp only [JList.setValue, JList.modifySlot, Option.map_eq_some', writeSlot_eq_some_iff]
  constructor
  · rintro ⟨d, ⟨hb, rfl⟩, rfl⟩; exact ⟨rfl, hb⟩
  · rintro ⟨rfl, hb⟩; exact ⟨_, ⟨hb, rfl⟩, rfl⟩

theorem setValue_bind {β : Type} (l : JList K V) (i : Int) (v : V) (f : JList K V → Option β) (b : β)
    (h : (l.setValue i v).bind f = some b) :
    f (l.modifySlot i (fun e => { e with Value := v })) = some b := by
  obtain ⟨l1, h1, h2⟩ := Option.bind_eq_some.mp h
  rw [((setValue_iff l l1 i v).mp h1).1] at h2
  exact h2

theorem setHashId_iff (l l2 : JList K V) (i : Int) (h : Nat) :
    l.setHashId i h = some l2 ↔ l2 = l.modifySlot i (fun e => { e with HashId := h }) ∧
      0 ≤ i ∧ i < (l.data.length : Int) := by
  simp only [JList.setHashId, JList.modifySlot, Option.map_eq_some', writeSlot_eq_some_iff]
  constructor
  · rintro ⟨d, ⟨hb, rfl⟩, rfl⟩; exact ⟨rfl, hb⟩
  · rintro ⟨rfl, hb⟩; exact ⟨_, ⟨hb, rfl⟩, rfl⟩

theorem setHashId_bind {β : Type} (l : JList K V) (i : Int) (hv : Nat) (f : JList K V → Option β) (b : β)
    (h : (l.setHashId i hv).bind f = some b) :
    f (l.modifySlot i (fun e => { e with HashId := hv })) = some b := by
  obtain ⟨l1, h1, h2⟩ := Option.bind_eq_some.mp h
  rw [((setHashId_iff l l1 i hv).mp h1).1] at h2
  exact h2

theorem readSlot_bind {β : Type} (d : List (Entry K V)) (i : Int) (f : Entry K V → Option β)
    (b : β) (h : (readSlot d i).bind f = some b) : ∃ e, readSlot d i = some e ∧ f e = some b :=
  Option.bind_eq_some.mp h

theorem PushFront_meta (l l2 : JList K V) (k : K) (v : V) (r : Option (Entry K V))
    (err : Option String) (h : PushFront l k v = some (l2, r, err)) :
    l2.cap = l.cap ∧
      l2.size + (l2.freeIdx.length : Int) ≤ l.size + (l.freeIdx.length : Int) := by
  rcases eq_nil_or_snoc l.freeIdx with hf | ⟨fs, idx, hf⟩
  · rw [PushFront_exhausted l k v hf] at h
    simp only [Option.some.injEq, Prod.mk.injEq] at h
    rw [← h.1]
    exact ⟨rfl, le_refl _⟩
  · simp only [PushFront, getNodeIdx_concat l fs idx hf] at h
    replace h := setKey_bind _ _ _ _ _ h
    replace h := setValue_bind _ _ _ _ _ h
    replace h := setIdx_bind _ _ _ _ _ h
    by_cases hc : l.head ≠ -1 ∧ l.tail ≠ -1
    · simp only [modifySlot_head, modifySlot_tail, hc, if_true, ne_eq, not_false_eq_true,
        and_self, Option.pure_def, Option.bind_eq_bind, Option.some_bind] at h
      replace h := setPrev_bind _ _ _ _ _ h
      replace h := setNext_bind _ _ _ _ _ h
      replace h := setNext_bind _ _ _ _ _ h
      replace h := setPrev_bind _ _ _ _ _ h
      obtain ⟨e, -, h⟩ := readSlot_bind _ _ _ _ h
      simp only [Option.some.injEq, Prod.mk.injEq] at h
      rw [← h.1, hf]
      simp [JList.modifySlot]
      omega
    · simp only [modifySlot_head, modifySlot_tail, hc, if_false, Option.pure_def,
        Option.bind_eq_bind, Option.some_bind] at h
      replace h := setNext_bind _ _ _ _ _ h
      replace h := setPrev_bind _ _ _ _ _ h
      obtain ⟨e, -, h⟩ := readSlot_bind _ _ _ _ h
      simp only [Option.some.injEq, Prod.mk.injEq] at h
      rw [← h.1, hf]
      simp [JList.modifySlot]
      omega

theorem PushBack_meta (l l2 : JList K V) (k : K) (v : V) (r : Option (Entry K V))
    (err : Option String) (h : PushBack l k v = some (l2, r, err)) :
    l2.cap = l.cap ∧
      l2.size + (l2.freeIdx.length : Int) ≤ l.size + (l.freeIdx.length : Int) := by
  rcases eq_nil_or_snoc l.freeIdx with hf | ⟨fs, idx, hf⟩
  · rw [PushBack_exhausted l k v hf] at h
    simp only [Option.some.injEq, Prod.mk.injEq] at h
    rw [← h.1]
    exact ⟨rfl, le_refl _⟩
  · simp only [PushBack, getNodeIdx_concat l fs idx hf] at h
    replace h := setKey_bind _ _ _ _ _ h
    replace h := setValue_bind _ _ _ _ _ h
    replace h := setIdx_bind _ _ _ _ _ h
    by_cases hc : l.head ≠ -1 ∧ l.tail ≠ -1
    · simp only [modifySlot_head, modifySlot_tail, hc, if_true, ne_eq, not_false_eq_true,
        and_self, Option.pure_def, Option.bind_eq_bind, Option.some_bind] at h
      replace h := setNext_bind _ _ _ _ _ h
      replace h := setPrev_bind _ _ _ _ _ h
      replace h := setPrev_bind _ _ _ _ _ h
      replace h := setNext_bind _ _ _ _ _ h
      obtain ⟨e, -, h⟩ := readSlot_bind _ _ _ _ h
      simp only [Option.some.injEq, Prod.mk.injEq] at h
      rw [← h.1, hf]
      simp [JList.modifySlot]
      omega
    · simp only [modifySlot_head, modifySlot_tail, hc, if_false, Option.pure_def,
        Option.bind_eq_bind, Option.some_bind] at h
      replace h := setNext_bind _ _ _ _ _ h
      replace h := setPrev_bind _ _ _ _ _ h
      obtain ⟨e, -, h⟩ := readSlot_bind _ _ _ _ h
      simp only [Option.some.injEq, Prod.mk.injEq] at h
      rw [← h.1, hf]
      simp [JList.modifySlot]
      omega

theorem insertBefore_meta (l l2 : JList K V) (k : K) (v : V) (mark : Entry K V)
    (r : Option (Entry K V)) (err : Option String)
    (h : insertBefore l k v mark = some (l2, r, err)) :
    l2.cap = l.cap ∧
      l2.size + (l2.freeIdx.length : Int) ≤ l.size + (l.freeIdx.length : Int) := by
  rcases eq_nil_or_snoc l.freeIdx with hf | ⟨fs, idx, hf⟩
  · rw [insertBefore_exhausted l k v mark hf] at h
    simp only [Option.some.injEq, Prod.mk.injEq] at h
    rw [← h.1]
    exact ⟨rfl, le_refl _⟩
  · simp only [insertBefore, getNodeIdx_concat l fs idx hf] at h
    by_cases c1 : l.cap ≤ mark.idx ∨ mark.idx < 0
    · simp only [c1, if_true, Option.some.injEq, Prod.mk.injEq] at h
      rw [← h.1, hf]
      simp
    · simp only [c1, if_false] at h
      obtain ⟨mn, -, h⟩ := readSlot_bind _ _ _ _ h
      by_cases c2 : mn.prev = -1 ∨ mn.next = -1
      · simp only [c2, if_true, Option.some.injEq, Prod.mk.injEq] at h
        rw [← h.1, hf]
        simp
      · simp only [c2, if_false] at h
        replace h := setKey_bind _ _ _ _ _ h
        replace h := setValue_bind _ _ _ _ _ h
        replace h := setIdx_bind _ _ _ _ _ h
        replace h := setNext_bind _ _ _ _ _ h
        replace h := setPrev_bind _ _ _ _ _ h
        replace h := setNext_bind _ _ _ _ _ h
        replace h := setPrev_bind _ _ _ _ _ h
        obtain ⟨e, -, h⟩ := readSlot_bind _ _ _ _ h
        simp only [Option.some.injEq, Prod.mk.injEq] at h
        rw [← h.1, hf]
        split_ifs <;> simp [JList.modifySlot] <;> omega

theorem insertAfter_meta (l l2 : JList K V) (k : K) (v : V) (mark : Entry K V)
    (r : Option (Entry K V)) (err : Option String)
    (h : insertAfter l k v mark = some (l2, r, err)) :
    l2.cap = l.cap ∧
      l2.size + (l2.freeIdx.length : Int) ≤ l.size + (l.freeIdx.length : Int) := by
  rcases eq_nil_or_snoc l.freeIdx with hf | ⟨fs, idx, hf⟩
  · rw [insertAfter_exhausted l k v mark hf] at h
    simp only [Option.some.injEq, Prod.mk.injEq] at h
    rw [← h.1]
    exact ⟨rfl, le_refl _⟩
  · simp only [insertAfter, getNodeIdx_concat l fs idx hf] at h
    by_cases c1 : l.cap ≤ mark.idx ∨ mark.idx < 0
    · simp only [c1, if_true, Option.some.injEq, Prod.mk.injEq] at h
      rw [← h.1, hf]
      simp
    · simp only [c1, if_false] at h
      obtain ⟨mn, -, h⟩ := readSlot_bind _ _ _ _ h
      by_cases c2 : mn.prev = -1 ∨ mn.next = -1
      · simp only [c2, if_true, Option.some.injEq, Prod.mk.injEq] at h
        rw [← h.1, hf]
        simp
      · simp only [c2, if_false] at h
        replace h := setKey_bind _ _ _ _ _ h
        replace h := setValue_bind _ _ _ _ _ h
        replace h := setIdx_bind _ _ _ _ _ h
        replace h := setPrev_bind _ _ _ _ _ h
        replace h := setNext_bind _ _ _ _ _ h
        replace h := setPrev_bind _ _ _ _ _ h
        replace h := setNext_bind _ _ _ _ _ h
        obtain ⟨e, -, h⟩ := readSlot_bind _ _ _ _ h
        simp only [Option.some.injEq, Prod.mk.injEq] at h
        rw [← h.1, hf]
        split_ifs <;> simp [JList.modifySlot] <;> omega

theorem remove_meta [Inhabited V] (l l2 : JList K V) (e : Option (Entry K V)) (v : V)
    (err : Option String) (h : remove l e = some (l2, v, err)) :
    l2.cap = l.cap ∧
      l2.size + (l2.freeIdx.length : Int) ≤ l.size + (l.freeIdx.length : Int) := by
  cases herr : err with
  | some msg =>
    rw [herr] at h
    rw [remove_fail_unchanged l l2 e v msg h]
    exact ⟨rfl, le_refl _⟩
  | none =>
    rw [herr] at h
    cases e with
    | none => simp [remove] at h
    | some e =>
      unfold remove at h
      by_cases c1 : e.next = -1 ∨ e.prev = -1
      · simp [c1] at h
      · by_cases c2 : l.cap ≤ e.idx ∨ e.idx < 0
        · simp [c1, c2] at h
        · simp only [c1, c2, if_false] at h
          obtain ⟨node, -, h⟩ := readSlot_bind _ _ _ _ h
          by_cases c3 : node.prev = -1 ∨ node.next = -1
          · simp [c3] at h
          · by_cases c4 : e.next ≠ node.next ∨ e.prev ≠ node.prev
            · simp [c3, c4] at h
            · simp only [c3, c4, if_false] at h
              replace h := setNext_bind _ _ _ _ _ h
              replace h := setPrev_bind _ _ _ _ _ h
              replace h := setPrev_bind _ _ _ _ _ h
              replace h := setNext_bind _ _ _ _ _ h
              simp only [Option.some.injEq, Prod.mk.injEq] at h
              rw [← h.1]
              split_ifs <;> simp [JList.modifySlot, putNodeIdx]

theorem MoveToFront_meta (l l2 : JList K V) (e : Entry K V) (err : Option String)
    (h : MoveToFront l e = some (l2, err)) :
    l2.cap = l.cap ∧
      l2.size + (l2.freeIdx.length : Int) ≤ l.size + (l.freeIdx.length : Int) := by
  unfold MoveToFront at h
  by_cases c1 : l.cap ≤ e.idx ∨ e.idx < 0
  · simp only [c1, if_true, Option.some.injEq, Prod.mk.injEq] at h
    rw [← h.1]; exact ⟨rfl, le_refl _⟩
  · simp only [c1, if_false] at h
    obtain ⟨mn, -, h⟩ := readSlot_bind _ _ _ _ h
    by_cases c2 : mn.prev = -1 ∨ mn.next = -1
    · simp only [c2, if_true, Option.some.injEq, Prod.mk.injEq] at h
      rw [← h.1]; exact ⟨rfl, le_refl _⟩
    · by_cases c3 : e.idx = l.head
      · simp only [c2, c3, if_true, if_false, Option.some.injEq, Prod.mk.injEq] at h
        rw [← h.1]; exact ⟨rfl, le_refl _⟩
      · simp only [c2, c3, if_false] at h
        replace h := setNext_bind _ _ _ _ _ h
        replace h := setPrev_bind _ _ _ _ _ h
        replace h := setNext_bind _ _ _ _ _ h
        replace h := setPrev_bind _ _ _ _ _ h
        replace h := setNext_bind _ _ _ _ _ h
        replace h := setPrev_bind _ _ _ _ _ h
        simp only [Option.some.injEq, Prod.mk.injEq] at h
        rw [← h.1]
        simp [JList.modifySlot]

theorem MoveToBack_meta (l l2 : JList K V) (e : Entry K V) (err : Option String)
    (h : MoveToBack l e = some (l2, err)) :
    l2.cap = l.cap ∧
      l2.size + (l2.freeIdx.length : Int) ≤ l.size + (l.freeIdx.length : Int) := by
  unfold MoveToBack at h
  by_cases c1 : l.cap ≤ e.idx ∨ e.idx < 0
  · simp only [c1, if_true, Option.some.injEq, Prod.mk.injEq] at h
    rw [← h.1]; exact ⟨rfl, le_refl _⟩
  · simp only [c1, if_false] at h
    obtain ⟨mn, -, h⟩ := readSlot_bind _ _ _ _ h
    by_cases c2 : mn.prev = -1 ∨ mn.next = -1
    · simp only [c2, if_true, Option.some.injEq, Prod.mk.injEq] at h
      rw [← h.1]; exact ⟨rfl, le_refl _⟩
    · by_cases c3 : e.idx = l.tail
      · simp only [c2, c3, if_true, if_false, Option.some.injEq, Prod.mk.injEq] at h
        rw [← h.1]; exact ⟨rfl, le_refl _⟩
      · simp only [c2, c3, if_false] at h
        replace h := setNext_bind _ _ _ _ _ h
        replace h := setPrev_bind _ _ _ _ _ h
        replace h := setNext_bind _ _ _ _ _ h
        replace h := setPrev_bind _ _ _ _ _ h
        replace h := setNext_bind _ _ _ _ _ h
        replace h := setPrev_bind _ _ _ _ _ h
        simp only [Option.some.injEq, Prod.mk.injEq] at h
        rw [← h.1]
        simp [JList.modifySlot]

theorem UpdateEntry_meta (l l2 : JList K V) (idx : Int) (e : Entry K V) (err : Option String)
    (h : UpdateEntry l idx e = some (l2, err)) :
    l2.cap = l.cap ∧
      l2.size + (l2.freeIdx.length : Int) ≤ l.size + (l.freeIdx.length : Int) := by
  unfold UpdateEntry at h
  by_cases c1 : l.cap ≤ idx ∨ idx < 0
  · simp only [c1, if_true, Option.some.injEq, Prod.mk.injEq] at h
    rw [← h.1]; exact ⟨rfl, le_refl _⟩
  · simp only [c1, if_false] at h
    obtain ⟨mn, -, h⟩ := readSlot_bind _ _ _ _ h
    by_cases c2 : mn.prev = -1 ∨ mn.next = -1
    · simp only [c2, if_true, Option.some.injEq, Prod.mk.injEq] at h
      rw [← h.1]; exact ⟨rfl, le_refl _⟩
    · simp only [c2, if_false] at h
      replace h := setKey_bind _ _ _ _ _ h
      replace h := setHashId_bind _ _ _ _ _ h
      replace h := setValue_bind _ _ _ _ _ h
      simp only [Option.some.injEq, Prod.mk.injEq] at h
      rw [← h.1]
      simp [JList.modifySlot]
theorem Reachable.bounded [Inhabited K] [Inhabited V] {l : JList K V} (h : Reachable l) :
    0 ≤ l.cap ∧ l.size + (l.freeIdx.length : Int) ≤ l.cap := by
  induction h with
  | newList capacity l h =>
    have hinv := NewList_inv capacity l h
    have h1 := hinv.count
    have h2 := hinv.size
    simp only [List.length_nil] at h1 h2
    push_cast at h1 h2
    omega
  | pushFront l l2 k v r err _ hop ih =>
    have := PushFront_meta l l2 k v r err hop
    omega
  | pushBack l l2 k v r err _ hop ih =>
    have := PushBack_meta l l2 k v r err hop
    omega
  | insertBefore l l2 k v mark r err _ hop ih =>
    have := insertBefore_meta l l2 k v mark r err hop
    omega
  | insertAfter l l2 k v mark r err _ hop ih =>
    have := insertAfter_meta l l2 k v mark r err hop
    omega
  | remove l l2 e v err _ hop ih =>
    have := remove_meta l l2 e v err hop
    omega
  | moveToFront l l2 e err _ hop ih =>
    have := MoveToFront_meta l l2 e err hop
    omega
  | moveToBack l l2 e err _ hop ih =>
    have := MoveToBack_meta l l2 e err hop
    omega
  | updateEntry l l2 idx e err _ hop ih =>
    have := UpdateEntry_meta l l2 idx e err hop
    omega
  | clear l _ ih =>
    simp only [Clear, List.length_nil]
    push_cast
    omega

/-- C8: in every list state reachable through the public operations with `Len() == Cap()`,
each of `PushFront`, `PushBack`, `InsertBefore` and `InsertAfter`, for every key, value and
mark, returns a nil entry with the error "memory pool exhausted" and leaves the whole list
state unchanged. -/
theorem C8_full_list_rejects_inserts [Inhabited K] [Inhabited V] (l : JList K V) (k : K) (v : V)
    (mark : Entry K V) (hr : Reachable l) (hfull : Len l = Cap l) :
    PushFront l k v = some (l, none, some "memory pool exhausted") ∧
      PushBack l k v = some (l, none, some "memory pool exhausted") ∧
      InsertBefore l k v mark = some (l, none, some "memory pool exhausted") ∧
      InsertAfter l k v mark = some (l, none, some "memory pool exhausted") := by
  have hb := hr.bounded
  have hf : l.freeIdx = [] := by
    have h1 : l.size = l.cap := hfull
    exact List.length_eq_zero.mp (by omega)
  exact ⟨PushFront_exhausted l k v hf, PushBack_exhausted l k v hf,
    insertBefore_exhausted l k v mark hf, insertAfter_exhausted l k v mark hf⟩
theorem exAB2_wf : WellFormed exAB2 :=
  WellFormed.pushBack exA2 exAB2 "B" 2 (exEntry 1 1 0 "B" 2)
    (WellFormed.pushBack exNew2 exA2 "A" 1 (exEntry 1 1 1 "A" 1)
      (WellFormed.newList 2 exNew2 (by decide)) (by decide)) (by decide)

theorem exAB2_reachable : Reachable exAB2 :=
  Reachable.pushBack exA2 exAB2 "B" 2 (some (exEntry 1 1 0 "B" 2)) none
    (Reachable.pushBack exNew2 exA2 "A" 1 (some (exEntry 1 1 1 "A" 1)) none
      (Reachable.newList 2 exNew2 (by decide)) (by decide)) (by decide)

theorem C8_full_list_rejects_inserts_witness :
    PushFront exAB2 "C" 3 = some (exAB2, none, some "memory pool exhausted") ∧
      PushBack exAB2 "C" 3 = some (exAB2, none, some "memory pool exhausted") ∧
      InsertBefore exAB2 "C" 3 (exEntry 0 0 1 "A" 1) =
        some (exAB2, none, some "memory pool exhausted") ∧
      InsertAfter exAB2 "C" 3 (exEntry 0 0 1 "A" 1) =
        some (exAB2, none, some "memory pool exhausted") :=
  C8_full_list_rejects_inserts exAB2 "C" 3 (exEntry 0 0 1 "A" 1) exAB2_reachable (by decide)

theorem exAB2Front_spin (fuel : Nat) (acc : List Int) :
    iterateLoop exAB2Front fuel 1 acc = IterResult.outOfFuel := by
  induction fuel generalizing acc with
  | zero => unfold iterateLoop; simp
  | succ n ih =>
    unfold iterateLoop
    simp only [exAB2Front, readSlot, exEntry]
    simpa using ih _

/-- C1 fails on the code: on the well-formed list `[A, B]` (values 1, 2), `MoveToFront` of a
current copy of the tail entry `B` returns nil but leaves `A.next = A` and `tail = B`, so
`Iterate()` never returns; the claim says it returns `[2, 1]`. -/
theorem C1_MoveToFront_tail_diverges :
    WellFormed exAB2 ∧ IsHandleAt exAB2 1 (exEntry 1 1 0 "B" 2) ∧
      Iterate 2 exAB2 = IterResult.done [1, 2] ∧
      MoveToFront exAB2 (exEntry 1 1 0 "B" 2) = some (exAB2Front, none) ∧
      (∀ fuel, Iterate fuel exAB2Front = IterResult.outOfFuel) ∧
      (∀ fuel, Iterate fuel exAB2Front ≠ IterResult.done [2, 1]) := by
  have hspin : ∀ fuel, Iterate fuel exAB2Front = IterResult.outOfFuel := by
    intro fuel
    cases fuel with
    | zero => decide
    | succ n =>
      unfold Iterate iterateLoop
      simp only [exAB2Front, readSlot, exEntry]
      simpa using exAB2Front_spin n _
  refine ⟨exAB2_wf, ⟨by decide, 0, by decide, by decide⟩, by decide, by decide, hspin, ?_⟩
  intro fuel h
  rw [hspin fuel] at h
  exact IterResult.noConfusion h

/-- C2 fails on the code: on the well-formed list `[A, B]` (values 1, 2), `MoveToBack` of a
current copy of the head entry `A` returns nil but leaves `head = tail = A` with
`A.next = A`, so `Iterate()` returns `[1]` while `Len()` is still 2; the claim says `[2, 1]`. -/
theorem C2_MoveToBack_head_loses_entries :
    WellFormed exAB2 ∧ IsHandleAt exAB2 0 (exEntry 0 0 1 "A" 1) ∧
      Iterate 2 exAB2 = IterResult.done [1, 2] ∧
      MoveToBack exAB2 (exEntry 0 0 1 "A" 1) = some (exAB2Back, none) ∧
      Len exAB2Back = 2 ∧
      (∀ fuel, Iterate (fuel + 1) exAB2Back = IterResult.done [1]) ∧
      (∀ fuel, Iterate fuel exAB2Back ≠ IterResult.done [2, 1]) := by
  have hone : ∀ fuel, Iterate (fuel + 1) exAB2Back = IterResult.done [1] := by
    intro fuel
    unfold Iterate iterateLoop
    simp [exAB2Back, readSlot, exEntry]
  refine ⟨exAB2_wf, ⟨by decide, 1, by decide, by decide⟩, by decide, by decide, by decide,
    hone, ?_⟩
  intro fuel h
  cases fuel with
  | zero => revert h; decide
  | succ n =>
    rw [hone n] at h
    revert h
    decide
theorem exOne_wf : WellFormed exOne :=
  WellFormed.pushFront
    { cap := 1, data := [Entry.zero], freeIdx := [0], head := -1, tail := -1, size := 0 }
    exOne "A" 1 (exEntry 0 0 0 "A" 1) (WellFormed.newList 1 _ (by decide)) (by decide)

theorem exRemoved_wf : WellFormed exRemoved :=
  WellFormed.remove exA exRemoved (exEntry 2 2 2 "A" 1) 1 exA_wf
    ⟨0, by decide, 2, by decide, by decide⟩ (by decide)

/-- C6 fails on the code: `Remove` returns the `Value` cached in the handle, not the value
stored in the slot.  With a copy taken through `Entry(0)` before `UpdateEntry(0, ...)` set the
stored value to 100, `Remove` passes validation and returns 1. -/
theorem C6_Remove_returns_cached_value :
    WellFormed exOne ∧ EntryAt exOne 0 = some (exEntry 0 0 0 "A" 1, none) ∧
      UpdateEntry exOne 0 (exEntry 0 0 0 "A" 100) = some (exOneUpdated, none) ∧
      valAt exOneUpdated.data (exEntry 0 0 0 "A" 1).Idx = some 100 ∧
      Remove exOneUpdated (some (exEntry 0 0 0 "A" 1)) = some (exOneRemoved, 1, none) :=
  ⟨exOne_wf, by decide, by decide, by decide, by decide⟩

/-- C10 fails on the code: `InsertBefore` and `InsertAfter` pop the free stack before they
validate the mark.  On the well-formed list left by removing its only entry, an insertion
relative to the removed entry returns "invalid node" and has taken slot 2 off the free stack:
the state has changed. -/
theorem C10_failed_insert_pops_free_stack :
    WellFormed exRemoved ∧
      InsertBefore exRemoved "k" 1 (exEntry 2 2 2 "A" 1) =
        some (exLeaked, none, some "invalid node") ∧
      InsertAfter exRemoved "k" 1 (exEntry 2 2 2 "A" 1) =
        some (exLeaked, none, some "invalid node") ∧
      exLeaked ≠ exRemoved ∧ exLeaked.freeIdx = [0, 1] ∧ exRemoved.freeIdx = [0, 1, 2] ∧
      Len exLeaked + (exLeaked.freeIdx.length : Int) ≠ Cap exLeaked :=
  ⟨exRemoved_wf, by decide, by decide, by decide, by decide, by decide, by decide⟩

theorem exNew1_wf : WellFormed exNew1 := WellFormed.newList 1 exNew1 (by decide)

theorem exNew1_reachable : Reachable exNew1 := Reachable.newList 1 exNew1 (by decide)

/-- C11 fails on the code: `NewList` leaves the links of the unused slots at the zero value 0,
not at -1, so on a freshly constructed list `Entry(0)` passes the liveness check and returns
the zero entry with a nil error although slot 0 is on the free stack and `Len()` is 0. -/
theorem C11_Entry_accepts_unused_slot :
    Reachable exNew1 ∧ WellFormed exNew1 ∧ Len exNew1 = 0 ∧ (0 : Int) ∈ exNew1.freeIdx ∧
      EntryAt exNew1 0 = some (Entry.zero, none) := by
  exact ⟨exNew1_reachable, exNew1_wf, by decide, by decide, by decide⟩

theorem exABC_wf : WellFormed exABC :=
  WellFormed.pushBack exAB exABC "C" 3 (exEntry 1 2 0 "C" 3) exAB_wf (by decide)

/-- C12 fails on the code: `MoveToFront` and `MoveToBack` never compare the handle's cached
links with the slot's.  With the entry `B` as `PushBack` returned it before `C` was pushed
(cached `next` 2, stored `next` 0), `Remove` answers "list changed", but both moves return nil
and rewrite the links from the stale handle. -/
theorem C12_Move_accepts_stale_handle :
    WellFormed exABC ∧ readSlot exABC.data exStaleB.idx = some (exEntry 2 0 1 "B" 2) ∧
      exStaleB.next ≠ (exEntry 2 0 1 "B" 2).next ∧
      Remove exABC (some exStaleB) = some (exABC, 2, some "list changed") ∧
      MoveToFront exABC exStaleB = some (exABCFront, none) ∧ exABCFront ≠ exABC ∧
      MoveToBack exABC exStaleB = some (exABCBack, none) ∧ exABCBack ≠ exABC := by
  exact ⟨exABC_wf, by decide, by decide, by decide, by decide, by decide, by decide, by decide⟩

/-- C14 fails on the code: `Clear` sets `data` to nil but keeps `cap`, so after `Clear` an
index below `cap` passes the range check and the slot access panics (`Entry`, `UpdateEntry`,
`Remove`, `MoveToFront`, `MoveToBack`); and on a fresh list `MoveToFront` and `MoveToBack`
with the zero entry index the slot array at `tail = -1`. -/
theorem C14_operations_panic :
    Reachable (Clear exNew1) ∧ EntryAt (Clear exNew1) 0 = none ∧
      UpdateEntry (Clear exNew1) 0 Entry.zero = none ∧
      Remove (Clear exNew1) (some Entry.zero) = none ∧
      MoveToFront (Clear exNew1) Entry.zero = none ∧
      MoveToBack (Clear exNew1) Entry.zero = none ∧
      Reachable exNew1 ∧ MoveToFront exNew1 Entry.zero = none ∧
      MoveToBack exNew1 Entry.zero = none := by
  exact ⟨Reachable.clear exNew1 exNew1_reachable, by decide, by decide, by decide, by decide,
    by decide, exNew1_reachable, by decide, by decide⟩

/-- C18 fails on the code: from the well-formed list `[A, B]`, `MoveToFront` of a current copy
of the tail leaves a state of `Len()` 2 in which two `next` steps from `head` end at slot 1,
not at `head` = 0; and `MoveToBack` of a current copy of the head leaves a state in which two
`prev` steps from `tail` end at slot 0, not at `tail` = 1. -/
theorem C18_Move_breaks_ring_closure :
    WellFormed exAB2 ∧ walk exAB2 2 exAB2.head = some exAB2.head ∧
      walkPrev exAB2 2 exAB2.tail = some exAB2.tail ∧
      IsHandleAt exAB2 1 (exEntry 1 1 0 "B" 2) ∧
      MoveToFront exAB2 (exEntry 1 1 0 "B" 2) = some (exAB2Front, none) ∧
      Len exAB2Front = 2 ∧ exAB2Front.head = 0 ∧ walk exAB2Front 2 exAB2Front.head = some 1 ∧
      IsHandleAt exAB2 0 (exEntry 0 0 1 "A" 1) ∧
      MoveToBack exAB2 (exEntry 0 0 1 "A" 1) = some (exAB2Back, none) ∧
      Len exAB2Back = 2 ∧ exAB2Back.tail = 1 ∧
      walkPrev exAB2Back 2 exAB2Back.tail = some 0 := by
  exact ⟨exAB2_wf, by decide, by decide, ⟨by decide, 0, by decide, by decide⟩, by decide,
    by decide, by decide, by decide, ⟨by decide, 1, by decide, by decide⟩, by decide,
    by decide, by decide, by decide⟩

/-- C20 fails on the code: the insertions write `Key`, `Value`, `idx` and the links of the
slot they take, but not `HashId`.  After `UpdateEntry` set the `HashId` of slot 0 to 7 and the
entry was removed, `PushFront("B", 2)` reuses slot 0 and returns an entry with `HashId` 7. -/
theorem C20_reused_slot_keeps_HashId :
    Reachable exOneTaggedRemoved ∧
      UpdateEntry exOne 0 exTag = some (exOneTagged, none) ∧
      Remove exOneTagged (some exTag) = some (exOneTaggedRemoved, 1, none) ∧
      PushFront exOneTaggedRemoved "B" 2 =
        some (exOneReused, some exReusedEntry, none) ∧
      PushBack exOneTaggedRemoved "B" 2 =
        some (exOneReused, some exReusedEntry, none) ∧
      exReusedEntry.Key = "B" ∧ exReusedEntry.Value = 2 ∧ exReusedEntry.HashId = 7 := by
  have h1 : UpdateEntry exOne 0 exTag = some (exOneTagged, none) := by decide
  have h2 : Remove exOneTagged (some exTag) = some (exOneTaggedRemoved, 1, none) := by decide
  have hr : Reachable exOne :=
    Reachable.pushFront exNew1 exOne "A" 1 (some (exEntry 0 0 0 "A" 1)) none exNew1_reachable
      (by decide)
  exact ⟨Reachable.remove exOneTagged exOneTaggedRemoved (some exTag) 1 none
    (Reachable.updateEntry exOne exOneTagged 0 exTag none hr h1) h2, h1, h2, by decide,
    by decide, by decide, by decide, by decide⟩

/-- C16: on a well-formed list whose `Iterate()` is `xs`, `Front()` is nil exactly when `Len()`
is 0 and so is `Back()`; on a non-empty list `Front()` is an entry whose value is the first
element of `xs` and `Back()` an entry whose value is the last element of `xs`. -/
theorem C16_Front_Back [Inhabited K] [Inhabited V] (l : JList K V) (xs : List V) (fuel : Nat)
    (hwf : WellFormed l) (hit : Iterate fuel l = IterResult.done xs) :
    (Front l = some none ↔ Len l = 0) ∧ (Back l = some none ↔ Len l = 0) ∧
      (Len l ≠ 0 → ∃ f b, Front l = some (some f) ∧ Back l = some (some b) ∧
        xs.head? = some f.Value ∧ xs.getLast? = some b.Value) := by
  obtain ⟨ys, hinv⟩ := hwf.inv
  have hxs := hinv.iterate_unique fuel xs hit
  have hsz := hinv.size
  cases ys with
  | nil =>
    have h0 : l.size = 0 := by simpa using hsz
    refine ⟨⟨fun _ => h0, fun _ => by simp [Front, h0]⟩,
      ⟨fun _ => h0, fun _ => by simp [Back, h0]⟩, fun hne => absurd h0 hne⟩
  | cons y r =>
    have hne : l.size ≠ 0 := by
      simp only [List.length_cons] at hsz
      push_cast at hsz
      omega
    have hy := hinv.len_eq y (List.mem_cons_self _ _)
    have htm : r.getLastD y ∈ y :: r := by
      have := pred_mem [] r y
      simpa using this
    have ht := hinv.len_eq _ htm
    have hhd : l.head = y := hinv.head
    have htl : l.tail = r.getLastD y := by rw [hinv.tail, getLastD_cons_int]
    obtain ⟨f, hf⟩ := readSlot_isSome l.data y hy.1 hy.2.1
    obtain ⟨b, hb⟩ := readSlot_isSome l.data _ ht.1 ht.2.1
    have hF : Front l = some (some f) :=
      Front_of_head l f hne (by rw [hhd]; exact hy.2.2) (by rw [hhd]; exact hf)
    have hB : Back l = some (some b) :=
      Back_of_tail l b hne (by rw [htl]; exact ht.2.2) (by rw [htl]; exact hb)
    refine ⟨⟨fun h => ?_, fun h => absurd h hne⟩, ⟨fun h => ?_, fun h => absurd h hne⟩,
      fun _ => ⟨f, b, hF, hB, ?_, ?_⟩⟩
    · rw [hF] at h; simp at h
    · rw [hB] at h; simp at h
    · have hv : valAt l.data y = some f.Value := fieldAt_of_readSlot _ _ _ f hf
      rw [hxs]
      simp [valuesOf, hv]
    · have hv : valAt l.data (r.getLastD y) = some b.Value := fieldAt_of_readSlot _ _ _ b hb
      rw [hxs]
      rcases eq_nil_or_snoc r with h0 | ⟨r2, t, h0⟩
      · subst h0
        simp only [List.getLastD_nil] at hv
        simp [valuesOf, hv]
      · subst h0
        rw [getLastD_concat_int] at hv
        have : y :: (r2 ++ [t]) = (y :: r2) ++ [t] := rfl
        rw [this, valuesOf_append]
        simp [valuesOf, hv]

theorem C16_Front_Back_witness :
    (Front exAB = some none ↔ Len exAB = 0) ∧ (Back exAB = some none ↔ Len exAB = 0) ∧
      (Len exAB ≠ 0 → ∃ f b, Front exAB = some (some f) ∧ Back exAB = some (some b) ∧
        [1, 2].head? = some f.Value ∧ [1, 2].getLast? = some b.Value) :=
  C16_Front_Back exAB [1, 2] 2 exAB_wf (by decide)

theorem exAB2Front_reachable : Reachable exAB2Front :=
  Reachable.moveToFront exAB2 exAB2Front (exEntry 1 1 0 "B" 2) none exAB2_reachable (by decide)

theorem exAB2Back_reachable : Reachable exAB2Back :=
  Reachable.moveToBack exAB2 exAB2Back (exEntry 0 0 1 "A" 1) none exAB2_reachable (by decide)

theorem exAB2Front_diverges (fuel : Nat) :
    Iterate fuel exAB2Front = IterResult.outOfFuel := by
  cases fuel with
  | zero => decide
  | succ n =>
    unfold Iterate iterateLoop
    simp only [exAB2Front, readSlot, exEntry]
    simpa using exAB2Front_spin n _

/-- C19 fails on the code: `Iterate` is not bounded by `Len()`.  In the reachable state left by
`MoveToFront` of the tail of `[A, B]`, with `Len()` 2, it never returns whatever the fuel; in
the reachable state left by `MoveToBack` of the head, with `Len()` 2, it returns one value. -/
theorem C19_Iterate_not_bounded_by_Len :
    Reachable exAB2Front ∧ Len exAB2Front = 2 ∧
      (∀ fuel, Iterate fuel exAB2Front = IterResult.outOfFuel) ∧
      Reachable exAB2Back ∧ Len exAB2Back = 2 ∧
      Iterate 2 exAB2Back = IterResult.done [1] :=
  ⟨exAB2Front_reachable, by decide, exAB2Front_diverges, exAB2Back_reachable, by decide,
    by decide⟩

theorem NextSeg_some (nx : Int → Option Int) (ys : List Int) (q y : Int)
    (h : NextSeg nx ys q) (hy : y ∈ ys) : ∃ v, nx y = some v := by
  induction ys with
  | nil => simp at hy
  | cons x r ih =>
    rcases List.mem_cons.mp hy with h1 | h1
    · subst h1; exact ⟨_, h.1⟩
    · exact ih h.2 h1

theorem RingIntact.readable {l : JList K V} {ys : List Int} (h : RingIntact l ys) (y : Int)
    (hy : y ∈ ys) : ∃ e, readSlot l.data y = some e := by
  obtain ⟨v, hv⟩ := NextSeg_some _ ys _ y h.next hy
  cases hr : readSlot l.data y with
  | none => simp [fieldAt, hr] at hv
  | some e => exact ⟨e, rfl⟩

theorem RingIntact.iterate_ring {l : JList K V} {ys : List Int} (h : RingIntact l ys) (fuel : Nat)
    (hf : ys.length ≤ fuel) : Iterate fuel l = IterResult.done (valuesOf l ys) := by
  unfold Iterate
  cases ys with
  | nil =>
    have : l.head = -1 := h.head
    unfold iterateLoop
    simp [this, valuesOf]
  | cons x r =>
    have hx : l.head = x := h.head
    have hne : ∀ y ∈ x :: r, y ≠ -1 := by
      intro y hy
      obtain ⟨e, he⟩ := h.readable y hy
      have := (readSlot_bounds l.data y e he).1
      omega
    have := iterateLoop_seg l x r fuel [] h.next hne
      (by rw [hx]; exact (List.nodup_cons.mp h.nodup).1) (by simpa using hf)
    rw [hx]
    simpa using this

theorem RingIntact.values_length {l : JList K V} {ys : List Int} (h : RingIntact l ys) :
    (valuesOf l ys).length = ys.length := by
  have key : ∀ zs : List Int, (∀ z ∈ zs, z ∈ ys) → (valuesOf l zs).length = zs.length := by
    intro zs
    induction zs with
    | nil => intro _; rfl
    | cons z r ih =>
      intro hz
      obtain ⟨e, he⟩ := h.readable z (hz z (List.mem_cons_self _ _))
      have hv : valAt l.data z = some e.Value := fieldAt_of_readSlot _ _ _ e he
      simp only [valuesOf, List.filterMap_cons, hv, List.length_cons]
      have := ih (fun w hw => hz w (List.mem_cons_of_mem _ hw))
      simp only [valuesOf] at this
      rw [this]
  exact key ys (fun _ hz => hz)

theorem Inv.ringIntact {l : JList K V} {ys : List Int} (h : Inv l ys) : RingIntact l ys :=
  { size := h.size, head := h.head, nodup := h.nodup, next := h.next }

theorem walk_succ (l : JList K V) (p : Nat) (c : Int) :
    walk l (p + 1) c = (walk l p c).bind (nextAt l.data) := by
  induction p generalizing c with
  | zero =>
    show (nextAt l.data c).bind (walk l 0) = (walk l 0 c).bind (nextAt l.data)
    cases h : nextAt l.data c <;> simp [walk, h]
  | succ n ih =>
    show (nextAt l.data c).bind (walk l (n + 1)) = (walk l (n + 1) c).bind (nextAt l.data)
    cases h : nextAt l.data c with
    | none => simp [walk, h]
    | some d =>
      have h2 : walk l (n + 1) c = walk l n d := by simp [walk, h]
      rw [h2, ← ih d]
      simp

theorem walk_add (l : JList K V) (i j t : Nat) (c : Int)
    (h : walk l i c = walk l j c) : walk l (i + t) c = walk l (j + t) c := by
  induction t with
  | zero => exact h
  | succ n ih =>
    rw [← Nat.add_assoc, ← Nat.add_assoc, walk_succ, walk_succ, ih]

theorem walk_isSome_of_le (l : JList K V) (n : Nat) (c v : Int) (h : walk l n c = some v)
    (p : Nat) (hp : p ≤ n) : ∃ w, walk l p c = some w := by
  induction n generalizing v with
  | zero =>
    have : p = 0 := by omega
    subst this
    exact ⟨v, h⟩
  | succ m ih =>
    rcases Nat.lt_or_ge p (m + 1) with h1 | h1
    · rw [walk_succ] at h
      cases hw : walk l m c with
      | none => simp [hw] at h
      | some u => exact ih u hw (by omega)
    · have : p = m + 1 := by omega
      subst this
      exact ⟨v, h⟩

theorem NextSeg_map_range (nx : Int → Option Int) (f : Nat → Int) (s k : Nat)
    (h : ∀ p, s ≤ p → p < s + k → nx (f p) = some (f (p + 1))) :
    NextSeg nx ((List.range' s k).map f) (f (s + k)) := by
  induction k generalizing s with
  | zero => trivial
  | succ n ih =>
    have hrest := ih (s + 1) (fun p h1 h2 => h p (by omega) (by omega))
    have e1 : s + 1 + n = s + (n + 1) := by omega
    rw [e1] at hrest
    refine ⟨?_, hrest⟩
    rw [h s (le_refl _) (by omega)]
    cases n with
    | zero => simp
    | succ m => simp [List.range']

theorem ringIntact_of_walk (l : JList K V) (n : Nat) (hsize : l.size = (n : Int))
    (hempty : n = 0 → l.head = -1)
    (hclosed : 0 < n → walk l n l.head = some l.head)
    (hfirst : ∀ p, 0 < p → p < n → walk l p l.head ≠ some l.head) :
    ∃ ys, RingIntact l ys := by
  rcases Nat.eq_zero_or_pos n with h0 | hpos
  · subst h0
    refine ⟨[], ?_⟩
    refine { size := ?_, head := hempty rfl, nodup := List.nodup_nil, next := trivial }
    simpa using hsize
  · have hcl := hclosed hpos
    have hsome : ∀ p, p ≤ n → ∃ w, walk l p l.head = some w :=
      fun p hp => walk_isSome_of_le l n l.head l.head hcl p hp
    let f : Nat → Int := fun p => (walk l p l.head).getD 0
    have hf : ∀ p, p ≤ n → walk l p l.head = some (f p) := by
      intro p hp
      obtain ⟨w, hw⟩ := hsome p hp
      simp [f, hw]
    have hf0 : f 0 = l.head := by simp [f, walk]
    have hfn : f n = l.head := by
      have := hf n (le_refl _)
      rw [hcl] at this
      exact (Option.some.inj this).symm
    have hstep : ∀ p, 0 ≤ p → p < 0 + n → nextAt l.data (f p) = some (f (p + 1)) := by
      intro p _ hp
      have h1 := hf (p + 1) (by omega)
      rw [walk_succ, hf p (by omega)] at h1
      simpa using h1
    have hseg := NextSeg_map_range (nextAt l.data) f 0 n hstep
    rw [Nat.zero_add, hfn] at hseg
    have hinj : ∀ i j, i < j → j < n → f i ≠ f j := by
      intro i j hij hj heq
      have hw : walk l i l.head = walk l j l.head := by
        rw [hf i (by omega), hf j (by omega), heq]
      have h2 := walk_add l i j (n - j) l.head hw
      have e : j + (n - j) = n := by omega
      rw [e, hcl] at h2
      exact hfirst (i + (n - j)) (by omega) (by omega) h2
    refine ⟨(List.range' 0 n).map f, ?_⟩
    refine { size := by simp [hsize], head := ?_, nodup := ?_, next := hseg }
    · obtain ⟨m, rfl⟩ : ∃ m, n = m + 1 := ⟨n - 1, by omega⟩
      simp [List.range', hf0]
    · refine List.Nodup.map_on ?_ (List.nodup_range' 0 n)
      intro x hx y hy hxy
      have hx2 : x < n := by simpa using hx
      have hy2 : y < n := by simpa using hy
      rcases Nat.lt_trichotomy x y with h1 | h1 | h1
      · exact absurd hxy (hinj x y h1 hy2)
      · exact h1
      · exact absurd hxy.symm (hinj y x h1 hx2)

theorem exLeakedPush2_reachable : Reachable exLeakedPush2 :=
  Reachable.pushBack exLeakedPush exLeakedPush2 "Y" 8 (some (exEntry 1 1 0 "Y" 8)) none
    (Reachable.pushBack exLeaked exLeakedPush "Z" 9 (some (exEntry 1 1 1 "Z" 9)) none
      (Reachable.insertBefore exRemoved exLeaked "k" 1 (exEntry 2 2 2 "A" 1) none
        (some "invalid node")
        (Reachable.remove exA exRemoved (some (exEntry 2 2 2 "A" 1)) 1 none
          (Reachable.pushBack exNew3 exA "A" 1 (some (exEntry 2 2 2 "A" 1)) none
            (Reachable.newList 3 exNew3 (by decide)) (by decide)) (by decide)) (by decide))
      (by decide)) (by decide)

theorem exLeakedPush2_ring : RingIntact exLeakedPush2 [1, 0] :=
  { size := by decide, head := by decide, nodup := by decide,
    next := ⟨by decide, by decide, trivial⟩ }

theorem exLeakedPush2_no_Inv : ¬ ∃ ys, Inv exLeakedPush2 ys := by
  rintro ⟨ys, h⟩
  have h1 := h.size
  have h2 := h.count
  simp only [exLeakedPush2, List.length_nil] at h1 h2
  omega

/-- C19 as amended: in every list state in which the forward ring is intact, that is in which
`Len()` distinct slots, starting at `head`, are linked by `next` each to the following one and
the last one back to `head` (`head` is -1 when `Len()` is 0), `Iterate` returns after `Len()`
loop bodies, one per visited slot, with a sequence of exactly `Len()` values, and more fuel
does not change the result.  Nothing is assumed about the free stack, the `prev` links or the
`idx` fields; every well-formed list is such a state (`Inv.ringIntact`), and so is every state
in which `Len()` steps along `next` from `head` come back to `head` for the first time
(`ringIntact_of_walk`). -/
theorem C19_Iterate_bounded_on_intact_ring (l : JList K V) (ys : List Int)
    (hring : RingIntact l ys) :
    ∃ xs, Iterate (Len l).toNat l = IterResult.done xs ∧ xs.length = (Len l).toNat ∧
      (∀ fuel, (Len l).toNat ≤ fuel → Iterate fuel l = IterResult.done xs) := by
  have hn : (Len l).toNat = ys.length := by
    have := hring.size
    show l.size.toNat = ys.length
    omega
  refine ⟨valuesOf l ys, hring.iterate_ring _ (by omega), ?_, ?_⟩
  · rw [hn]; exact hring.values_length
  · intro fuel hf
    exact hring.iterate_ring fuel (by omega)

theorem C19_Iterate_bounded_on_intact_ring_witness :
    ∃ xs, Iterate (Len exLeakedPush2).toNat exLeakedPush2 = IterResult.done xs ∧
      xs.length = (Len exLeakedPush2).toNat ∧
      (∀ fuel, (Len exLeakedPush2).toNat ≤ fuel →
        Iterate fuel exLeakedPush2 = IterResult.done xs) :=
  C19_Iterate_bounded_on_intact_ring exLeakedPush2 [1, 0] exLeakedPush2_ring

theorem Inv_congr (l l2 : JList K V) (xs : List Int) (hinv : Inv l xs)
    (hcap : l2.cap = l.cap) (hlen : l2.data.length = l.data.length) (hsize : l2.size = l.size)
    (hhead : l2.head = l.head) (htail : l2.tail = l.tail) (hfree : l2.freeIdx = l.freeIdx)
    (hnext : nextAt l2.data = nextAt l.data) (hprev : prevAt l2.data = prevAt l.data)
    (hidx : idxAt l2.data = idxAt l.data) : Inv l2 xs :=
  { capLen := by rw [hlen, hcap]; exact hinv.capLen
    size := by rw [hsize]; exact hinv.size
    head := by rw [hhead]; exact hinv.head
    tail := by rw [htail]; exact hinv.tail
    nodup := hinv.nodup
    inRange := by rw [hcap]; exact hinv.inRange
    next := by rw [hnext, hhead]; exact hinv.next
    prev := by rw [hprev, htail]; exact hinv.prev
    idx := by rw [hidx]; exact hinv.idx
    freeNodup := by rw [hfree]; exact hinv.freeNodup
    freeRange := by rw [hfree, hcap]; exact hinv.freeRange
    disjoint := by rw [hfree]; exact hinv.disjoint
    cover := by rw [hfree, hcap]; exact hinv.cover
    count := by rw [hfree, hcap]; exact hinv.count }

theorem set_append_cons {α : Type} (A B : List α) (x y : α) :
    (A ++ x :: B).set A.length y = A ++ y :: B := by
  induction A with
  | nil => rfl
  | cons a r ih => simp [List.set, ih]

theorem UpdateEntry_eval (l : JList K V) (idx : Int) (e node : Entry K V)
    (h0 : 0 ≤ idx) (h1 : idx < l.cap) (h2 : idx < (l.data.length : Int))
    (hread : readSlot l.data idx = some node) (hp : node.prev ≠ -1) (hn : node.next ≠ -1) :
    ∃ l2, UpdateEntry l idx e = some (l2, none) ∧ l2.cap = l.cap ∧
      l2.data.length = l.data.length ∧ l2.size = l.size ∧ l2.head = l.head ∧
      l2.tail = l.tail ∧ l2.freeIdx = l.freeIdx ∧ nextAt l2.data = nextAt l.data ∧
      prevAt l2.data = prevAt l.data ∧ idxAt l2.data = idxAt l.data ∧
      valAt l2.data = Function.update (valAt l.data) idx (some e.Value) ∧
      keyAt l2.data = Function.update (keyAt l.data) idx (some e.Key) ∧
      hashAt l2.data = Function.update (hashAt l.data) idx (some e.HashId) ∧
      (∀ j, j ≠ idx → readSlot l2.data j = readSlot l.data j) := by
  have c1 : ¬ (l.cap ≤ idx ∨ idx < 0) := by omega
  have c2 : ¬ (node.prev = -1 ∨ node.next = -1) := not_or.mpr ⟨hp, hn⟩
  simp only [UpdateEntry, c1, c2, hread, if_false, Option.bind_eq_bind, Option.some_bind,
    setKey_some, setHashId_some, setValue_some, modifySlot_length, h0, h2]
  refine ⟨_, rfl, rfl, ?_, rfl, rfl, rfl, rfl, ?_, ?_, ?_, ?_, ?_, ?_, ?_⟩
  · simp only [modifySlot_length]
  · simp [modifySlot_frame]
  · simp [modifySlot_frame]
  · simp [modifySlot_frame]
  · simp [modifySlot_frame, valAt_write, modifySlot_length, h0, h2]
  · simp [modifySlot_frame, keyAt_write, modifySlot_length, h0, h2]
  · simp [modifySlot_frame, hashAt_write, modifySlot_length, h0, h2]
  · intro j hj
    simp [JList.modifySlot, readSlot_modify, h0, hj]

/-- C13: on a well-formed list, for the slot `idx` of the live entry at position `p` and any
entry value `e`, `UpdateEntry(idx, e)` returns nil; afterwards `Entry(idx)` returns an entry
with the `Key`, `Value` and `HashId` of `e`; `Len()`, `Cap()`, head, tail, the free stack,
every `prev`, `next` and `idx` field and every other slot are unchanged, and `Iterate()` is
the old sequence with the value at position `p` replaced by `e.Value`. -/
theorem C13_UpdateEntry_in_place [Inhabited K] [Inhabited V] (l : JList K V) (idx : Int)
    (p : Nat) (e : Entry K V) (hwf : WellFormed l) (hp : (p : Int) < Len l)
    (hidx : slotAt l p = some idx) :
    ∃ l2, UpdateEntry l idx e = some (l2, none) ∧
      (∃ r, EntryAt l2 idx = some (r, none) ∧ r.Key = e.Key ∧ r.Value = e.Value ∧
        r.HashId = e.HashId) ∧
      Len l2 = Len l ∧ Cap l2 = Cap l ∧ l2.head = l.head ∧ l2.tail = l.tail ∧
      l2.freeIdx = l.freeIdx ∧ nextAt l2.data = nextAt l.data ∧
      prevAt l2.data = prevAt l.data ∧ idxAt l2.data = idxAt l.data ∧
      (∀ j, j ≠ idx → readSlot l2.data j = readSlot l.data j) ∧
      (∀ xs fuel, Iterate fuel l = IterResult.done xs →
        (xs.set p e.Value).length = xs.length ∧
        ∀ fuel2, (Len l2).toNat ≤ fuel2 →
          Iterate fuel2 l2 = IterResult.done (xs.set p e.Value)) := by
  obtain ⟨ys, hinv⟩ := hwf.inv
  have hp2 : p < ys.length := by
    have := hinv.size
    have h3 : (p : Int) < l.size := hp
    omega
  have hs : ys[p]? = some idx := by rw [← hinv.slotAt_eq p hp2]; exact hidx
  have hsplit := split_at ys p idx hs
  have hinv2 := hinv
  rw [hsplit] at hinv2
  have hmem : idx ∈ ys.take p ++ idx :: ys.drop (p + 1) :=
    List.mem_append_right _ (List.mem_cons_self _ _)
  have hb := hinv2.len_eq idx hmem
  have hr := hinv2.inRange idx hmem
  obtain ⟨node, hnode⟩ := readSlot_isSome l.data idx hb.1 hb.2.1
  obtain ⟨hnx, hpv, _⟩ := hinv2.entry_at node hnode
  have hP := hinv2.len_eq _ (pred_mem _ _ idx)
  have hS := hinv2.len_eq _ (succ_mem _ _ idx)
  obtain ⟨l2, h1, hcap, hlen, hsize, hhead, htail, hfree, hnext, hprev, hidx2, hval, hkey,
    hhash, hother⟩ :=
    UpdateEntry_eval l idx e node hb.1 hr.2 hb.2.1 hnode (by rw [hpv]; exact hP.2.2)
      (by rw [hnx]; exact hS.2.2)
  have hinv3 : Inv l2 ys :=
    Inv_congr l l2 ys hinv hcap hlen hsize hhead htail hfree hnext hprev hidx2
  obtain ⟨r, hrd⟩ := readSlot_isSome l2.data idx hb.1 (by rw [hlen]; exact hb.2.1)
  have g1 : keyAt l2.data idx = some r.Key := fieldAt_of_readSlot _ _ _ r hrd
  have g2 : valAt l2.data idx = some r.Value := fieldAt_of_readSlot _ _ _ r hrd
  have g3 : hashAt l2.data idx = some r.HashId := fieldAt_of_readSlot _ _ _ r hrd
  have g4 : prevAt l2.data idx = some r.prev := fieldAt_of_readSlot _ _ _ r hrd
  have g5 : nextAt l2.data idx = some r.next := fieldAt_of_readSlot _ _ _ r hrd
  have g6 : prevAt l.data idx = some node.prev := fieldAt_of_readSlot _ _ _ node hnode
  have g7 : nextAt l.data idx = some node.next := fieldAt_of_readSlot _ _ _ node hnode
  rw [hkey] at g1
  rw [hval] at g2
  rw [hhash] at g3
  rw [hprev, g6] at g4
  rw [hnext, g7] at g5
  simp only [Function.update_same, Option.some.injEq] at g1 g2 g3 g4 g5
  refine ⟨l2, h1, ⟨r, ?_, g1.symm, g2.symm, g3.symm⟩, hsize, hcap, hhead, htail, hfree, hnext,
    hprev, hidx2, hother, ?_⟩
  · have c1 : ¬ (l2.cap ≤ idx ∨ idx < 0) := by rw [hcap]; omega
    have c2 : ¬ (r.prev = -1 ∨ r.next = -1) := by
      rw [← g4, ← g5, hpv, hnx]; exact not_or.mpr ⟨hP.2.2, hS.2.2⟩
    simp [EntryAt, c1, c2, hrd]
  · intro xs fuel hit
    refine ⟨by simp, ?_⟩
    intro fuel2 hf
    have hxs := hinv.iterate_unique fuel xs hit
    obtain ⟨vm, hv1, _, hv3⟩ := hinv.values_split p idx hp2 hsplit
    have hnd : (idx :: (ys.take p ++ ys.drop (p + 1))).Nodup :=
      List.nodup_middle.mp hinv2.nodup
    have hni : idx ∉ ys.take p ++ ys.drop (p + 1) := (List.nodup_cons.mp hnd).1
    have hfr : ∀ zs : List Int, idx ∉ zs → valuesOf l2 zs = valuesOf l zs := by
      intro zs hzs
      apply valuesOf_congr
      intro x hx
      have : x ≠ idx := fun e2 => hzs (e2 ▸ hx)
      rw [hval]
      simp [Function.update, this]
    have hnew : valuesOf l2 ys =
        valuesOf l (ys.take p) ++ e.Value :: valuesOf l (ys.drop (p + 1)) := by
      conv_lhs => rw [hsplit]
      rw [valuesOf_append, hfr _ (fun h => hni (List.mem_append_left _ h))]
      have : valuesOf l2 (idx :: ys.drop (p + 1)) = e.Value :: valuesOf l2 (ys.drop (p + 1)) := by
        simp only [valuesOf, List.filterMap_cons]
        rw [hval]
        simp
      rw [this, hfr _ (fun h => hni (List.mem_append_right _ h))]
    have hset := set_append_cons (valuesOf l (ys.take p)) (valuesOf l (ys.drop (p + 1))) vm
      e.Value
    rw [hv3, ← hv1, ← hxs] at hset
    rw [hinv3.iterate fuel2 (by rw [← hinv3.toNat_size]; exact hf), hnew, hset]

theorem C13_UpdateEntry_in_place_witness :
    ∃ l2, UpdateEntry exAB 1 exTag = some (l2, none) ∧
      (∃ r, EntryAt l2 1 = some (r, none) ∧ r.Key = exTag.Key ∧ r.Value = exTag.Value ∧
        r.HashId = exTag.HashId) ∧
      Len l2 = Len exAB ∧ Cap l2 = Cap exAB ∧ l2.head = exAB.head ∧ l2.tail = exAB.tail ∧
      l2.freeIdx = exAB.freeIdx ∧ nextAt l2.data = nextAt exAB.data ∧
      prevAt l2.data = prevAt exAB.data ∧ idxAt l2.data = idxAt exAB.data ∧
      (∀ j, j ≠ 1 → readSlot l2.data j = readSlot exAB.data j) ∧
      (∀ xs fuel, Iterate fuel exAB = IterResult.done xs →
        (xs.set 1 exTag.Value).length = xs.length ∧
        ∀ fuel2, (Len l2).toNat ≤ fuel2 →
          Iterate fuel2 l2 = IterResult.done (xs.set 1 exTag.Value)) :=
  C13_UpdateEntry_in_place exAB 1 1 exTag exAB_wf (by decide) (by decide)

theorem PushFront_conserve (l l2 : JList K V) (k : K) (v : V) (r : Option (Entry K V))
    (err : Option String) (h : PushFront l k v = some (l2, r, err)) :
    l2.cap = l.cap ∧
      l2.size + (l2.freeIdx.length : Int) = l.size + (l.freeIdx.length : Int) := by
  rcases eq_nil_or_snoc l.freeIdx with hf | ⟨fs, idx, hf⟩
  · rw [PushFront_exhausted l k v hf] at h
    simp only [Option.some.injEq, Prod.mk.injEq] at h
    rw [← h.1]
    exact ⟨rfl, rfl⟩
  · simp only [PushFront, getNodeIdx_concat l fs idx hf] at h
    replace h := setKey_bind _ _ _ _ _ h
    replace h := setValue_bind _ _ _ _ _ h
    replace h := setIdx_bind _ _ _ _ _ h
    by_cases hc : l.head ≠ -1 ∧ l.tail ≠ -1
    · simp only [modifySlot_head, modifySlot_tail, hc, if_true, ne_eq, not_false_eq_true,
        and_self, Option.pure_def, Option.bind_eq_bind, Option.some_bind] at h
      replace h := setPrev_bind _ _ _ _ _ h
      replace h := setNext_bind _ _ _ _ _ h
      replace h := setNext_bind _ _ _ _ _ h
      replace h := setPrev_bind _ _ _ _ _ h
      obtain ⟨e, -, h⟩ := readSlot_bind _ _ _ _ h
      simp only [Option.some.injEq, Prod.mk.injEq] at h
      rw [← h.1, hf]
      simp [JList.modifySlot]
      omega
    · simp only [modifySlot_head, modifySlot_tail, hc, if_false, Option.pure_def,
        Option.bind_eq_bind, Option.some_bind] at h
      replace h := setNext_bind _ _ _ _ _ h
      replace h := setPrev_bind _ _ _ _ _ h
      obtain ⟨e, -, h⟩ := readSlot_bind _ _ _ _ h
      simp only [Option.some.injEq, Prod.mk.injEq] at h
      rw [← h.1, hf]
      simp [JList.modifySlot]
      omega

theorem PushBack_conserve (l l2 : JList K V) (k : K) (v : V) (r : Option (Entry K V))
    (err : Option String) (h : PushBack l k v = some (l2, r, err)) :
    l2.cap = l.cap ∧
      l2.size + (l2.freeIdx.length : Int) = l.size + (l.freeIdx.length : Int) := by
  rcases eq_nil_or_snoc l.freeIdx with hf | ⟨fs, idx, hf⟩
  · rw [PushBack_exhausted l k v hf] at h
    simp only [Option.some.injEq, Prod.mk.injEq] at h
    rw [← h.1]
    exact ⟨rfl, rfl⟩
  · simp only [PushBack, getNodeIdx_concat l fs idx hf] at h
    replace h := setKey_bind _ _ _ _ _ h
    replace h := setValue_bind _ _ _ _ _ h
    replace h := setIdx_bind _ _ _ _ _ h
    by_cases hc : l.head ≠ -1 ∧ l.tail ≠ -1
    · simp only [modifySlot_head, modifySlot_tail, hc, if_true, ne_eq, not_false_eq_true,
        and_self, Option.pure_def, Option.bind_eq_bind, Option.some_bind] at h
      replace h := setNext_bind _ _ _ _ _ h
      replace h := setPrev_bind _ _ _ _ _ h
      replace h := setPrev_bind _ _ _ _ _ h
      replace h := setNext_bind _ _ _ _ _ h
      obtain ⟨e, -, h⟩ := readSlot_bind _ _ _ _ h
      simp only [Option.some.injEq, Prod.mk.injEq] at h
      rw [← h.1, hf]
      simp [JList.modifySlot]
      omega
    · simp only [modifySlot_head, modifySlot_tail, hc, if_false, Option.pure_def,
        Option.bind_eq_bind, Option.some_bind] at h
      replace h := setNext_bind _ _ _ _ _ h
      replace h := setPrev_bind _ _ _ _ _ h
      obtain ⟨e, -, h⟩ := readSlot_bind _ _ _ _ h
      simp only [Option.some.injEq, Prod.mk.injEq] at h
      rw [← h.1, hf]
      simp [JList.modifySlot]
      omega

theorem insertBefore_conserve (l l2 : JList K V) (k : K) (v : V) (mark : Entry K V)
    (r : Option (Entry K V)) (err : Option String)
    (h : insertBefore l k v mark = some (l2, r, err)) (herr : err ≠ some "invalid node") :
    l2.cap = l.cap ∧
      l2.size + (l2.freeIdx.length : Int) = l.size + (l.freeIdx.length : Int) := by
  rcases eq_nil_or_snoc l.freeIdx with hf | ⟨fs, idx, hf⟩
  · rw [insertBefore_exhausted l k v mark hf] at h
    simp only [Option.some.injEq, Prod.mk.injEq] at h
    rw [← h.1]
    exact ⟨rfl, rfl⟩
  · simp only [insertBefore, getNodeIdx_concat l fs idx hf] at h
    by_cases c1 : l.cap ≤ mark.idx ∨ mark.idx < 0
    · simp only [c1, if_true, Option.some.injEq, Prod.mk.injEq] at h
      exact absurd h.2.2.symm herr
    · simp only [c1, if_false] at h
      obtain ⟨mn, -, h⟩ := readSlot_bind _ _ _ _ h
      by_cases c2 : mn.prev = -1 ∨ mn.next = -1
      · simp only [c2, if_true, Option.some.injEq, Prod.mk.injEq] at h
        exact absurd h.2.2.symm herr
      · simp only [c2, if_false] at h
        replace h := setKey_bind _ _ _ _ _ h
        replace h := setValue_bind _ _ _ _ _ h
        replace h := setIdx_bind _ _ _ _ _ h
        replace h := setNext_bind _ _ _ _ _ h
        replace h := setPrev_bind _ _ _ _ _ h
        replace h := setNext_bind _ _ _ _ _ h
        replace h := setPrev_bind _ _ _ _ _ h
        obtain ⟨e, -, h⟩ := readSlot_bind _ _ _ _ h
        simp only [Option.some.injEq, Prod.mk.injEq] at h
        rw [← h.1, hf]
        split_ifs <;> simp [JList.modifySlot] <;> omega

theorem insertAfter_conserve (l l2 : JList K V) (k : K) (v : V) (mark : Entry K V)
    (r : Option (Entry K V)) (err : Option String)
    (h : insertAfter l k v mark = some (l2, r, err)) (herr : err ≠ some "invalid node") :
    l2.cap = l.cap ∧
      l2.size + (l2.freeIdx.length : Int) = l.size + (l.freeIdx.length : Int) := by
  rcases eq_nil_or_snoc l.freeIdx with hf | ⟨fs, idx, hf⟩
  · rw [insertAfter_exhausted l k v mark hf] at h
    simp only [Option.some.injEq, Prod.mk.injEq] at h
    rw [← h.1]
    exact ⟨rfl, rfl⟩
  · simp only [insertAfter, getNodeIdx_concat l fs idx hf] at h
    by_cases c1 : l.cap ≤ mark.idx ∨ mark.idx < 0
    · simp only [c1, if_true, Option.some.injEq, Prod.mk.injEq] at h
      exact absurd h.2.2.symm herr
    · simp only [c1, if_false] at h
      obtain ⟨mn, -, h⟩ := readSlot_bind _ _ _ _ h
      by_cases c2 : mn.prev = -1 ∨ mn.next = -1
      · simp only [c2, if_true, Option.some.injEq, Prod.mk.injEq] at h
        exact absurd h.2.2.symm herr
      · simp only [c2, if_false] at h
        replace h := setKey_bind _ _ _ _ _ h
        replace h := setValue_bind _ _ _ _ _ h
        replace h := setIdx_bind _ _ _ _ _ h
        replace h := setPrev_bind _ _ _ _ _ h
        replace h := setNext_bind _ _ _ _ _ h
        replace h := setPrev_bind _ _ _ _ _ h
        replace h := setNext_bind _ _ _ _ _ h
        obtain ⟨e, -, h⟩ := readSlot_bind _ _ _ _ h
        simp only [Option.some.injEq, Prod.mk.injEq] at h
        rw [← h.1, hf]
        split_ifs <;> simp [JList.modifySlot] <;> omega

theorem remove_conserve [Inhabited V] (l l2 : JList K V) (e : Option (Entry K V)) (v : V)
    (err : Option String) (h : remove l e = some (l2, v, err)) :
    l2.cap = l.cap ∧
      l2.size + (l2.freeIdx.length : Int) = l.size + (l.freeIdx.length : Int) := by
  cases herr : err with
  | some msg =>
    rw [herr] at h
    rw [remove_fail_unchanged l l2 e v msg h]
    exact ⟨rfl, rfl⟩
  | none =>
    rw [herr] at h
    cases e with
    | none => simp [remove] at h
    | some e =>
      unfold remove at h
      by_cases c1 : e.next = -1 ∨ e.prev = -1
      · simp [c1] at h
      · by_cases c2 : l.cap ≤ e.idx ∨ e.idx < 0
        · simp [c1, c2] at h
        · simp only [c1, c2, if_false] at h
          obtain ⟨node, -, h⟩ := readSlot_bind _ _ _ _ h
          by_cases c3 : node.prev = -1 ∨ node.next = -1
          · simp [c3] at h
          · by_cases c4 : e.next ≠ node.next ∨ e.prev ≠ node.prev
            · simp [c3, c4] at h
            · simp only [c3, c4, if_false] at h
              replace h := setNext_bind _ _ _ _ _ h
              replace h := setPrev_bind _ _ _ _ _ h
              replace h := setPrev_bind _ _ _ _ _ h
              replace h := setNext_bind _ _ _ _ _ h
              simp only [Option.some.injEq, Prod.mk.injEq] at h
              rw [← h.1]
              split_ifs <;> simp [JList.modifySlot, putNodeIdx]

theorem MoveToFront_conserve (l l2 : JList K V) (e : Entry K V) (err : Option String)
    (h : MoveToFront l e = some (l2, err)) :
    l2.cap = l.cap ∧
      l2.size + (l2.freeIdx.length : Int) = l.size + (l.freeIdx.length : Int) := by
  unfold MoveToFront at h
  by_cases c1 : l.cap ≤ e.idx ∨ e.idx < 0
  · simp only [c1, if_true, Option.some.injEq, Prod.mk.injEq] at h
    rw [← h.1]; exact ⟨rfl, rfl⟩
  · simp only [c1, if_false] at h
    obtain ⟨mn, -, h⟩ := readSlot_bind _ _ _ _ h
    by_cases c2 : mn.prev = -1 ∨ mn.next = -1
    · simp only [c2, if_true, Option.some.injEq, Prod.mk.injEq] at h
      rw [← h.1]; exact ⟨rfl, rfl⟩
    · by_cases c3 : e.idx = l.head
      · simp only [c2, c3, if_true, if_false, Option.some.injEq, Prod.mk.injEq] at h
        rw [← h.1]; exact ⟨rfl, rfl⟩
      · simp only [c2, c3, if_false] at h
        replace h := setNext_bind _ _ _ _ _ h
        replace h := setPrev_bind _ _ _ _ _ h
        replace h := setNext_bind _ _ _ _ _ h
        replace h := setPrev_bind _ _ _ _ _ h
        replace h := setNext_bind _ _ _ _ _ h
        replace h := setPrev_bind _ _ _ _ _ h
        simp only [Option.some.injEq, Prod.mk.injEq] at h
        rw [← h.1]
        simp [JList.modifySlot]

theorem MoveToBack_conserve (l l2 : JList K V) (e : Entry K V) (err : Option String)
    (h : MoveToBack l e = some (l2, err)) :
    l2.cap = l.cap ∧
      l2.size + (l2.freeIdx.length : Int) = l.size + (l.freeIdx.length : Int) := by
  unfold MoveToBack at h
  by_cases c1 : l.cap ≤ e.idx ∨ e.idx < 0
  · simp only [c1, if_true, Option.some.injEq, Prod.mk.injEq] at h
    rw [← h.1]; exact ⟨rfl, rfl⟩
  · simp only [c1, if_false] at h
    obtain ⟨mn, -, h⟩ := readSlot_bind _ _ _ _ h
    by_cases c2 : mn.prev = -1 ∨ mn.next = -1
    · simp only [c2, if_true, Option.some.injEq, Prod.mk.injEq] at h
      rw [← h.1]; exact ⟨rfl, rfl⟩
    · by_cases c3 : e.idx = l.tail
      · simp only [c2, c3, if_true, if_false, Option.some.injEq, Prod.mk.injEq] at h
        rw [← h.1]; exact ⟨rfl, rfl⟩
      · simp only [c2, c3, if_false] at h
        replace h := setNext_bind _ _ _ _ _ h
        replace h := setPrev_bind _ _ _ _ _ h
        replace h := setNext_bind _ _ _ _ _ h
        replace h := setPrev_bind _ _ _ _ _ h
        replace h := setNext_bind _ _ _ _ _ h
        replace h := setPrev_bind _ _ _ _ _ h
        simp only [Option.some.injEq, Prod.mk.injEq] at h
        rw [← h.1]
        simp [JList.modifySlot]

theorem UpdateEntry_conserve (l l2 : JList K V) (idx : Int) (e : Entry K V) (err : Option String)
    (h : UpdateEntry l idx e = some (l2, err)) :
    l2.cap = l.cap ∧
      l2.size + (l2.freeIdx.length : Int) = l.size + (l.freeIdx.length : Int) := by
  unfold UpdateEntry at h
  by_cases c1 : l.cap ≤ idx ∨ idx < 0
  · simp only [c1, if_true, Option.some.injEq, Prod.mk.injEq] at h
    rw [← h.1]; exact ⟨rfl, rfl⟩
  · simp only [c1, if_false] at h
    obtain ⟨mn, -, h⟩ := readSlot_bind _ _ _ _ h
    by_cases c2 : mn.prev = -1 ∨ mn.next = -1
    · simp only [c2, if_true, Option.some.injEq, Prod.mk.injEq] at h
      rw [← h.1]; exact ⟨rfl, rfl⟩
    · simp only [c2, if_false] at h
      replace h := setKey_bind _ _ _ _ _ h
      replace h := setHashId_bind _ _ _ _ _ h
      replace h := setValue_bind _ _ _ _ _ h
      simp only [Option.some.injEq, Prod.mk.injEq] at h
      rw [← h.1]
      simp [JList.modifySlot]

/-- C17 fails on the code: `Clear` empties the free stack and keeps `cap`.  After `Clear` on
the list holding one entry (capacity 3), `Len()` is 0 and the free stack is empty while
`Cap()` is 3. -/
theorem C17_Clear_breaks_conservation :
    Reachable (Clear exA) ∧
      Len (Clear exA) + ((Clear exA).freeIdx.length : Int) ≠ Cap (Clear exA) ∧
      Len (Clear exA) = 0 ∧ (Clear exA).freeIdx = [] ∧ Cap (Clear exA) = 3 :=
  ⟨Reachable.clear exA
    (Reachable.pushBack exNew3 exA "A" 1 (some (exEntry 2 2 2 "A" 1)) none
      (Reachable.newList 3 exNew3 (by decide)) (by decide)),
    by decide, by decide, by decide, by decide⟩

/-- C17 as amended: in every state reached from `NewList(capacity)` by the public operations
other than `Clear`, successful or failing, in which no `InsertBefore` or `InsertAfter` call
has returned "invalid node", `Len()` plus the length of the free stack equals `Cap()`; it
holds initially, where the free stack has exactly `capacity` entries; after `Clear` both
`Len()` and the free stack are empty and `Cap()` is unchanged. -/
theorem C17_capacity_conservation [Inhabited K] [Inhabited V] (l : JList K V)
    (hr : ReachableConserving l) :
    Len l + (l.freeIdx.length : Int) = Cap l ∧
      (∀ (capacity : Int) (l0 : JList K V), NewList capacity = some l0 →
        Len l0 = 0 ∧ (l0.freeIdx.length : Int) = capacity ∧ Cap l0 = capacity) ∧
      (Len (Clear l) = 0 ∧ (Clear l).freeIdx = [] ∧ Cap (Clear l) = Cap l) := by
  have hnew : ∀ (capacity : Int) (l0 : JList K V), NewList capacity = some l0 →
      Len l0 = 0 ∧ (l0.freeIdx.length : Int) = capacity ∧ Cap l0 = capacity := by
    intro capacity l0 h
    have hinv := NewList_inv capacity l0 h
    have h1 := hinv.count
    have h2 := hinv.size
    simp only [List.length_nil] at h1 h2
    push_cast at h1 h2
    unfold NewList at h
    by_cases hc : capacity < 0
    · simp [hc] at h
    · simp only [hc, if_false, Option.some.injEq] at h
      have h3 : l0.cap = capacity := by rw [← h]
      refine ⟨h2, ?_, h3⟩
      omega
  refine ⟨?_, hnew, rfl, rfl, rfl⟩
  show l.size + (l.freeIdx.length : Int) = l.cap
  induction hr with
  | newList capacity l h =>
    have := hnew capacity l h
    have h1 : l.size = 0 := this.1
    have h3 : l.cap = capacity := this.2.2
    omega
  | pushFront l l2 k v r err _ hop ih =>
    have := PushFront_conserve l l2 k v r err hop
    omega
  | pushBack l l2 k v r err _ hop ih =>
    have := PushBack_conserve l l2 k v r err hop
    omega
  | insertBefore l l2 k v mark r err _ hop herr ih =>
    have := insertBefore_conserve l l2 k v mark r err hop herr
    omega
  | insertAfter l l2 k v mark r err _ hop herr ih =>
    have := insertAfter_conserve l l2 k v mark r err hop herr
    omega
  | remove l l2 e v err _ hop ih =>
    have := remove_conserve l l2 e v err hop
    omega
  | moveToFront l l2 e err _ hop ih =>
    have := MoveToFront_conserve l l2 e err hop
    omega
  | moveToBack l l2 e err _ hop ih =>
    have := MoveToBack_conserve l l2 e err hop
    omega
  | updateEntry l l2 idx e err _ hop ih =>
    have := UpdateEntry_conserve l l2 idx e err hop
    omega

theorem exAB2_conserving : ReachableConserving exAB2 :=
  ReachableConserving.pushBack exA2 exAB2 "B" 2 (some (exEntry 1 1 0 "B" 2)) none
    (ReachableConserving.pushBack exNew2 exA2 "A" 1 (some (exEntry 1 1 1 "A" 1)) none
      (ReachableConserving.newList 2 exNew2 (by decide)) (by decide)) (by decide)

theorem C17_capacity_conservation_witness :
    Len exAB2Front + (exAB2Front.freeIdx.length : Int) = Cap exAB2Front ∧
      (∀ (capacity : Int) (l0 : JList String Int), NewList capacity = some l0 →
        Len l0 = 0 ∧ (l0.freeIdx.length : Int) = capacity ∧ Cap l0 = capacity) ∧
      (Len (Clear exAB2Front) = 0 ∧ (Clear exAB2Front).freeIdx = [] ∧
        Cap (Clear exAB2Front) = Cap exAB2Front) :=
  C17_capacity_conservation exAB2Front
    (ReachableConserving.moveToFront exAB2 exAB2Front (exEntry 1 1 0 "B" 2) none
      exAB2_conserving (by decide))

theorem readSlot_nil (i : Int) : readSlot ([] : List (Entry K V)) i = none := by
  unfold readSlot
  by_cases h : 0 ≤ i <;> simp [h]

theorem remove_nil_data [Inhabited V] (l l2 : JList K V) (e : Option (Entry K V)) (v : V)
    (err : Option String) (hd : l.data = []) (h : remove l e = some (l2, v, err)) : l2 = l := by
  cases herr : err with
  | some msg =>
    rw [herr] at h
    exact remove_fail_unchanged l l2 e v msg h
  | none =>
    rw [herr] at h
    cases e with
    | none => simp [remove] at h
    | some e =>
      unfold remove at h
      by_cases c1 : e.next = -1 ∨ e.prev = -1
      · simp [c1] at h
      · by_cases c2 : l.cap ≤ e.idx ∨ e.idx < 0
        · simp [c1, c2] at h
        · simp [c1, c2, hd, readSlot_nil] at h

theorem MoveToFront_nil_data (l l2 : JList K V) (e : Entry K V) (err : Option String)
    (hd : l.data = []) (h : MoveToFront l e = some (l2, err)) : l2 = l := by
  unfold MoveToFront at h
  by_cases c1 : l.cap ≤ e.idx ∨ e.idx < 0
  · simp only [c1, if_true, Option.some.injEq, Prod.mk.injEq] at h
    exact h.1.symm
  · simp [c1, hd, readSlot_nil] at h

theorem MoveToBack_nil_data (l l2 : JList K V) (e : Entry K V) (err : Option String)
    (hd : l.data = []) (h : MoveToBack l e = some (l2, err)) : l2 = l := by
  unfold MoveToBack at h
  by_cases c1 : l.cap ≤ e.idx ∨ e.idx < 0
  · simp only [c1, if_true, Option.some.injEq, Prod.mk.injEq] at h
    exact h.1.symm
  · simp [c1, hd, readSlot_nil] at h

theorem UpdateEntry_nil_data (l l2 : JList K V) (idx : Int) (e : Entry K V)
    (err : Option String) (hd : l.data = []) (h : UpdateEntry l idx e = some (l2, err)) :
    l2 = l := by
  unfold UpdateEntry at h
  by_cases c1 : l.cap ≤ idx ∨ idx < 0
  · simp only [c1, if_true, Option.some.injEq, Prod.mk.injEq] at h
    exact h.1.symm
  · simp [c1, hd, readSlot_nil] at h

theorem ReachableFrom_Clear [Inhabited K] [Inhabited V] (l l2 : JList K V)
    (h : ReachableFrom (Clear l) l2) : l2 = Clear l := by
  induction h with
  | start => rfl
  | pushFront m m2 k v r err _ hop ih =>
    rw [ih, PushFront_exhausted (Clear l) k v rfl] at hop
    simp only [Option.some.injEq, Prod.mk.injEq] at hop
    exact hop.1.symm
  | pushBack m m2 k v r err _ hop ih =>
    rw [ih, PushBack_exhausted (Clear l) k v rfl] at hop
    simp only [Option.some.injEq, Prod.mk.injEq] at hop
    exact hop.1.symm
  | insertBefore m m2 k v mark r err _ hop ih =>
    rw [ih, InsertBefore, insertBefore_exhausted (Clear l) k v mark rfl] at hop
    simp only [Option.some.injEq, Prod.mk.injEq] at hop
    exact hop.1.symm
  | insertAfter m m2 k v mark r err _ hop ih =>
    rw [ih, InsertAfter, insertAfter_exhausted (Clear l) k v mark rfl] at hop
    simp only [Option.some.injEq, Prod.mk.injEq] at hop
    exact hop.1.symm
  | remove m m2 e v err _ hop ih =>
    rw [ih] at hop
    exact remove_nil_data (Clear l) m2 e v err rfl hop
  | moveToFront m m2 e err _ hop ih =>
    rw [ih] at hop
    exact MoveToFront_nil_data (Clear l) m2 e err rfl hop
  | moveToBack m m2 e err _ hop ih =>
    rw [ih] at hop
    exact MoveToBack_nil_data (Clear l) m2 e err rfl hop
  | updateEntry m m2 idx e err _ hop ih =>
    rw [ih] at hop
    exact UpdateEntry_nil_data (Clear l) m2 idx e err rfl hop
  | clear m _ ih => rw [ih]; rfl

/-- C15: for every list state `l`, after `Clear()` the list is empty and its capacity is not
reusable: `Len()` is 0, the free stack is empty, `Front()` and `Back()` return nil,
`Iterate()` is empty, `Cap()` is still the original capacity, and in every state reached from
there through the public operations each of `PushFront`, `PushBack`, `InsertBefore` and
`InsertAfter` fails with "memory pool exhausted". -/
theorem C15_Clear_empties_for_good [Inhabited K] [Inhabited V] (l : JList K V) :
    Len (Clear l) = 0 ∧ (Clear l).freeIdx = [] ∧ Front (Clear l) = some none ∧
      Back (Clear l) = some none ∧
      (∀ fuel, Iterate fuel (Clear l) = (IterResult.done [] : IterResult V)) ∧
      Cap (Clear l) = Cap l ∧
      ∀ l2, ReachableFrom (Clear l) l2 → ∀ (k : K) (v : V) (mark : Entry K V),
        PushFront l2 k v = some (l2, none, some "memory pool exhausted") ∧
        PushBack l2 k v = some (l2, none, some "memory pool exhausted") ∧
        InsertBefore l2 k v mark = some (l2, none, some "memory pool exhausted") ∧
        InsertAfter l2 k v mark = some (l2, none, some "memory pool exhausted") := by
  refine ⟨rfl, rfl, by simp [Front, Clear], by simp [Back, Clear], ?_, rfl, ?_⟩
  · intro fuel
    unfold Iterate iterateLoop
    simp [Clear]
  · intro l2 hr k v mark
    have h := ReachableFrom_Clear l l2 hr
    subst h
    exact ⟨PushFront_exhausted _ k v rfl, PushBack_exhausted _ k v rfl,
      insertBefore_exhausted _ k v mark rfl, insertAfter_exhausted _ k v mark rfl⟩

end Jlist
